import Mathlib

/-!
# A model of `map`, the line-by-line command mapper

The Go program reads records from its input, turns every record into a `/bin/bash`
invocation (fields bound to named variables or to positional parameters), runs the
invocations on a pool of workers and prints what the children write.

Go strings and byte slices are lists of bytes.  The Go standard library is modelled where
the program calls it: UTF-8 decoding, `bytes.IndexAny`, `bufio.Scanner` with
`bufio.ScanLines`, `regexp.Regexp.Split`, channels and `sync.WaitGroup`.

* A compiled regular expression is its search function; the theorems about field
  splitting hold for every search function that returns matches inside the string, at or
  after the position searched from.  A matcher for a fragment of the expression syntax
  gives concrete expressions.
* A source is a finite list of bytes served in reads of arbitrary sizes; reads fail only
  with the end of input.
* A child process is what the worker sees of it: whether it starts, the bytes it writes to
  its standard output, whether it exits with success.  The worker reads those bytes
  through a `bufio.Scanner`, as the reader goroutine reads its input.  Children are
  finite, and `Wait` returns for every child.
* `/bin/bash` is modelled as far as it reads its arguments: which one is the command
  string and which ones become `$0`, `$1`, ...
* The goroutines of the pipeline (reader, main, workers, closer) are a step function on a
  state; a run is a schedule, and a property of the pipeline is a property of every state
  every schedule leads to.  A goroutine that is blocked for ever is one that is never
  scheduled again, so every state of the program is a state of some schedule.
-/

namespace GoMap

/-! ## Bytes and UTF-8 -/

/-- Go `string` and `[]byte`: a list of bytes, each a natural number below 256. -/
abbrev Bytes := List Nat

/-- The bytes of an ASCII text. -/
def ascii (s : String) : Bytes := s.toList.map Char.toNat

/-- Go `utf8.RuneError`, the replacement rune that stands for an invalid encoding. -/
def RuneError : Nat := 0xFFFD

/-- Go `utf8.DecodeRune`: the first rune of `p` and its width in bytes; an invalid or
truncated encoding decodes to `(RuneError, 1)` and the empty input to `(RuneError, 0)`. -/
def decodeRune : Bytes → Nat × Nat
  | [] => (RuneError, 0)
  | p0 :: rest =>
    if p0 < 0x80 then (p0, 1)
    else if 0xC2 ≤ p0 ∧ p0 ≤ 0xDF then
      match rest with
      | b1 :: _ =>
        if 0x80 ≤ b1 ∧ b1 ≤ 0xBF then ((p0 % 32) * 64 + b1 % 64, 2) else (RuneError, 1)
      | [] => (RuneError, 1)
    else if 0xE0 ≤ p0 ∧ p0 ≤ 0xEF then
      let lo := if p0 = 0xE0 then 0xA0 else 0x80
      let hi := if p0 = 0xED then 0x9F else 0xBF
      match rest with
      | b1 :: b2 :: _ =>
        if lo ≤ b1 ∧ b1 ≤ hi ∧ 0x80 ≤ b2 ∧ b2 ≤ 0xBF then
          ((p0 % 16) * 4096 + (b1 % 64) * 64 + b2 % 64, 3)
        else (RuneError, 1)
      | _ => (RuneError, 1)
    else if 0xF0 ≤ p0 ∧ p0 ≤ 0xF4 then
      let lo := if p0 = 0xF0 then 0x90 else 0x80
      let hi := if p0 = 0xF4 then 0x8F else 0xBF
      match rest with
      | b1 :: b2 :: b3 :: _ =>
        if lo ≤ b1 ∧ b1 ≤ hi ∧ 0x80 ≤ b2 ∧ b2 ≤ 0xBF ∧ 0x80 ≤ b3 ∧ b3 ≤ 0xBF then
          ((p0 % 8) * 262144 + (b1 % 64) * 4096 + (b2 % 64) * 64 + b3 % 64, 4)
        else (RuneError, 1)
      | _ => (RuneError, 1)
    else (RuneError, 1)

/-- The runes of a Go string, as `for _, r := range s` yields them. -/
def runesAux : Nat → Bytes → List Nat
  | 0, _ => []
  | _, [] => []
  | fuel + 1, b :: bs =>
    (decodeRune (b :: bs)).1 :: runesAux fuel ((b :: bs).drop (decodeRune (b :: bs)).2)

/-- The runes of a Go string. -/
def runes (s : Bytes) : List Nat := runesAux s.length s

/-! ## Regular expressions (`regexp`) -/

/-- A compiled regular expression: its source text and its search function.
`find s pos` is the leftmost match in `s` that starts at or after byte offset `pos`, as
the pair of its start and end offsets (what the library's `doExecute` returns). -/
structure Regexp where
  expr : Bytes
  find : Bytes → Nat → Option (Nat × Nat)

/-- The library's contract on a search result: it lies inside the string, at or after the
position the search started from. -/
def Regexp.WellFormed (re : Regexp) : Prop :=
  ∀ s pos a b, re.find s pos = some (a, b) → pos ≤ a ∧ a ≤ b ∧ b ≤ s.length

/-- The loop of `Regexp.allMatches`: successive non-overlapping matches from `pos`, at most
`n` of them; `i` counts the matches delivered and `prevMatchEnd` is the end of the previous
match (`-1` before the first).  An empty match right after a match is not delivered. -/
def allMatchesAux (re : Regexp) (s : Bytes) (n : Nat) :
    Nat → Nat → Nat → Int → List (Nat × Nat)
  | 0, _, _, _ => []
  | fuel + 1, pos, i, prevMatchEnd =>
    if i < n ∧ pos ≤ s.length then
      match re.find s pos with
      | none => []
      | some (a, b) =>
        let accept : Bool := !(b == pos && (a : Int) == prevMatchEnd)
        let width := (decodeRune (s.drop pos)).2
        let pos1 := if b = pos then (if width > 0 then pos + width else s.length + 1) else b
        if accept then (a, b) :: allMatchesAux re s n fuel pos1 (i + 1) b
        else allMatchesAux re s n fuel pos1 i b
    else []

/-- Go `Regexp.FindAllStringIndex`: the index pairs of the first `n` successive matches,
all of them when `n` is negative. -/
def Regexp.FindAllStringIndex (re : Regexp) (s : Bytes) (n : Int) : List (Nat × Nat) :=
  let n1 : Nat := if n < 0 then s.length + 1 else n.toNat
  allMatchesAux re s n1 (s.length + 2) 0 0 (-1)

/-- The loop of `Regexp.Split` over the matches: `strings` collects the fields, each
recorded as the index pair `(beg, end)` of the substring `s[beg:end]`; the loop stops
early once `n - 1` fields are collected. -/
def splitLoop (n : Int) : List (Nat × Nat) → List (Nat × Nat) → Nat → Nat →
    List (Nat × Nat) × Nat × Nat
  | [], strings, beg, end1 => (strings, beg, end1)
  | (a, b) :: rest, strings, beg, end1 =>
    if n > 0 ∧ (strings.length : Int) = n - 1 then (strings, beg, end1)
    else splitLoop n rest (if b ≠ 0 then strings ++ [(beg, a)] else strings) b a

/-- The fields of `Regexp.Split` as index pairs into `s`. -/
def Regexp.splitSpans (re : Regexp) (s : Bytes) (n : Int) : List (Nat × Nat) :=
  if n = 0 then []
  else if re.expr.length > 0 ∧ s.length = 0 then [(0, 0)]
  else
    match splitLoop n (re.FindAllStringIndex s n) [] 0 0 with
    | (strings, beg, end1) =>
      if end1 ≠ s.length then strings ++ [(beg, s.length)] else strings

/-- Go `s[beg:end]`. -/
def slice (s : Bytes) (span : Nat × Nat) : Bytes := (s.take span.2).drop span.1

/-- Go `Regexp.Split(s, n)`: the substrings of `s` between the matches of the expression;
with `n > 0` at most `n` substrings, the last one being the unsplit remainder. -/
def Regexp.Split (re : Regexp) (s : Bytes) (n : Int) : List Bytes :=
  (re.splitSpans s n).map (slice s)

/-! ### A matcher for a fragment of the expression syntax -/

/-- Abstract syntax of the modelled fragment: literals, rune classes, concatenation,
alternation and the repetitions `*`, `+`, `?` (greedy or not). -/
inductive RE where
  | empty : RE
  | lit (r : Nat) : RE
  | cls (ranges : List (Nat × Nat)) (neg : Bool) : RE
  | cat (a b : RE) : RE
  | alt (a b : RE) : RE
  | star (a : RE) (greedy : Bool) : RE
  | plus (a : RE) (greedy : Bool) : RE
  | quest (a : RE) (greedy : Bool) : RE
  deriving Repr, DecidableEq

/-- Zero or more rounds of `f`, each round consuming input; preferred results first.  A
round that consumes nothing leads back to the state the loop is in, which the library's
matcher visits once only, so such a round is dropped. -/
def starLoop (f : Bytes → List Bytes) (greedy : Bool) : Nat → Bytes → List Bytes
  | 0, s => [s]
  | k + 1, s =>
    let more := ((f s).filter (fun t => t.length < s.length)).flatMap (starLoop f greedy k)
    if greedy then more ++ [s] else s :: more

/-- One or more rounds of `f`: a first round that consumes nothing ends the repetition
(the way back into the loop leads to a state already visited); after a round that
consumes input the repetition goes on as `starLoop`. -/
def plusLoop (f : Bytes → List Bytes) (greedy : Bool) (s : Bytes) : List Bytes :=
  (f s).flatMap (fun t =>
    if t.length < s.length then starLoop f greedy s.length t else [t])

/-- Whether the library's compiler marks the expression as able to match the empty text
(the field `nullable` of its fragments). -/
def RE.nullable : RE → Bool
  | .empty => true
  | .lit _ => false
  | .cls _ _ => false
  | .cat a b => a.nullable && b.nullable
  | .alt a b => a.nullable || b.nullable
  | .star _ _ => true
  | .plus a _ => a.nullable
  | .quest _ _ => true

/-- Backtracking match of `re` at the head of `s`: the inputs left over after each way
to match, in order of preference (the first one is the leftmost-first match).  As in the
library's compiler, `a*` for an `a` that can match the empty text is matched as `(a+)?`. -/
def RE.run : RE → Bytes → List Bytes
  | .empty, s => [s]
  | .lit r, s =>
    if 0 < (decodeRune s).2 ∧ (decodeRune s).1 = r then [s.drop (decodeRune s).2] else []
  | .cls ranges neg, s =>
    if 0 < (decodeRune s).2 ∧
        (ranges.any (fun p => p.1 ≤ (decodeRune s).1 && (decodeRune s).1 ≤ p.2) != neg) then
      [s.drop (decodeRune s).2]
    else []
  | .cat a b, s => (a.run s).flatMap (fun t => b.run t)
  | .alt a b, s => a.run s ++ b.run s
  | .star a g, s =>
    if a.nullable then
      (if g then plusLoop (fun t => a.run t) g s ++ [s]
       else s :: plusLoop (fun t => a.run t) g s)
    else starLoop (fun t => a.run t) g s.length s
  | .plus a g, s => plusLoop (fun t => a.run t) g s
  | .quest a g, s => if g then a.run s ++ [s] else s :: a.run s

/-- Search for the leftmost match: try every rune boundary from `pos` on. -/
def RE.findFrom (re : RE) (s : Bytes) : Nat → Nat → Option (Nat × Nat)
  | 0, _ => none
  | fuel + 1, pos =>
    if s.length < pos then none
    else
      match re.run (s.drop pos) with
      | t :: _ => some (pos, s.length - t.length)
      | [] =>
        if (decodeRune (s.drop pos)).2 = 0 then none
        else RE.findFrom re s fuel (pos + (decodeRune (s.drop pos)).2)

/-- The search function of a parsed expression. -/
def RE.find (re : RE) (s : Bytes) (pos : Nat) : Option (Nat × Nat) :=
  re.findFrom s (s.length + 1 - pos) pos

/-- One open group of the parser: the finished alternatives, the items of the current
concatenation, whether the previous token was a repetition operator, and whether that
operator can still take the `?` that makes it non-greedy. -/
structure Frame where
  alts : List RE
  cur : List RE
  rep : Bool
  lazyOk : Bool

/-- The empty group. -/
def Frame.new : Frame := { alts := [], cur := [], rep := false, lazyOk := false }

/-- Concatenation of a list of expressions. -/
def concatRE : List RE → RE
  | [] => .empty
  | [a] => a
  | a :: rest => .cat a (concatRE rest)

/-- Alternation of a list of expressions. -/
def altRE : List RE → RE
  | [] => .empty
  | [a] => a
  | a :: rest => .alt a (altRE rest)

/-- The expression of a finished group. -/
def Frame.close (f : Frame) : RE := altRE (f.alts ++ [concatRE f.cur])

/-- Append an atom to the current concatenation. -/
def Frame.push (f : Frame) (a : RE) : Frame :=
  { f with cur := f.cur ++ [a], rep := false, lazyOk := false }

/-- The non-greedy form of a repetition. -/
def RE.nonGreedy : RE → RE
  | .star a _ => .star a false
  | .plus a _ => .plus a false
  | .quest a _ => .quest a false
  | r => r

/-- Apply a repetition operator to the last item.  A `?` right after a repetition
operator makes that repetition non-greedy.  `none` when there is no item ("missing
argument to repetition operator") or the last token was a complete repetition already
("invalid nested repetition operator"). -/
def Frame.repeat (f : Frame) (op : Nat) : Option Frame :=
  match f.cur.getLast? with
  | none => none
  | some a =>
    if f.rep then
      if op = 0x3F ∧ f.lazyOk then
        some { f with cur := f.cur.dropLast ++ [a.nonGreedy], lazyOk := false }
      else none
    else
      let r := if op = 0x2A then RE.star a true
        else if op = 0x2B then RE.plus a true else RE.quest a true
      some { f with cur := f.cur.dropLast ++ [r], rep := true, lazyOk := true }

/-- The rune classes. -/
def classSpace : List (Nat × Nat) := [(0x09, 0x0A), (0x0C, 0x0D), (0x20, 0x20)]

/-- Decimal digits. -/
def classDigit : List (Nat × Nat) := [(0x30, 0x39)]

/-- Word characters. -/
def classWord : List (Nat × Nat) := [(0x30, 0x39), (0x41, 0x5A), (0x5F, 0x5F), (0x61, 0x7A)]

/-- ASCII letter or digit. -/
def isAlnum (c : Nat) : Bool :=
  (0x30 ≤ c && c ≤ 0x39) || (0x41 ≤ c && c ≤ 0x5A) || (0x61 ≤ c && c ≤ 0x7A)

/-- The atom of a backslash escape, `none` for an escape outside the fragment. -/
def escapeRE (e : Nat) : Option RE :=
  if e = 0x73 then some (.cls classSpace false)
  else if e = 0x53 then some (.cls classSpace true)
  else if e = 0x64 then some (.cls classDigit false)
  else if e = 0x44 then some (.cls classDigit true)
  else if e = 0x77 then some (.cls classWord false)
  else if e = 0x57 then some (.cls classWord true)
  else if e = 0x74 then some (.lit 0x09)
  else if e = 0x6E then some (.lit 0x0A)
  else if e = 0x72 then some (.lit 0x0D)
  else if e = 0x66 then some (.lit 0x0C)
  else if e = 0x76 then some (.lit 0x0B)
  else if e = 0x61 then some (.lit 0x07)
  else if e < 0x80 ∧ ¬ isAlnum e then some (.lit e)
  else none

/-- Parser for the fragment: literals, `.`, backslash escapes, groups, `|`, and the
operators `*`, `+`, `?` with an optional `?` for the non-greedy form.  `none` is a syntax
error of the library (an unmatched parenthesis, a repetition operator with nothing to
repeat or right after a repetition) or an expression the fragment does not cover, which
the library may well compile: one with `[`, `{`, `^`, `$`, a byte outside ASCII, or an
escape other than those of `escapeRE`. -/
def parseRE : Bytes → Frame → List Frame → Option RE
  | [], f, stack =>
    match stack with
    | [] => some f.close
    | _ :: _ => none
  | c :: rest, f, stack =>
    if c = 0x28 then parseRE rest Frame.new (f :: stack)
    else if c = 0x29 then
      match stack with
      | [] => none
      | g :: stack1 => parseRE rest (g.push f.close) stack1
    else if c = 0x7C then
      parseRE rest
        { alts := f.alts ++ [concatRE f.cur], cur := [], rep := false, lazyOk := false } stack
    else if c = 0x2A ∨ c = 0x2B ∨ c = 0x3F then
      match f.repeat c with
      | none => none
      | some f1 => parseRE rest f1 stack
    else if c = 0x5C then
      match rest with
      | [] => none
      | e :: rest1 =>
        match escapeRE e with
        | none => none
        | some a => parseRE rest1 (f.push a) stack
    else if c = 0x2E then parseRE rest (f.push (.cls [(0x0A, 0x0A)] true)) stack
    else if c = 0x5B ∨ c = 0x7B ∨ c = 0x5E ∨ c = 0x24 ∨ 0x80 ≤ c then none
    else parseRE rest (f.push (.lit c)) stack

/-- Go `regexp.Compile` on the modelled fragment: `none` when `parseRE` gives none, that
is for a syntax error and for an expression outside the fragment. -/
def regexpCompile (expr : Bytes) : Option Regexp :=
  match parseRE expr Frame.new [] with
  | none => none
  | some re => some { expr := expr, find := re.find }

/-- The field splitter of the delimiter `:`, the expression `:+`. -/
def colonRuns : Regexp :=
  { expr := ascii ":+", find := (RE.plus (RE.lit 0x3A) true).find }

/-- The field splitter of the default delimiter, the expression `\s+`. -/
def spaceRuns : Regexp :=
  { expr := ascii "\\s+", find := (RE.plus (RE.cls classSpace false) true).find }

/-! ## Command generators (`main.go`) -/

/-- Go `exec.Cmd` as far as the program sets it: the program path, the argument vector
(`Args[0]` is the program name) and the environment; `Env = none` is the nil slice, with
which the child inherits the environment of the parent. -/
structure Cmd where
  Path : Bytes
  Args : List Bytes
  Env : Option (List Bytes)
  deriving DecidableEq, Repr

/-- Go `exec.Command(name, arg...)` for a name that contains a path separator. -/
def execCommand (name : Bytes) (arg : List Bytes) : Cmd :=
  { Path := name, Args := name :: arg, Env := none }

/-- Go `type cmdGenerator func(string) *exec.Cmd`; `none` is a run-time panic. -/
abbrev cmdGenerator := Bytes → Option Cmd

/-- The loop `for i, v := range fields { env = append(env, varNames[i] + "=" + v) }` of
`NamedVars`, from index `i` on; `none` when `varNames[i]` is out of range. -/
def bindFields (varNames : List Bytes) : Nat → List Bytes → List Bytes → Option (List Bytes)
  | _, [], env => some env
  | i, v :: rest, env =>
    match varNames[i]? with
    | none => none
    | some name => bindFields varNames (i + 1) rest (env ++ [name ++ ascii "=" ++ v])

/-- The generator `NamedVars(command, varNames, fieldSplitter)` applied to `input`; `environ` is what
`os.Environ()` returns. -/
def NamedVars (command : Bytes) (varNames : List Bytes) (fieldSplitter : Regexp)
    (environ : List Bytes) : cmdGenerator := fun input =>
  let process := execCommand (ascii "/bin/bash") [ascii "-c", command]
  match bindFields varNames 0 (fieldSplitter.Split input varNames.length) environ with
  | none => none
  | some env => some { process with Env := some env }

/-- The generator `NumberedVars(command, fieldSplitter)` applied to `input`. -/
def NumberedVars (command : Bytes) (fieldSplitter : Regexp) : cmdGenerator := fun input =>
  let params := [ascii "-c", command, ascii ""] ++ fieldSplitter.Split input (-1)
  some (execCommand (ascii "/bin/bash") params)

/-! ### How `/bin/bash` reads its arguments -/

/-- The single-letter options bash takes without an argument of their own, in an option
argument such as `-x` or `+eu`: the letters of the `set` builtin, `abefhkmnptuvxBCEHPT`,
and `c`. -/
def bashFlag (c : Nat) : Bool := (ascii "abefhkmnptuvxBCEHPT" ++ ascii "c").contains c

/-- The option arguments of bash after `-c`: every argument that starts with `-` or `+`
is read as a group of single-letter options, up to the first argument that starts with
neither; the arguments `-` and `--` end the options.  The result is what remains after
the options; `none` when an option group holds a letter outside `bashFlag` (bash reports
an invalid option, or the option takes an argument of its own, which is not modelled). -/
def bashOptions : List Bytes → Option (List Bytes)
  | [] => some []
  | arg :: rest =>
    if arg.head? = some 0x2D ∨ arg.head? = some 0x2B then
      if arg = ascii "-" ∨ arg = ascii "--" then some rest
      else if arg.tail.all bashFlag then bashOptions rest
      else none
    else some (arg :: rest)

/-- What bash runs: the command string and the parameters `$0`, `$1`, ... -/
structure ShellCall where
  commandString : Bytes
  params : List Bytes
  deriving DecidableEq, Repr

/-- The argument vector `bash -c ...` as bash reads it: after the options, the first
argument is the command string, the next one is `$0` and the following ones are the
positional parameters `$1`, `$2`, ...  `none` when the vector does not start with the
program name and `-c`, when the options are outside the model, or when no argument is
left for the command string (bash reports that `-c` requires an argument). -/
def bashCall : List Bytes → Option ShellCall
  | _ :: first :: rest =>
    if first = ascii "-c" then
      match bashOptions rest with
      | some (commandString :: params) =>
        some { commandString := commandString, params := params }
      | _ => none
    else none
  | _ => none

/-- The value bash gives the parameter `$k` in the invocation `cmd`; `none` when the
parameter is unset or the invocation is outside `bashCall`. -/
def shellParam (cmd : Cmd) (k : Nat) : Option Bytes :=
  match bashCall cmd.Args with
  | some call => call.params[k]?
  | none => none

/-! ## Tokenizer (`main.go`) -/

/-- The search loop of `bytes.IndexAny`: `i` is the offset of `data` in the slice. -/
def indexAnyAux (chars : List Nat) : Nat → Bytes → Nat → Option Nat
  | 0, _, _ => none
  | _, [], _ => none
  | fuel + 1, b :: bs, i =>
    if (decodeRune (b :: bs)).1 ∈ chars then some i
    else indexAnyAux chars fuel ((b :: bs).drop (decodeRune (b :: bs)).2)
      (i + (decodeRune (b :: bs)).2)

/-- Go `bytes.IndexAny(s, chars)`: the byte index of the first rune of `s` that is one of
the runes of `chars`; `none` is the result `-1`. -/
def IndexAny (s : Bytes) (chars : Bytes) : Option Nat :=
  indexAnyAux (runes chars) s.length s 0

/-- Go `bytes.IndexByte(s, c)`; `none` is the result `-1`. -/
def IndexByte : Bytes → Nat → Option Nat
  | [], _ => none
  | b :: bs, c => if b = c then some 0 else (IndexByte bs c).map (· + 1)

/-- Go `bufio.SplitFunc` without its error result (always nil here): from the buffered
data and the end-of-input flag to the number of bytes to advance and the token, `none`
being the nil token that asks for more data. -/
abbrev SplitFunc := Bytes → Bool → Nat × Option Bytes

/-- The split function `customLineSplitter(lineDelimiter)` of `main.go`. -/
def customLineSplitter (lineDelimiter : Bytes) : SplitFunc := fun data atEOF =>
  if atEOF ∧ data.length = 0 then (0, none)
  else
    match IndexAny data lineDelimiter with
    | some i => (i + 1, some (data.take i))
    | none => if atEOF then (data.length, some data) else (0, none)

/-- Go `bufio.dropCR`: drop one trailing carriage return. -/
def dropCR (data : Bytes) : Bytes :=
  if data.length > 0 ∧ data.getLast? = some 0x0D then data.dropLast else data

/-- Go `bufio.ScanLines`. -/
def ScanLines : SplitFunc := fun data atEOF =>
  if atEOF ∧ data.length = 0 then (0, none)
  else
    match IndexByte data 0x0A with
    | some i => (i + 1, some (dropCR (data.take i)))
    | none => if atEOF then (data.length, some (dropCR data)) else (0, none)

/-- Go `bufio.MaxScanTokenSize`: the scanner gives up (`ErrTooLong`) when this many bytes
are buffered without a token. -/
def maxScanTokenSize : Nat := 64 * 1024

/-- An input source: its bytes and the sizes of the successive reads the operating system
serves (a missing size stands for "as much as fits"). -/
structure File where
  content : Bytes
  reads : List Nat

/-- The loop `for scanner.Scan() { ... inputChannel <- line }` of `ReadAllLines` over a
`bufio.Scanner`: `buf` is the buffered data not yet consumed, `rest` the input not yet
read, `eof` whether the end of input was reported.  The result lists the lines sent. -/
def readLoop (split : SplitFunc) (trimSpace : Bytes → Bytes) (trimWhitespace : Bool) :
    Nat → Bytes → Bytes → Bool → List Nat → List Bytes
  | 0, _, _, _, _ => []
  | fuel + 1, buf, rest, eof, reads =>
    if buf ≠ [] ∨ eof then
      if buf.length < (split buf eof).1 then []
      else
        match (split buf eof).2 with
        | some token =>
          (if trimWhitespace then trimSpace token else token) ::
            readLoop split trimSpace trimWhitespace fuel (buf.drop (split buf eof).1)
              rest eof reads
        | none =>
          if eof then []
          else if maxScanTokenSize ≤ (buf.drop (split buf eof).1).length then []
          else if rest = [] then
            readLoop split trimSpace trimWhitespace fuel (buf.drop (split buf eof).1)
              [] true reads
          else
            readLoop split trimSpace trimWhitespace fuel
              (buf.drop (split buf eof).1 ++ rest.take
                (max 1 (min (reads.headD maxScanTokenSize)
                  (maxScanTokenSize - (buf.drop (split buf eof).1).length))))
              (rest.drop
                (max 1 (min (reads.headD maxScanTokenSize)
                  (maxScanTokenSize - (buf.drop (split buf eof).1).length))))
              false reads.tail
    else if rest = [] then readLoop split trimSpace trimWhitespace fuel buf [] true reads
    else
      readLoop split trimSpace trimWhitespace fuel
        (buf ++ rest.take (max 1 (min (reads.headD maxScanTokenSize) maxScanTokenSize)))
        (rest.drop (max 1 (min (reads.headD maxScanTokenSize) maxScanTokenSize)))
        false reads.tail

/-- The call `ReadAllLines(f, lineSplitter, trimWhitespace, inputChannel)`: the lines it sends on
the input channel, in order. -/
def ReadAllLines (f : File) (lineSplitter : SplitFunc) (trimSpace : Bytes → Bytes)
    (trimWhitespace : Bool) : List Bytes :=
  readLoop lineSplitter trimSpace trimWhitespace (2 * f.content.length + 3) [] f.content
    false f.reads

/-- What the reader goroutine does next: send a line, or die on a file it cannot open. -/
inductive ReaderItem where
  | line (r : Bytes) : ReaderItem
  | fatal : ReaderItem
  deriving DecidableEq, Repr

/-- The loop over the named files of `ReadFiles`. -/
def readNamedFiles (openFile : Bytes → Option File) (lineSplitter : SplitFunc)
    (trimSpace : Bytes → Bytes) (trimWhitespace : Bool) : List Bytes → List ReaderItem
  | [] => []
  | filename :: rest =>
    match openFile filename with
    | none => [ReaderItem.fatal]
    | some f =>
      (ReadAllLines f lineSplitter trimSpace trimWhitespace).map ReaderItem.line ++
        readNamedFiles openFile lineSplitter trimSpace trimWhitespace rest

/-- The call `ReadFiles(files, lineSplitter, trimWhitespace, inputChannel)`: the sends of the
reader goroutine in order, up to a fatal open failure; the deferred
`close(inputChannel)` follows the last item. -/
def ReadFiles (stdin : File) (openFile : Bytes → Option File) (trimSpace : Bytes → Bytes)
    (files : List Bytes) (lineSplitter : SplitFunc) (trimWhitespace : Bool) :
    List ReaderItem :=
  if files.length = 0 then
    (ReadAllLines stdin lineSplitter trimSpace trimWhitespace).map ReaderItem.line
  else readNamedFiles openFile lineSplitter trimSpace trimWhitespace files

/-! ## Worker pool (`workers.go`) -/

/-- A child process as the worker sees it: whether `Start` succeeds, the bytes it writes
to its standard output (with the sizes of the reads the pipe serves), and whether `Wait`
reports success.  `Wait` is taken to return: a child that never exits, or that stays
blocked on a full pipe after the scanner has stopped reading, keeps its worker in `Wait`
for ever, which in a run is a worker that takes no further step. -/
structure Child where
  startOk : Bool
  stdout : File
  exitOk : Bool

/-- The loop `for scanner.Scan() { out := scanner.Text() ... }` of `executeTask` over
`bufio.NewScanner(stdout)`: the lines the scanner delivers, with the default split
function `bufio.ScanLines` and no trimming.  The loop ends at the end of the output or at
a line of 64 KiB or more; `executeTask` does not look at `scanner.Err()`. -/
def Child.lines (c : Child) : List Bytes :=
  readLoop ScanLines (fun t => t) false (2 * c.stdout.content.length + 3) [] c.stdout.content
    false c.stdout.reads

/-- Go `type Mapper struct`. -/
structure Mapper where
  workers : Int
  echoInput : Bool
  outputDelimiter : Bytes
  generateCmd : cmdGenerator

/-- The string `executeTask` sends for the output line `out` of the child of `line`. -/
def Mapper.echoLine (m : Mapper) (line out : Bytes) : Bytes :=
  if m.echoInput then line ++ m.outputDelimiter ++ out else out

/-- A worker goroutine (`executeTask`): waiting for a line, streaming the output of the
child of `line` (`out` lists the lines the scanner is still to deliver, `exitOk` is the
result `Wait` will give), or finished (`wg.Done()` called). -/
inductive Worker where
  | idle : Worker
  | running (line : Bytes) (out : List Bytes) (exitOk : Bool) : Worker
  | done : Worker
  deriving DecidableEq, Repr

/-- The main goroutine: in the loop of `Map` with `w` workers started, in the output loop
of `Run`, or returned from `Run`. -/
inductive Phase where
  | spawning (w : Nat) : Phase
  | draining : Phase
  | returned : Phase
  deriving DecidableEq, Repr

/-- The goroutine `go func() { wg.Wait(); close(outputChannel) }()` of `Map`. -/
inductive Closer where
  | absent : Closer
  | waiting : Closer
  | done : Closer
  deriving DecidableEq, Repr

/-- The run-time panics the pipeline could raise: a send on a closed channel, the close
of a closed channel, a `WaitGroup` counter below zero, and a panic inside the command
generator. -/
inductive Panic where
  | sendOnClosed : Panic
  | closeOfClosed : Panic
  | negativeCounter : Panic
  | generateCmd : Panic
  deriving DecidableEq, Repr

/-- The process: running, ended by `log.Fatal`, or ended by a run-time panic. -/
inductive Status where
  | running : Status
  | fatal : Status
  | panicked (why : Panic) : Status
  deriving DecidableEq, Repr

/-- The capacity `1<<4` of both channels. -/
def chanCap : Nat := 16

/-- The state of the pipeline: the reader goroutine (`items` still to send, `readerDone`
once its deferred close ran), the two channels, the workers started, the `WaitGroup`
counter, the closer goroutine, the main goroutine and the lines printed.  Two history
variables record what has happened: `closes` counts the executions of
`close(outputChannel)` and `pushed` lists the strings sent on the output channel. -/
structure State where
  items : List ReaderItem
  readerDone : Bool
  inChan : List Bytes
  inClosed : Bool
  workers : List Worker
  wg : Nat
  closer : Closer
  outChan : List Bytes
  outClosed : Bool
  closes : Nat
  pushed : List Bytes
  main : Phase
  sink : List Bytes
  status : Status

/-- The state when `Run` calls `mapper.Map`: the reader goroutine is started, nothing
else has happened. -/
def State.init (items : List ReaderItem) : State :=
  { items := items, readerDone := false, inChan := [], inClosed := false, workers := [],
    wg := 0, closer := Closer.absent, outChan := [], outClosed := false, closes := 0,
    pushed := [], main := Phase.spawning 0, sink := [], status := Status.running }

/-- The goroutines. -/
inductive Action where
  | reader : Action
  | main : Action
  | worker (i : Nat) : Action
  | closer : Action
  deriving DecidableEq, Repr

/-- The next step of the reader goroutine; `none` when it is blocked or finished. -/
def stepReader (s : State) : Option State :=
  if s.readerDone then none
  else
    match s.items with
    | [] =>
      if s.inClosed then some { s with status := Status.panicked Panic.closeOfClosed }
      else some { s with inClosed := true, readerDone := true }
    | ReaderItem.fatal :: _ => some { s with status := Status.fatal }
    | ReaderItem.line r :: rest =>
      if s.inClosed then some { s with status := Status.panicked Panic.sendOnClosed }
      else if s.inChan.length < chanCap then
        some { s with items := rest, inChan := s.inChan ++ [r] }
      else none

/-- One round of the main goroutine inside `Map`, with `w` workers started: start the
next worker (`wg.Add(1)`, `go m.executeTask`), or, after the last one, start the closer
goroutine and return to the output loop of `Run`. -/
def Mapper.Map (m : Mapper) (w : Nat) (s : State) : State :=
  if (w : Int) < m.workers then
    { s with wg := s.wg + 1, workers := s.workers ++ [Worker.idle],
             main := Phase.spawning (w + 1) }
  else { s with closer := Closer.waiting, main := Phase.draining }

/-- The next step of the main goroutine: a round of `Map`, or in the output loop of `Run`
print a line of the output channel, or return once it is closed and empty. -/
def stepMain (m : Mapper) (s : State) : Option State :=
  match s.main with
  | Phase.spawning w => some (m.Map w s)
  | Phase.draining =>
    match s.outChan with
    | out :: rest => some { s with outChan := rest, sink := s.sink ++ [out] }
    | [] => if s.outClosed then some { s with main := Phase.returned } else none
  | Phase.returned => none

/-- The next step of worker `i`, the goroutine `m.executeTask`: take a line, start its
child and put a scanner on its standard output; send the next line of the scanner; wait
for the child when the scanner has stopped (`Wait` is taken to return, see `Child`); or
call `wg.Done()` when the input channel is closed and empty. -/
def Mapper.executeTask (m : Mapper) (exec : Cmd → Child) (i : Nat) (s : State) : Option State :=
  match s.workers[i]? with
  | none => none
  | some Worker.done => none
  | some Worker.idle =>
    match s.inChan with
    | line :: rest =>
      match m.generateCmd line with
      | none => some { s with status := Status.panicked Panic.generateCmd }
      | some process =>
        if (exec process).startOk then
          some { s with inChan := rest,
                        workers := s.workers.set i
                          (Worker.running line (exec process).lines (exec process).exitOk) }
        else some { s with status := Status.fatal }
    | [] =>
      if s.inClosed then
        if s.wg = 0 then some { s with status := Status.panicked Panic.negativeCounter }
        else some { s with wg := s.wg - 1, workers := s.workers.set i Worker.done }
      else none
  | some (Worker.running line (out :: rest) exitOk) =>
    if s.outClosed then some { s with status := Status.panicked Panic.sendOnClosed }
    else if s.outChan.length < chanCap then
      some { s with outChan := s.outChan ++ [m.echoLine line out],
                    pushed := s.pushed ++ [m.echoLine line out],
                    workers := s.workers.set i (Worker.running line rest exitOk) }
    else none
  | some (Worker.running _ [] exitOk) =>
    if exitOk then some { s with workers := s.workers.set i Worker.idle }
    else some { s with status := Status.fatal }

/-- The step of the closer goroutine: once the counter is zero, close the output
channel. -/
def stepCloser (s : State) : Option State :=
  match s.closer with
  | Closer.waiting =>
    if s.wg = 0 then
      if s.outClosed then some { s with status := Status.panicked Panic.closeOfClosed }
      else some { s with outClosed := true, closes := s.closes + 1, closer := Closer.done }
    else none
  | _ => none

/-- One step of the process: the goroutine `a` moves.  Nothing moves once the process has
ended (fatal error, panic, or `Run` returned). -/
def step (m : Mapper) (exec : Cmd → Child) (a : Action) (s : State) : Option State :=
  if s.status ≠ Status.running ∨ s.main = Phase.returned then none
  else
    match a with
    | Action.reader => stepReader s
    | Action.main => stepMain m s
    | Action.worker i => m.executeTask exec i s
    | Action.closer => stepCloser s

/-- Run the goroutines in the order of a schedule. -/
def runSchedule (m : Mapper) (exec : Cmd → Child) : List Action → State → Option State
  | [], s => some s
  | a :: rest, s =>
    match step m exec a s with
    | none => none
    | some s1 => runSchedule m exec rest s1

/-- A state some schedule leads to. -/
def Reachable (m : Mapper) (exec : Cmd → Child) (s0 s : State) : Prop :=
  ∃ schedule, runSchedule m exec schedule s0 = some s

/-! ## `Run` (`main.go`) -/

/-- Go `type MapFlags struct`. -/
structure MapFlags where
  NumJobs : Int
  InputFiles : List Bytes
  NoTrimWhitespace : Bool
  FieldDelimiter : Bytes
  LineDelimiter : Bytes
  EchoInput : Bool
  OutputDelimiter : Bytes

/-- What a run depends on outside the program: the result of `os.Stdin.Stat()` (an error
or the mode bits), whether standard input is an interactive terminal (the program never
asks; it looks at the mode bits only), standard input, the file system, the environment,
the children, and the library functions `regexp.Compile` and `strings.TrimSpace`. -/
structure World where
  stdinStat : Except Bytes Nat
  stdinTerminal : Bool
  stdin : File
  openFile : Bytes → Option File
  environ : List Bytes
  exec : Cmd → Child
  compile : Bytes → Option Regexp
  trimSpace : Bytes → Bytes

/-- Go `os.ModeCharDevice`. -/
def ModeCharDevice : Nat := 2 ^ 21

/-- The errors `Run` returns. -/
inductive RunError where
  | noFunction : RunError
  | emptyArgument : RunError
  | noInput : RunError
  | stat (err : Bytes) : RunError
  deriving DecidableEq, Repr

/-- The text of an error. -/
def RunError.message : RunError → Bytes
  | .noFunction => ascii "No function given!"
  | .emptyArgument => ascii "No empty string allowed as VAR or COMMAND"
  | .noInput => ascii "No stdin and no files given."
  | .stat err => err

/-- The usage errors: the three errors `Run` makes itself. -/
def RunError.isUsage : RunError → Bool
  | .stat _ => false
  | _ => true

/-- What `Run` has set in motion. -/
inductive Effect where
  | statStdin : Effect
  | compileFieldSplitter : Effect
  | makeInputChannel : Effect
  | startReader : Effect
  | startWorkers : Effect
  deriving DecidableEq, Repr

/-- How `Run` goes on after its checks. -/
inductive RunResult where
  | error (e : RunError) : RunResult
  | panic : RunResult
  | pipeline (m : Mapper) (init : State) : RunResult

/-- The check of standard input in `Run`, made when no input file is given. -/
def checkStdin (w : World) : Option RunError :=
  match w.stdinStat with
  | .error err => some (RunError.stat err)
  | .ok mode => if mode &&& ModeCharDevice ≠ 0 then some RunError.noInput else none

/-- The line splitter `Run` chooses. -/
def lineSplitterOf (flags : MapFlags) : SplitFunc :=
  if flags.LineDelimiter ≠ ascii "\n" then customLineSplitter flags.LineDelimiter
  else ScanLines

/-- The field splitter `Run` compiles: `regexp.MustCompile(flags.FieldDelimiter + "+")`. -/
def fieldSplitterOf (w : World) (flags : MapFlags) : Option Regexp :=
  w.compile (flags.FieldDelimiter ++ ascii "+")

/-- The command generator `Run` chooses from the number of arguments. -/
def generateCmdOf (w : World) (fieldSplitter : Regexp) (args : List Bytes) : cmdGenerator :=
  if args.length = 1 then NumberedVars (args.headD []) fieldSplitter
  else NamedVars (args.getLastD []) args.dropLast fieldSplitter w.environ

/-- The call `Run(flags, args)`: the effects it has had when it returns an error, panics or enters
its output loop, and which of the three it is.  In the last case the process goes on
from the state `init` by the steps of the goroutines. -/
def Run (w : World) (flags : MapFlags) (args : List Bytes) : List Effect × RunResult :=
  if args.length < 1 then ([], RunResult.error RunError.noFunction)
  else if args.any (fun arg => arg.length == 0) then
    ([], RunResult.error RunError.emptyArgument)
  else
    match (if flags.InputFiles.length = 0 then checkStdin w else none) with
    | some e =>
      ([Effect.statStdin], RunResult.error e)
    | none =>
      let before := if flags.InputFiles.length = 0 then [Effect.statStdin] else []
      match fieldSplitterOf w flags with
      | none => (before ++ [Effect.compileFieldSplitter], RunResult.panic)
      | some fieldSplitter =>
        let mapper : Mapper :=
          { workers := flags.NumJobs, echoInput := flags.EchoInput,
            outputDelimiter := flags.OutputDelimiter,
            generateCmd := generateCmdOf w fieldSplitter args }
        (before ++ [Effect.compileFieldSplitter, Effect.makeInputChannel,
            Effect.startReader, Effect.startWorkers],
          RunResult.pipeline mapper
            (State.init (ReadFiles w.stdin w.openFile w.trimSpace flags.InputFiles
              (lineSplitterOf flags) (!flags.NoTrimWhitespace))))

/-! ## Specification-side definitions -/

/-- The pieces of `data` cut at (and without) every byte that satisfies `p`; data after
the last such byte is the final piece, and there is no empty piece after a final
delimiter. -/
def pieces (p : Nat → Bool) : Bytes → List Bytes
  | [] => []
  | b :: bs =>
    if p b then [] :: pieces p bs
    else
      match pieces p bs with
      | [] => [[b]]
      | piece :: rest => (b :: piece) :: rest

/-- The separators of a record: the matches of the field pattern the library finds in it,
in order, except an empty match at the very start or at the very end of the record, which
has no field on one of its sides. -/
def Regexp.separators (re : Regexp) (s : Bytes) : List (Nat × Nat) :=
  (re.FindAllStringIndex s (-1)).filter (fun m => decide (m.2 ≠ 0 ∧ m.1 ≠ s.length))

/-- The fields of the record `s` from offset `beg` on, cut at no more than `j` of the
separators `seps` (index pairs into `s`): a field runs from `beg` to the start of the
next separator and the next field begins where that separator ends; when `j` separators
have been used, or none is left, the field is the whole remainder of the record. -/
def cutAt (s : Bytes) : Nat → Nat → List (Nat × Nat) → List Bytes
  | 0, beg, _ => [s.drop beg]
  | _ + 1, beg, [] => [s.drop beg]
  | j + 1, beg, (a, b) :: rest => slice s (beg, a) :: cutAt s j b rest

/-- A pattern none of whose matches is empty, such as `:+` and `\s+`. -/
def Regexp.NonEmptyMatches (re : Regexp) : Prop :=
  ∀ s pos a b, re.find s pos = some (a, b) → a < b

/-- The fields of the record `s` from offset `beg` on when no more than `j` separators are
used, found by searching: the field ends where the first match at or after `beg` starts
and the next field begins where that match ends; when `j` separators have been used, or
the search finds no match, the field is the whole remainder of the record. -/
def fieldsBetween (find : Bytes → Nat → Option (Nat × Nat)) (s : Bytes) :
    Nat → Nat → List Bytes
  | 0, beg => [s.drop beg]
  | j + 1, beg =>
    match find s beg with
    | none => [s.drop beg]
    | some (a, b) => slice s (beg, a) :: fieldsBetween find s j b

/-- The output lines of a child: the byte sequences its output has between newlines,
with trailing data after the last newline as the last line. -/
def Child.printed (c : Child) : List Bytes :=
  pieces (fun b => decide (b = 0x0A)) c.stdout.content

/-- The concatenation, in record order, of the output lines of the children of the
records, each line finished by `post` and then prefixed as the worker prefixes it. -/
def mappedOutput (m : Mapper) (exec : Cmd → Child) (post : Bytes → Bytes) :
    List Bytes → List Bytes
  | [] => []
  | r :: rest =>
    (match m.generateCmd r with
      | none => []
      | some process => ((exec process).printed.map post).map (m.echoLine r)) ++
      mappedOutput m exec post rest

/-- The usage faults in the words of the specification: no argument, an empty argument,
or no input file while standard input is an interactive terminal. -/
def TerminalFault (w : World) (flags : MapFlags) (args : List Bytes) : Prop :=
  args = [] ∨ (∃ arg ∈ args, arg = []) ∨
    (flags.InputFiles = [] ∧ w.stdinTerminal = true)

/-- The lines the scanners of the workers deliver from the children of the records, in
record order, each as the worker sends it. -/
def expectedOutput (m : Mapper) (exec : Cmd → Child) : List Bytes → List Bytes
  | [] => []
  | r :: rest =>
    (match m.generateCmd r with
      | none => []
      | some process => (exec process).lines.map (m.echoLine r)) ++
      expectedOutput m exec rest

/-! ## Definitions used in the statements and proofs -/

/-- The loop of `allMatches` without the cap on the number of matches. -/
def allMatchesFrom (re : Regexp) (s : Bytes) : Nat → Nat → Int → List (Nat × Nat)
  | 0, _, _ => []
  | fuel + 1, pos, prevMatchEnd =>
    if pos ≤ s.length then
      match re.find s pos with
      | none => []
      | some (a, b) =>
        let accept : Bool := !(b == pos && (a : Int) == prevMatchEnd)
        let width := (decodeRune (s.drop pos)).2
        let pos1 := if b = pos then (if width > 0 then pos + width else s.length + 1) else b
        if accept then (a, b) :: allMatchesFrom re s fuel pos1 b
        else allMatchesFrom re s fuel pos1 b
    else []

/-- Separator matches that can follow one another: every match ends after offset 0 and
inside the string, and a match that is not the last starts before the end. -/
def Spaced (len : Nat) : List (Nat × Nat) → Prop
  | [] => True
  | (a, b) :: rest => 0 < b ∧ b ≤ len ∧ (rest ≠ [] → a < len) ∧ Spaced len rest

/-- The fields the uncapped loop of `Split` adds from the state `(beg, end1)` on. -/
def tailSpans (len : Nat) : Nat → Nat → List (Nat × Nat) → List (Nat × Nat)
  | beg, end1, [] => if end1 ≠ len then [(beg, len)] else []
  | beg, _, (a, b) :: rest => (beg, a) :: tailSpans len b a rest

/-- The fields the loop of `Split` adds when it may take `j` more matches. -/
def cappedTail (len : Nat) : Nat → Nat → Nat → List (Nat × Nat) → List (Nat × Nat)
  | 0, beg, end1, _ => if end1 ≠ len then [(beg, len)] else []
  | _ + 1, beg, end1, [] => if end1 ≠ len then [(beg, len)] else []
  | j + 1, beg, _, (a, b) :: rest => (beg, a) :: cappedTail len j b a rest

/-- The matches `allMatches` delivers: from the second on they are `Spaced`, and the first
starts before the end when another follows. -/
def Separators (len : Nat) : List (Nat × Nat) → Prop
  | [] => True
  | (a, _) :: rest => (rest ≠ [] → a < len) ∧ Spaced len rest

/-- The last statement of `Split`: add the remainder unless the last match starts at the
end of the string. -/
def finishSplit (len : Nat) (r : List (Nat × Nat) × Nat × Nat) : List (Nat × Nat) :=
  if r.2.2 ≠ len then r.1 ++ [(r.2.1, len)] else r.1

/-- The test of `Regexp.separators`: the match is not an empty match at the start or at
the end of a string of length `len`. -/
def keepMatch (len : Nat) (m : Nat × Nat) : Bool := decide (m.2 ≠ 0 ∧ m.1 ≠ len)

/-- The index of the first byte of `data` that satisfies `p`. -/
def firstIdx (p : Nat → Bool) : Bytes → Option Nat
  | [] => none
  | b :: bs => if p b then some 0 else (firstIdx p bs).map (· + 1)

/-- The shape shared by `bufio.ScanLines` and `customLineSplitter`: a token ends at the
index `idx` finds, the delimiter is one byte wide, and `post` finishes the token. -/
def delimSplit (idx : Bytes → Option Nat) (post : Bytes → Bytes) : SplitFunc :=
  fun data atEOF =>
    if atEOF ∧ data.length = 0 then (0, none)
    else
      match idx data with
      | some i => (i + 1, some (post (data.take i)))
      | none => if atEOF then (data.length, some (post data)) else (0, none)

/-- A worker that has not called `wg.Done()`. -/
def Worker.active : Worker → Bool
  | Worker.done => false
  | _ => true

/-- The number of workers that have not called `wg.Done()`. -/
def activeCount : List Worker → Nat
  | [] => 0
  | w :: ws => (if w.active then 1 else 0) + activeCount ws

/-- The strings a worker is still to send for its current child. -/
def Worker.pending (m : Mapper) : Worker → List Bytes
  | Worker.running line out _ => out.map (m.echoLine line)
  | _ => []

/-- The strings the workers are still to send for their current children. -/
def pendingOutput (m : Mapper) : List Worker → List Bytes
  | [] => []
  | w :: ws => w.pending m ++ pendingOutput m ws

/-- The lines among the items of the reader. -/
def linesOf : List ReaderItem → List Bytes
  | [] => []
  | ReaderItem.line r :: rest => r :: linesOf rest
  | ReaderItem.fatal :: rest => linesOf rest

/-- What holds in every state of a run. -/
structure Inv (m : Mapper) (s : State) : Prop where
  closes : s.closes = if s.outClosed then 1 else 0
  closer : s.outClosed = true ↔ s.closer = Closer.done
  wg : s.wg = activeCount s.workers
  quiet : s.closer = Closer.done → s.wg = 0
  spawning : ∀ w, s.main = Phase.spawning w → s.workers.length = w ∧ s.closer = Closer.absent
  mapped : (∀ w, s.main ≠ Phase.spawning w) →
    s.closer ≠ Closer.absent ∧ ¬ ((s.workers.length : Int) < m.workers)
  bound : (s.workers.length : Int) ≤ max m.workers 0
  returned : s.main = Phase.returned → s.outClosed = true ∧ s.outChan = []
  reader : s.readerDone = s.inClosed
  items : s.inClosed = true → s.items = []
  drained : Worker.done ∈ s.workers → s.inClosed = true ∧ s.inChan = []
  pushed : s.sink ++ s.outChan = s.pushed
  panic : ∀ why, s.status = Status.panicked why → why = Panic.generateCmd

/-- The steps a worker has ahead of it, apart from new lines. -/
def Worker.cost : Worker → Nat
  | Worker.idle => 1
  | Worker.running _ out _ => 2 * out.length + 2
  | Worker.done => 0

/-- The steps of the workers. -/
def workersCost : List Worker → Nat
  | [] => 0
  | w :: ws => w.cost + workersCost ws

/-- Twice the number of lines the scanner delivers from the child of a line. -/
def lineCost (m : Mapper) (exec : Cmd → Child) (r : Bytes) : Nat :=
  match m.generateCmd r with
  | none => 0
  | some process => 2 * (exec process).lines.length

/-- The steps ahead for the lines in the input channel. -/
def chanCost (m : Mapper) (exec : Cmd → Child) : List Bytes → Nat
  | [] => 0
  | r :: rest => lineCost m exec r + 3 + chanCost m exec rest

/-- The steps ahead for the items of the reader. -/
def itemsCost (m : Mapper) (exec : Cmd → Child) : List ReaderItem → Nat
  | [] => 0
  | ReaderItem.line r :: rest => lineCost m exec r + 4 + itemsCost m exec rest
  | ReaderItem.fatal :: rest => itemsCost m exec rest

/-- A bound on the number of steps a run can still take. -/
def State.cost (m : Mapper) (exec : Cmd → Child) (s : State) : Nat :=
  (if s.status = Status.running then 1 else 0) +
  (match s.main with
    | Phase.spawning w => 2 * (m.workers - (w : Int)).toNat + 3
    | Phase.draining => 1
    | Phase.returned => 0) +
  (if s.closer = Closer.done then 0 else 1) +
  (if s.readerDone then 0 else 1) +
  itemsCost m exec s.items + chanCost m exec s.inChan + workersCost s.workers +
  s.outChan.length

/-- With one worker, the lines printed, queued, pending and still to come make up the
expected output. -/
def Ordered (m : Mapper) (exec : Cmd → Child) (expected : List Bytes) (s : State) : Prop :=
  s.sink ++ s.outChan ++ pendingOutput m s.workers ++
    expectedOutput m exec (s.inChan ++ linesOf s.items) = expected

/-- The flag values `NewCmd` gives when no flag is passed. -/
def defaultFlags : MapFlags :=
  { NumJobs := 1, InputFiles := [], NoTrimWhitespace := false, FieldDelimiter := ascii "\\s",
    LineDelimiter := ascii "\n", EchoInput := false, OutputDelimiter := ascii " " }

/-- A child that runs `echo $1`: it prints its first positional parameter as one line and
exits with success. -/
def echoFirst : Cmd → Child := fun process =>
  { startOk := true,
    stdout := { content := (shellParam process 1).getD [] ++ [0x0A], reads := [] },
    exitOk := true }

/-- The mapper of `map 'echo $1'` with the given number of workers. -/
def echoMapper (workers : Int) : Mapper :=
  { workers := workers, echoInput := false, outputDelimiter := ascii " ",
    generateCmd := NumberedVars (ascii "echo $1") spaceRuns }

/-- The usage faults of a call of `Run`: no argument, an empty argument, or no input
file while `Stat` reports standard input as a character device (a terminal, but also a
device such as `/dev/null`). -/
def UsageFault (w : World) (flags : MapFlags) (args : List Bytes) : Prop :=
  args = [] ∨ (∃ arg ∈ args, arg = []) ∨
    (flags.InputFiles = [] ∧
      ∃ mode, w.stdinStat = Except.ok mode ∧ mode &&& ModeCharDevice ≠ 0)

/-- A world for the examples: standard input is an empty pipe (mode `ModeNamedPipe` with
permissions 0660), no file can be opened, the environment is empty, every child runs
`echo $1`, expressions are compiled by `regexpCompile`, and trimming is the identity. -/
def sampleWorld : World :=
  { stdinStat := Except.ok (2 ^ 25 + 432), stdinTerminal := false,
    stdin := { content := [], reads := [] },
    openFile := fun _ => none, environ := [], exec := echoFirst,
    compile := regexpCompile, trimSpace := id }

/-- The world of `map cat < /dev/null`: `Stat` reports the mode of `/dev/null`, a character
device (`ModeDevice`, `ModeCharDevice` and the permissions 0666), which is not a
terminal. -/
def devNullWorld : World :=
  { sampleWorld with stdinStat := Except.ok (2 ^ 26 + 2 ^ 21 + 438), stdinTerminal := false }

/-- The mapper of `map -d : 'echo $1'` with one worker: the whole record is `$1` unless
it holds a colon. -/
def colonMapper : Mapper :=
  { echoMapper 1 with generateCmd := NumberedVars (ascii "echo $1") colonRuns }

/-- A schedule of a whole run with one worker and one record. -/
def scheduleSingle : List Action :=
  [Action.reader, Action.reader, Action.main, Action.main, Action.worker 0,
   Action.worker 0, Action.worker 0, Action.worker 0, Action.closer, Action.main,
   Action.main]

/-- A schedule of a whole run with one worker and two records. -/
def scheduleOne : List Action :=
  [Action.reader, Action.reader, Action.reader, Action.main, Action.main,
   Action.worker 0, Action.worker 0, Action.worker 0, Action.worker 0, Action.worker 0,
   Action.worker 0, Action.worker 0, Action.closer, Action.main, Action.main, Action.main]

/-- A schedule of a whole run with two workers and two records, in which the second
record is printed first. -/
def scheduleTwo : List Action :=
  [Action.main, Action.main, Action.main, Action.reader, Action.reader, Action.reader,
   Action.worker 0, Action.worker 1, Action.worker 1, Action.worker 0, Action.worker 0,
   Action.worker 1, Action.worker 0, Action.worker 1, Action.closer, Action.main,
   Action.main, Action.main]

/-- The state in which worker 0 streams the output `world` of the child of `hello`. -/
def echoState : State :=
  { State.init [] with
    workers := [Worker.running (ascii "hello") [ascii "world"] true], wg := 1,
    closer := Closer.waiting, main := Phase.draining }

/-- ASCII white space, as `strings.TrimSpace` sees it on ASCII text. -/
def isAsciiSpace (b : Nat) : Bool :=
  b == 0x09 || b == 0x0A || b == 0x0B || b == 0x0C || b == 0x0D || b == 0x20

/-- Go `strings.TrimSpace` on ASCII text: drop leading and trailing white space. -/
def trimSpaceAscii (t : Bytes) : Bytes :=
  ((t.dropWhile isAsciiSpace).reverse.dropWhile isAsciiSpace).reverse

/-- With any number of workers, the lines printed, queued, pending and still to come are
the expected output up to order. -/
def Balanced (m : Mapper) (exec : Cmd → Child) (expected : List Bytes) (s : State) : Prop :=
  (s.sink ++ s.outChan ++ pendingOutput m s.workers ++
    expectedOutput m exec (s.inChan ++ linesOf s.items)).Perm expected

/-! ## Theorems -/

theorem allMatchesAux_eq_take (re : Regexp) (s : Bytes) (n : Nat) :
    ∀ fuel pos i prev,
      allMatchesAux re s n fuel pos i prev = (allMatchesFrom re s fuel pos prev).take (n - i) := by
  intro fuel
  induction fuel with
  | zero => intro pos i prev; simp [allMatchesAux, allMatchesFrom]
  | succ fuel ih =>
    intro pos i prev
    simp only [allMatchesAux, allMatchesFrom]
    by_cases hi : i < n
    · by_cases hp : pos ≤ s.length
      · simp only [hi, hp, and_self, if_true]
        cases hf : re.find s pos with
        | none => simp
        | some m =>
          obtain ⟨a, b⟩ := m
          simp only
          split
          · rw [ih]
            have : n - i = (n - (i + 1)) + 1 := by omega
            rw [this, List.take_succ_cons]
          · rw [ih]
      · simp [hp]
    · have : n - i = 0 := by omega
      simp [hi, this]

theorem allMatchesFrom_length (re : Regexp) (hre : re.WellFormed) (s : Bytes) :
    ∀ fuel pos prev, (allMatchesFrom re s fuel pos prev).length ≤ s.length + 1 - pos := by
  intro fuel
  induction fuel with
  | zero => intro pos prev; simp [allMatchesFrom]
  | succ fuel ih =>
    intro pos prev
    simp only [allMatchesFrom]
    by_cases hp : pos ≤ s.length
    · simp only [hp, if_true]
      cases hf : re.find s pos with
      | none => simp
      | some m =>
        obtain ⟨a, b⟩ := m
        obtain ⟨h1, h2, h3⟩ := hre s pos a b hf
        simp only
        have hpos : pos < (if b = pos then
            (if (decodeRune (s.drop pos)).2 > 0 then pos + (decodeRune (s.drop pos)).2
              else s.length + 1) else b) := by
          split
          · split <;> omega
          · omega
        split
        · have := ih _ (b : Int) |>.trans (Nat.sub_le_sub_left hpos _)
          simp only [List.length_cons]
          omega
        · have := ih _ (b : Int) |>.trans (Nat.sub_le_sub_left hpos _)
          omega
    · simp [hp]

theorem spaced_of_separators (len : Nat) :
    ∀ ms : List (Nat × Nat), Separators len ms → (∀ m ∈ ms, 0 < m.2 ∧ m.2 ≤ len) →
      Spaced len ms := by
  intro ms h hb
  cases ms with
  | nil => trivial
  | cons m rest =>
    obtain ⟨a, b⟩ := m
    have := hb (a, b) (List.mem_cons_self _ _)
    exact ⟨this.1, this.2, h.1, h.2⟩

theorem allMatchesFrom_separators (re : Regexp) (hre : re.WellFormed) (s : Bytes) :
    ∀ fuel pos prev,
      (∀ m ∈ allMatchesFrom re s fuel pos prev, pos ≤ m.1 ∧ m.1 ≤ m.2 ∧ m.2 ≤ s.length) ∧
      (prev = (pos : Int) → ∀ m ∈ allMatchesFrom re s fuel pos prev, pos < m.2) ∧
      Separators s.length (allMatchesFrom re s fuel pos prev) := by
  intro fuel
  induction fuel with
  | zero => intro pos prev; simp [allMatchesFrom, Separators]
  | succ fuel ih =>
    intro pos prev
    simp only [allMatchesFrom]
    by_cases hp : pos ≤ s.length
    swap
    · simp [hp, Separators]
    simp only [hp, if_true]
    cases hf : re.find s pos with
    | none => simp [Separators]
    | some m =>
      obtain ⟨a, b⟩ := m
      obtain ⟨h1, h2, h3⟩ := hre s pos a b hf
      simp only
      generalize hpos1 : (if b = pos then
            (if (decodeRune (s.drop pos)).2 > 0 then pos + (decodeRune (s.drop pos)).2
              else s.length + 1) else b) = pos1
      have hlt : pos < pos1 := by
        rw [← hpos1]
        split
        · split <;> omega
        · omega
      obtain ⟨ihb, ihs, ihsep⟩ := ih pos1 (b : Int)
      split
      · rename_i hacc
        refine ⟨?_, ?_, ?_⟩
        · intro m hm
          rcases List.mem_cons.1 hm with rfl | hm
          · exact ⟨h1, h2, h3⟩
          · have := ihb m hm
            omega
        · intro hprev m hm
          rcases List.mem_cons.1 hm with rfl | hm
          · simp only
            by_contra hcon
            have hbp : b = pos := by omega
            have hap : a = pos := by omega
            subst hbp
            simp [hap, hprev] at hacc
          · have := ihb m hm
            omega
        · refine ⟨?_, ?_⟩
          · intro hne
            by_contra hcon
            have ha : a = s.length := by omega
            have hb : b = s.length := by omega
            obtain ⟨m, hm⟩ := List.exists_mem_of_ne_nil _ hne
            have hmb := ihb m hm
            by_cases hbp : b = pos
            · have hw : (decodeRune (s.drop pos)).2 = 0 := by
                rw [← hbp, hb, List.drop_length]
                rfl
              rw [if_pos hbp, hw] at hpos1
              simp at hpos1
              omega
            · rw [if_neg hbp] at hpos1
              have := ihs (by rw [hpos1]) m hm
              omega
          · apply spaced_of_separators _ _ ihsep
            intro m hm
            have := ihb m hm
            omega
      · refine ⟨?_, ?_, ihsep⟩
        · intro m hm
          have := ihb m hm
          omega
        · intro _ m hm
          have := ihb m hm
          omega

theorem splitLoop_uncapped (len : Nat) (n : Int) (hn : n < 0) :
    ∀ (L st : List (Nat × Nat)) (beg e : Nat), (∀ m ∈ L, 0 < m.2) →
      finishSplit len (splitLoop n L st beg e) = st ++ tailSpans len beg e L := by
  intro L
  induction L with
  | nil =>
    intro st beg e _
    simp only [splitLoop, finishSplit, tailSpans]
    split <;> simp
  | cons m rest ih =>
    intro st beg e hL
    obtain ⟨a, b⟩ := m
    have hb : 0 < b := hL (a, b) (List.mem_cons_self _ _)
    have hb0 : b ≠ 0 := by omega
    have hn0 : ¬ (n > 0 ∧ (st.length : Int) = n - 1) := by omega
    simp only [splitLoop, hn0, if_false, hb0, ne_eq, not_false_eq_true, if_true, tailSpans]
    rw [ih _ _ _ (fun m hm => hL m (List.mem_cons_of_mem _ hm))]
    simp

theorem splitLoop_capped (len : Nat) (n : Int) :
    ∀ (L st : List (Nat × Nat)) (beg e t j : Nat), n = (st.length : Int) + j + 1 → j ≤ t →
      (∀ m ∈ L, 0 < m.2) →
      finishSplit len (splitLoop n (L.take t) st beg e) = st ++ cappedTail len j beg e L := by
  intro L
  induction L with
  | nil =>
    intro st beg e t j _ _ _
    cases j <;> simp only [List.take_nil, splitLoop, finishSplit, cappedTail] <;> split <;> simp
  | cons m rest ih =>
    intro st beg e t j hn ht hL
    obtain ⟨a, b⟩ := m
    have hb : 0 < b := hL (a, b) (List.mem_cons_self _ _)
    have hb0 : b ≠ 0 := by omega
    cases j with
    | zero =>
      cases t with
      | zero =>
        simp only [List.take_zero, splitLoop, finishSplit, cappedTail]
        split <;> simp
      | succ t =>
        have hbr : n > 0 ∧ (st.length : Int) = n - 1 := by omega
        simp only [List.take_succ_cons, splitLoop, hbr, and_self, if_true, finishSplit,
          cappedTail]
        split <;> simp
    | succ j =>
      cases t with
      | zero => omega
      | succ t =>
        have hbr : ¬ (n > 0 ∧ (st.length : Int) = n - 1) := by omega
        simp only [List.take_succ_cons, splitLoop, hbr, if_false, hb0, ne_eq,
          not_false_eq_true, if_true, cappedTail]
        rw [ih (st ++ [(beg, a)]) b a t j (by simp; omega) (by omega)
          (fun m hm => hL m (List.mem_cons_of_mem _ hm))]
        simp

theorem tailSpans_ne_nil (len : Nat) (beg e : Nat) (L : List (Nat × Nat)) (h : L ≠ []) :
    tailSpans len beg e L ≠ [] := by
  cases L with
  | nil => exact absurd rfl h
  | cons m rest => obtain ⟨a, b⟩ := m; simp [tailSpans]

theorem spaced_pos (len : Nat) : ∀ L, Spaced len L → ∀ m ∈ L, 0 < m.2 := by
  intro L
  induction L with
  | nil => intro _ m hm; cases hm
  | cons x rest ih =>
    intro h m hm
    obtain ⟨a, b⟩ := x
    rcases List.mem_cons.1 hm with rfl | hm
    · exact h.1
    · exact ih h.2.2.2 m hm

theorem cappedTail_eq (len : Nat) :
    ∀ (j : Nat) (L : List (Nat × Nat)) (beg e : Nat), Spaced len L → (L ≠ [] → e ≠ len) →
      cappedTail len j beg e L =
        if (tailSpans len beg e L).length ≤ j + 1 then tailSpans len beg e L
        else (tailSpans len beg e L).take j ++
          [(((tailSpans len beg e L).getD j (0, 0)).1, len)] := by
  intro j
  induction j with
  | zero =>
    intro L beg e hs he
    cases L with
    | nil =>
      simp only [cappedTail, tailSpans]
      split <;> simp
    | cons m rest =>
      obtain ⟨a, b⟩ := m
      have he1 : e ≠ len := he (by simp)
      simp only [cappedTail, he1, ne_eq, not_false_eq_true, if_true, tailSpans,
        List.length_cons, List.take_zero, List.nil_append, List.getD_cons_zero]
      by_cases hr : rest = []
      · subst hr
        by_cases ha : a = len
        · simp [tailSpans, ha]
        · simp [tailSpans, ha]
      · have := tailSpans_ne_nil len b a rest hr
        have hl : 0 < (tailSpans len b a rest).length := List.length_pos.2 this
        have : ¬ ((tailSpans len b a rest).length + 1 ≤ 0 + 1) := by omega
        simp [this]
  | succ j ih =>
    intro L beg e hs he
    cases L with
    | nil =>
      simp only [cappedTail, tailSpans]
      split <;> simp
    | cons m rest =>
      obtain ⟨a, b⟩ := m
      obtain ⟨_, _, hlast, hrest⟩ := hs
      have := ih rest b a hrest (fun h => by have := hlast h; omega)
      simp only [cappedTail, tailSpans, this, List.length_cons]
      by_cases hl : (tailSpans len b a rest).length ≤ j + 1
      · simp [hl]
      · simp [hl]

theorem splitSpans_eq_finish (re : Regexp) (s : Bytes) (n : Int) (hn : n ≠ 0)
    (hE : ¬ (re.expr.length > 0 ∧ s.length = 0)) :
    re.splitSpans s n =
      finishSplit s.length (splitLoop n (re.FindAllStringIndex s n) [] 0 0) := by
  simp only [Regexp.splitSpans, hn, if_false, hE, finishSplit]

theorem findAll_nat (re : Regexp) (s : Bytes) (k : Nat) :
    re.FindAllStringIndex s (k : Int) =
      (allMatchesFrom re s (s.length + 2) 0 (-1)).take k := by
  have : ¬ ((k : Int) < 0) := by omega
  simp only [Regexp.FindAllStringIndex, this, if_false, Int.toNat_ofNat]
  rw [allMatchesAux_eq_take]
  simp

theorem findAll_neg (re : Regexp) (hre : re.WellFormed) (s : Bytes) :
    re.FindAllStringIndex s (-1) = allMatchesFrom re s (s.length + 2) 0 (-1) := by
  have : ((-1 : Int) < 0) := by omega
  simp only [Regexp.FindAllStringIndex, this, if_true]
  rw [allMatchesAux_eq_take]
  apply List.take_of_length_le
  have := allMatchesFrom_length re hre s (s.length + 2) 0 (-1)
  omega

theorem splitSpans_cap (re : Regexp) (hre : re.WellFormed) (s : Bytes) (k : Nat)
    (hk : 1 ≤ k) :
    re.splitSpans s (k : Int) =
      if (re.splitSpans s (-1)).length ≤ k then re.splitSpans s (-1)
      else (re.splitSpans s (-1)).take (k - 1) ++
        [(((re.splitSpans s (-1)).getD (k - 1) (0, 0)).1, s.length)] := by
  by_cases hE : re.expr.length > 0 ∧ s.length = 0
  · have hk0 : (k : Int) ≠ 0 := by omega
    have h1 : re.splitSpans s (k : Int) = [(0, 0)] := by
      simp [Regexp.splitSpans, hk0, hE]
    have h2 : re.splitSpans s (-1) = [(0, 0)] := by
      simp [Regexp.splitSpans, hE]
    rw [h1, h2]
    simp [hk]
  · rw [splitSpans_eq_finish re s k (by omega) hE, splitSpans_eq_finish re s (-1) (by omega) hE,
      findAll_nat, findAll_neg re hre]
    obtain ⟨hb, _, hsep⟩ := allMatchesFrom_separators re hre s (s.length + 2) 0 (-1)
    generalize allMatchesFrom re s (s.length + 2) 0 (-1) = ms at hb hsep
    have key : ∀ L : List (Nat × Nat), Spaced s.length L →
        finishSplit s.length (splitLoop (-1) L [] 0 0) = tailSpans s.length 0 0 L →
        finishSplit s.length (splitLoop (k : Int) (ms.take k) [] 0 0) =
          cappedTail s.length (k - 1) 0 0 L →
        finishSplit s.length (splitLoop (k : Int) (ms.take k) [] 0 0) =
          if (finishSplit s.length (splitLoop (-1) L [] 0 0)).length ≤ k then
            finishSplit s.length (splitLoop (-1) L [] 0 0)
          else (finishSplit s.length (splitLoop (-1) L [] 0 0)).take (k - 1) ++
            [(((finishSplit s.length (splitLoop (-1) L [] 0 0)).getD (k - 1) (0, 0)).1,
              s.length)] := by
      intro L hL hU hC
      rw [hC, hU, cappedTail_eq s.length (k - 1) L 0 0 hL]
      · have : k - 1 + 1 = k := by omega
        rw [this]
      · intro hne
        cases L with
        | nil => exact absurd rfl hne
        | cons m rest =>
          obtain ⟨a, b⟩ := m
          have := hL.1
          have := hL.2.1
          omega
    cases ms with
    | nil =>
      have := key [] trivial (by simpa using splitLoop_uncapped s.length (-1) (by omega) [] [] 0 0 (by simp))
        (by simpa using splitLoop_capped s.length k [] [] 0 0 k (k - 1) (by simp; omega) (by omega) (by simp))
      simpa using this
    | cons m rest =>
      obtain ⟨a, b⟩ := m
      have hab := hb (a, b) (List.mem_cons_self _ _)
      simp only at hab
      by_cases hb0 : b = 0
      · subst hb0
        have ha : a = 0 := by omega
        subst ha
        have hrest : Spaced s.length rest := hsep.2
        have hpos := spaced_pos _ _ hrest
        have hU : finishSplit s.length (splitLoop (-1) ((0, 0) :: rest) [] 0 0) =
            finishSplit s.length (splitLoop (-1) rest [] 0 0) := by
          simp [splitLoop]
        have hC : finishSplit s.length (splitLoop (k : Int) (((0, 0) :: rest).take k) [] 0 0) =
            cappedTail s.length (k - 1) 0 0 rest := by
          obtain ⟨k, rfl⟩ : ∃ k1, k = k1 + 1 := ⟨k - 1, by omega⟩
          cases k with
          | zero =>
            simp [splitLoop, finishSplit, cappedTail]
          | succ k =>
            have hbr : ¬ (((k + 1 + 1 : Nat) : Int) > 0 ∧
                ((([] : List (Nat × Nat)).length : Nat) : Int) = ((k + 1 + 1 : Nat) : Int) - 1) := by
              simp only [List.length_nil]
              omega
            simp only [List.take_succ_cons, splitLoop, hbr, if_false, ne_eq, not_true_eq_false]
            have := splitLoop_capped s.length ((k + 1 + 1 : Nat) : Int) rest [] 0 0 (k + 1) (k + 1)
              (by simp) (by omega) hpos
            simpa using this
        rw [hU]
        have hU2 := splitLoop_uncapped s.length (-1) (by omega) rest [] 0 0 hpos
        simp only [List.nil_append] at hU2
        have := key rest hrest hU2 (by rw [hC])
        rw [← this]
      · have hall : Spaced s.length ((a, b) :: rest) :=
          ⟨by omega, hab.2.2, hsep.1, hsep.2⟩
        have hpos := spaced_pos _ _ hall
        have hU2 := splitLoop_uncapped s.length (-1) (by omega) ((a, b) :: rest) [] 0 0 hpos
        simp only [List.nil_append] at hU2
        have hC := splitLoop_capped s.length (k : Int) ((a, b) :: rest) [] 0 0 k (k - 1)
          (by simp; omega) (by omega) hpos
        simp only [List.nil_append] at hC
        exact key _ hall hU2 hC

theorem starLoop_length (f : Bytes → List Bytes) (g : Bool)
    (hf : ∀ s t, t ∈ f s → t.length ≤ s.length) :
    ∀ k s t, t ∈ starLoop f g k s → t.length ≤ s.length := by
  intro k
  induction k with
  | zero =>
    intro s t ht
    simp only [starLoop, List.mem_singleton] at ht
    rw [ht]
  | succ k ih =>
    intro s t ht
    have key : ∀ t, t ∈ ((f s).filter (fun t => decide (t.length < s.length))).flatMap
        (starLoop f g k) → t.length ≤ s.length := by
      intro t ht
      rw [List.mem_flatMap] at ht
      obtain ⟨u, hu, htu⟩ := ht
      have h1 := ih u t htu
      have h2 := hf s u (List.mem_of_mem_filter hu)
      omega
    simp only [starLoop] at ht
    split at ht
    · rcases List.mem_append.1 ht with h | h
      · exact key t h
      · simp only [List.mem_singleton] at h
        rw [h]
    · rcases List.mem_cons.1 ht with h | h
      · rw [h]
      · exact key t h

theorem plusLoop_length (f : Bytes → List Bytes) (g : Bool)
    (hf : ∀ s t, t ∈ f s → t.length ≤ s.length) :
    ∀ s t, t ∈ plusLoop f g s → t.length ≤ s.length := by
  intro s t ht
  simp only [plusLoop, List.mem_flatMap] at ht
  obtain ⟨u, hu, htu⟩ := ht
  have := hf s u hu
  split at htu
  · have := starLoop_length f g hf _ u t htu
    omega
  · simp only [List.mem_singleton] at htu
    rw [htu]
    exact this

theorem RE.run_length : ∀ (re : RE) (s t : Bytes), t ∈ re.run s → t.length ≤ s.length := by
  intro re
  induction re with
  | empty =>
    intro s t ht
    simp only [RE.run, List.mem_singleton] at ht
    rw [ht]
  | lit r =>
    intro s t ht
    simp only [RE.run] at ht
    split at ht
    · simp only [List.mem_singleton] at ht
      rw [ht, List.length_drop]
      omega
    · cases ht
  | cls ranges neg =>
    intro s t ht
    simp only [RE.run] at ht
    split at ht
    · simp only [List.mem_singleton] at ht
      rw [ht, List.length_drop]
      omega
    · cases ht
  | cat a b iha ihb =>
    intro s t ht
    simp only [RE.run, List.mem_flatMap] at ht
    obtain ⟨u, hu, htu⟩ := ht
    have := iha s u hu
    have := ihb u t htu
    omega
  | alt a b iha ihb =>
    intro s t ht
    simp only [RE.run, List.mem_append] at ht
    rcases ht with h | h
    · exact iha s t h
    · exact ihb s t h
  | star a g iha =>
    intro s t ht
    simp only [RE.run] at ht
    split at ht
    · split at ht
      · rcases List.mem_append.1 ht with h | h
        · exact plusLoop_length _ g iha s t h
        · simp only [List.mem_singleton] at h
          rw [h]
      · rcases List.mem_cons.1 ht with h | h
        · rw [h]
        · exact plusLoop_length _ g iha s t h
    · exact starLoop_length _ g iha _ s t ht
  | plus a g iha =>
    intro s t ht
    simp only [RE.run] at ht
    exact plusLoop_length _ g iha s t ht
  | quest a g iha =>
    intro s t ht
    simp only [RE.run] at ht
    split at ht
    · rcases List.mem_append.1 ht with h | h
      · exact iha s t h
      · simp only [List.mem_singleton] at h
        rw [h]
    · rcases List.mem_cons.1 ht with h | h
      · rw [h]
      · exact iha s t h

theorem RE.findFrom_bounds (re : RE) (s : Bytes) :
    ∀ fuel pos a b, re.findFrom s fuel pos = some (a, b) →
      pos ≤ a ∧ a ≤ b ∧ b ≤ s.length := by
  intro fuel
  induction fuel with
  | zero => intro pos a b h; simp [RE.findFrom] at h
  | succ fuel ih =>
    intro pos a b h
    simp only [RE.findFrom] at h
    split at h
    · cases h
    · rename_i hlen
      split at h
      · rename_i t rest hrun
        have ht : t ∈ re.run (s.drop pos) := by rw [hrun]; exact List.mem_cons_self _ _
        have := RE.run_length re _ t ht
        rw [List.length_drop] at this
        simp only [Option.some.injEq, Prod.mk.injEq] at h
        omega
      · split at h
        · cases h
        · have := ih _ a b h
          omega

theorem regexpCompile_wellFormed (expr : Bytes) (re : Regexp)
    (h : regexpCompile expr = some re) : re.WellFormed := by
  simp only [regexpCompile] at h
  split at h
  · cases h
  · rename_i r _
    simp only [Option.some.injEq] at h
    subst h
    intro s pos a b hf
    exact RE.findFrom_bounds r s _ pos a b hf

theorem bindFields_eq (varNames : List Bytes) :
    ∀ (fields : List Bytes) (i : Nat) (env : List Bytes),
      i + fields.length ≤ varNames.length →
      bindFields varNames i fields env =
        some (env ++ List.zipWith (fun name v => name ++ ascii "=" ++ v)
          (varNames.drop i) fields) := by
  intro fields
  induction fields with
  | nil => intro i env _; simp [bindFields]
  | cons v rest ih =>
    intro i env h
    simp only [List.length_cons] at h
    have hi : i < varNames.length := by omega
    simp only [bindFields, List.getElem?_eq_getElem hi]
    rw [ih (i + 1) _ (by omega)]
    rw [List.drop_eq_getElem_cons hi]
    simp only [List.zipWith_cons_cons, List.append_assoc, List.singleton_append]

theorem split_length_le (re : Regexp) (hre : re.WellFormed) (s : Bytes) (k : Nat)
    (hk : 1 ≤ k) : (re.Split s (k : Int)).length ≤ k := by
  simp only [Regexp.Split, List.length_map]
  rw [splitSpans_cap re hre s k hk]
  split
  · assumption
  · simp
    omega

theorem slice_to_end (s : Bytes) (beg : Nat) : slice s (beg, s.length) = s.drop beg := by
  simp [slice]

theorem split_cap (re : Regexp) (hre : re.WellFormed) (s : Bytes) (k : Nat) (hk : 1 ≤ k) :
    ((re.Split s (-1)).length ≤ k → re.Split s (k : Int) = re.Split s (-1)) ∧
    (k < (re.Split s (-1)).length →
      re.Split s (k : Int) = (re.Split s (-1)).take (k - 1) ++
        [s.drop ((re.splitSpans s (-1)).getD (k - 1) (0, 0)).1]) := by
  simp only [Regexp.Split, List.length_map]
  rw [splitSpans_cap re hre s k hk]
  constructor
  · intro h
    rw [if_pos h]
  · intro h
    rw [if_neg (by omega)]
    simp [List.map_take, slice_to_end]

theorem cutAt_length (s : Bytes) :
    ∀ (j beg : Nat) (seps : List (Nat × Nat)),
      (cutAt s j beg seps).length = min j seps.length + 1 := by
  intro j
  induction j with
  | zero => intro beg seps; simp [cutAt]
  | succ j ih =>
    intro beg seps
    cases seps with
    | nil => simp [cutAt]
    | cons m rest =>
      obtain ⟨a, b⟩ := m
      simp only [cutAt, List.length_cons, ih]
      omega

theorem cutAt_getLast (s : Bytes) :
    ∀ (j beg : Nat) (seps : List (Nat × Nat)),
      (cutAt s j beg seps).getLast? =
        some (s.drop (if min j seps.length = 0 then beg
          else (seps.getD (min j seps.length - 1) (0, 0)).2)) := by
  intro j
  induction j with
  | zero => intro beg seps; simp [cutAt]
  | succ j ih =>
    intro beg seps
    cases seps with
    | nil => simp [cutAt]
    | cons m rest =>
      obtain ⟨a, b⟩ := m
      have hne : cutAt s j b rest ≠ [] := by
        intro h
        have := cutAt_length s j b rest
        rw [h] at this
        simp at this
      obtain ⟨x, xs, hx⟩ := List.exists_cons_of_ne_nil hne
      have hlast : (slice s (beg, a) :: cutAt s j b rest).getLast? =
          (cutAt s j b rest).getLast? := by
        rw [hx, List.getLast?_cons_cons]
      simp only [cutAt, hlast, ih, List.length_cons]
      by_cases h0 : min j rest.length = 0
      · have h1 : min (j + 1) (rest.length + 1) = 1 := by omega
        simp [h0, h1]
      · have h1 : min (j + 1) (rest.length + 1) = min j rest.length + 1 := by omega
        obtain ⟨i, hi⟩ : ∃ i, min j rest.length = i + 1 := ⟨min j rest.length - 1, by omega⟩
        simp [h1, hi]

theorem cutAt_of_le (s : Bytes) :
    ∀ (j beg : Nat) (seps : List (Nat × Nat)), seps.length ≤ j →
      cutAt s j beg seps = cutAt s seps.length beg seps := by
  intro j
  induction j with
  | zero =>
    intro beg seps h
    have : seps = [] := List.length_eq_zero.1 (by omega)
    subst this
    rfl
  | succ j ih =>
    intro beg seps h
    cases seps with
    | nil => rfl
    | cons m rest =>
      obtain ⟨a, b⟩ := m
      simp only [cutAt, List.length_cons]
      rw [ih b rest (by simpa using h)]

theorem cappedTail_cut (s : Bytes) :
    ∀ (L : List (Nat × Nat)) (j beg e : Nat), Spaced s.length L → e ≠ s.length →
      (cappedTail s.length j beg e L).map (slice s) =
        cutAt s j beg (L.filter (keepMatch s.length)) := by
  intro L
  induction L with
  | nil =>
    intro j beg e _ he
    cases j <;> simp [cappedTail, he, cutAt, slice_to_end]
  | cons m rest ih =>
    intro j beg e hs he
    obtain ⟨a, b⟩ := m
    obtain ⟨hb, _, hlast, hrest⟩ := hs
    cases j with
    | zero => simp [cappedTail, he, cutAt, slice_to_end]
    | succ j =>
      simp only [cappedTail, List.map_cons]
      by_cases ha : a = s.length
      · have hr : rest = [] := by
          by_contra hne
          have := hlast hne
          omega
        subst hr
        have hk : ¬ keepMatch s.length (a, b) = true := by simp [keepMatch, ha]
        rw [List.filter_cons_of_neg hk]
        cases j <;> simp [cappedTail, ha, cutAt, slice_to_end]
      · have hk : keepMatch s.length (a, b) = true := by
          simp only [keepMatch, decide_eq_true_eq]
          exact ⟨by omega, ha⟩
        rw [List.filter_cons_of_pos hk, ih j b a hrest ha]
        rfl

theorem tailSpans_cut (s : Bytes) :
    ∀ (L : List (Nat × Nat)) (beg e : Nat), Spaced s.length L → e ≠ s.length →
      (tailSpans s.length beg e L).map (slice s) =
        cutAt s (L.filter (keepMatch s.length)).length beg
          (L.filter (keepMatch s.length)) := by
  intro L
  induction L with
  | nil =>
    intro beg e _ he
    simp [tailSpans, he, cutAt, slice_to_end]
  | cons m rest ih =>
    intro beg e hs he
    obtain ⟨a, b⟩ := m
    obtain ⟨hb, _, hlast, hrest⟩ := hs
    simp only [tailSpans, List.map_cons]
    by_cases ha : a = s.length
    · have hr : rest = [] := by
        by_contra hne
        have := hlast hne
        omega
      subst hr
      have hk : ¬ keepMatch s.length (a, b) = true := by simp [keepMatch, ha]
      rw [List.filter_cons_of_neg hk]
      simp [tailSpans, ha, cutAt, slice_to_end]
    · have hk : keepMatch s.length (a, b) = true := by
        simp only [keepMatch, decide_eq_true_eq]
        exact ⟨by omega, ha⟩
      rw [List.filter_cons_of_pos hk, ih b a hrest ha]
      rfl

theorem filter_spaced (len : Nat) (L : List (Nat × Nat)) :
    ((0, 0) :: L).filter (keepMatch len) = L.filter (keepMatch len) := by
  have hk : ¬ keepMatch len (0, 0) = true := by simp [keepMatch]
  rw [List.filter_cons_of_neg hk]

/-- The fields of `Split` as the loop makes them from the matches that end after the
start of the string. -/
theorem splitSpans_tails (re : Regexp) (hre : re.WellFormed) (s : Bytes) (k : Nat)
    (hk : 1 ≤ k) (hE : ¬ (re.expr.length > 0 ∧ s.length = 0)) :
    ∃ L : List (Nat × Nat), Spaced s.length L ∧
      L.filter (keepMatch s.length) =
        (allMatchesFrom re s (s.length + 2) 0 (-1)).filter (keepMatch s.length) ∧
      re.splitSpans s (k : Int) = cappedTail s.length (k - 1) 0 0 L ∧
      re.splitSpans s (-1) = tailSpans s.length 0 0 L := by
  rw [splitSpans_eq_finish re s k (by omega) hE, splitSpans_eq_finish re s (-1) (by omega) hE,
    findAll_nat, findAll_neg re hre]
  obtain ⟨hb, _, hsep⟩ := allMatchesFrom_separators re hre s (s.length + 2) 0 (-1)
  generalize allMatchesFrom re s (s.length + 2) 0 (-1) = ms at hb hsep
  cases ms with
  | nil =>
    refine ⟨[], trivial, rfl, ?_, ?_⟩
    · simpa using splitLoop_capped s.length k [] [] 0 0 k (k - 1) (by simp; omega)
        (by omega) (by simp)
    · simpa using splitLoop_uncapped s.length (-1) (by omega) [] [] 0 0 (by simp)
  | cons m rest =>
    obtain ⟨a, b⟩ := m
    have hab := hb (a, b) (List.mem_cons_self _ _)
    simp only at hab
    by_cases hb0 : b = 0
    · subst hb0
      have ha : a = 0 := by omega
      subst ha
      have hrest : Spaced s.length rest := hsep.2
      have hpos := spaced_pos _ _ hrest
      refine ⟨rest, hrest, (filter_spaced s.length rest).symm, ?_, ?_⟩
      · obtain ⟨k, rfl⟩ : ∃ k1, k = k1 + 1 := ⟨k - 1, by omega⟩
        cases k with
        | zero => simp [splitLoop, finishSplit, cappedTail]
        | succ k =>
          have hbr : ¬ (((k + 1 + 1 : Nat) : Int) > 0 ∧
              ((([] : List (Nat × Nat)).length : Nat) : Int) = ((k + 1 + 1 : Nat) : Int) - 1) := by
            simp only [List.length_nil]
            omega
          simp only [List.take_succ_cons, splitLoop, hbr, if_false, ne_eq, not_true_eq_false]
          have := splitLoop_capped s.length ((k + 1 + 1 : Nat) : Int) rest [] 0 0 (k + 1) (k + 1)
            (by simp) (by omega) hpos
          simpa using this
      · have hU : finishSplit s.length (splitLoop (-1) ((0, 0) :: rest) [] 0 0) =
            finishSplit s.length (splitLoop (-1) rest [] 0 0) := by
          simp [splitLoop]
        rw [hU]
        simpa using splitLoop_uncapped s.length (-1) (by omega) rest [] 0 0 hpos
    · have hall : Spaced s.length ((a, b) :: rest) :=
        ⟨by omega, hab.2.2, hsep.1, hsep.2⟩
      have hpos := spaced_pos _ _ hall
      refine ⟨(a, b) :: rest, hall, rfl, ?_, ?_⟩
      · simpa using splitLoop_capped s.length (k : Int) ((a, b) :: rest) [] 0 0 k (k - 1)
          (by simp; omega) (by omega) hpos
      · simpa using splitLoop_uncapped s.length (-1) (by omega) ((a, b) :: rest) [] 0 0 hpos

theorem separators_eq (re : Regexp) (hre : re.WellFormed) (s : Bytes) :
    re.separators s =
      (allMatchesFrom re s (s.length + 2) 0 (-1)).filter (keepMatch s.length) := by
  simp only [Regexp.separators]
  rw [findAll_neg re hre]
  rfl

theorem separators_empty (re : Regexp) (hre : re.WellFormed) (s : Bytes)
    (hs : s.length = 0) : re.separators s = [] := by
  rw [separators_eq re hre]
  obtain ⟨hb, _, _⟩ := allMatchesFrom_separators re hre s (s.length + 2) 0 (-1)
  apply List.filter_eq_nil_iff.2
  intro m hm
  have := hb m hm
  simp only [keepMatch, decide_eq_true_eq]
  omega

/-- The capped split cuts the record at its first `k - 1` separators. -/
theorem split_eq_cutAt (re : Regexp) (hre : re.WellFormed) (hexpr : re.expr ≠ [])
    (s : Bytes) (k : Nat) (hk : 1 ≤ k) :
    re.Split s (k : Int) = cutAt s (k - 1) 0 (re.separators s) := by
  have hel : re.expr.length > 0 := List.length_pos.2 hexpr
  by_cases hs : s.length = 0
  · have hk0 : (k : Int) ≠ 0 := by omega
    have h1 : re.splitSpans s (k : Int) = [(0, 0)] := by
      simp [Regexp.splitSpans, hk0, hel, hs]
    have hnil : s = [] := List.length_eq_zero.1 hs
    simp only [Regexp.Split, h1, separators_empty re hre s hs]
    subst hnil
    cases k - 1 <;> simp [cutAt, slice]
  · obtain ⟨L, hL, hfil, hcap, _⟩ := splitSpans_tails re hre s k hk (by omega)
    simp only [Regexp.Split]
    rw [hcap, cappedTail_cut s L (k - 1) 0 0 hL (by omega), hfil, separators_eq re hre]

/-- The uncapped split cuts the record at all its separators. -/
theorem split_all_eq_cutAt (re : Regexp) (hre : re.WellFormed) (hexpr : re.expr ≠ [])
    (s : Bytes) :
    re.Split s (-1) = cutAt s (re.separators s).length 0 (re.separators s) := by
  have hel : re.expr.length > 0 := List.length_pos.2 hexpr
  by_cases hs : s.length = 0
  · have h1 : re.splitSpans s (-1) = [(0, 0)] := by
      simp [Regexp.splitSpans, hel, hs]
    have hnil : s = [] := List.length_eq_zero.1 hs
    simp only [Regexp.Split, h1, separators_empty re hre s hs]
    subst hnil
    simp [cutAt, slice]
  · obtain ⟨L, hL, hfil, _, hall⟩ := splitSpans_tails re hre s 1 (by omega) (by omega)
    simp only [Regexp.Split]
    rw [hall, tailSpans_cut s L 0 0 hL (by omega), hfil, separators_eq re hre]

/-- For a pattern without empty matches the separators are found by searching on from
the end of the previous one. -/
theorem cutAt_matches_eq (re : Regexp) (hre : re.WellFormed) (hne : re.NonEmptyMatches)
    (s : Bytes) :
    ∀ (j fuel pos : Nat) (prev : Int), pos ≤ s.length → s.length - pos < fuel →
      cutAt s j pos ((allMatchesFrom re s fuel pos prev).filter (keepMatch s.length)) =
        fieldsBetween re.find s j pos := by
  intro j
  induction j with
  | zero => intro fuel pos prev _ _; simp [cutAt, fieldsBetween]
  | succ j ih =>
    intro fuel pos prev hpos hfuel
    obtain ⟨fuel, rfl⟩ : ∃ f, fuel = f + 1 := ⟨fuel - 1, by omega⟩
    simp only [allMatchesFrom, hpos, if_true, fieldsBetween]
    cases hf : re.find s pos with
    | none => simp [cutAt]
    | some m =>
      obtain ⟨a, b⟩ := m
      obtain ⟨h1, _, h3⟩ := hre s pos a b hf
      have hab := hne s pos a b hf
      have hbp : b ≠ pos := by omega
      have hacc : (!(b == pos && (a : Int) == prev)) = true := by
        simp [hbp]
      have hk : keepMatch s.length (a, b) = true := by
        simp only [keepMatch, decide_eq_true_eq]
        omega
      simp only [hacc, if_true, if_neg hbp]
      rw [List.filter_cons_of_pos hk]
      simp only [cutAt]
      rw [ih fuel b (b : Int) h3 (by omega)]

theorem cutAt_separators_eq (re : Regexp) (hre : re.WellFormed) (hne : re.NonEmptyMatches)
    (s : Bytes) (j : Nat) :
    cutAt s j 0 (re.separators s) = fieldsBetween re.find s j 0 := by
  rw [separators_eq re hre]
  exact cutAt_matches_eq re hre hne s j (s.length + 2) 0 (-1) (by omega) (by omega)

/-- A pattern without empty matches has at most as many separators as the record has
bytes. -/
theorem separators_length_le (re : Regexp) (hre : re.WellFormed) (s : Bytes) :
    (re.separators s).length ≤ s.length + 1 := by
  rw [separators_eq re hre]
  have h1 := List.length_filter_le (keepMatch s.length)
    (allMatchesFrom re s (s.length + 2) 0 (-1))
  have h2 := allMatchesFrom_length re hre s (s.length + 2) 0 (-1)
  omega

theorem RE.lit_consuming (r : Nat) (s t : Bytes) (h : t ∈ (RE.lit r).run s) :
    t.length < s.length := by
  simp only [RE.run] at h
  split at h
  · rename_i hw
    simp only [List.mem_singleton] at h
    have hs : 0 < s.length := by
      cases s with
      | nil => simp [decodeRune] at hw
      | cons x xs => simp
    rw [h, List.length_drop]
    omega
  · cases h

theorem RE.cls_consuming (ranges : List (Nat × Nat)) (neg : Bool) (s t : Bytes)
    (h : t ∈ (RE.cls ranges neg).run s) : t.length < s.length := by
  simp only [RE.run] at h
  split at h
  · rename_i hw
    simp only [List.mem_singleton] at h
    have hs : 0 < s.length := by
      cases s with
      | nil => simp [decodeRune] at hw
      | cons x xs => simp
    rw [h, List.length_drop]
    omega
  · cases h

theorem RE.plus_consuming (a : RE) (g : Bool)
    (ha : ∀ s t, t ∈ a.run s → t.length < s.length) (s t : Bytes)
    (h : t ∈ (RE.plus a g).run s) : t.length < s.length := by
  simp only [RE.run, plusLoop, List.mem_flatMap] at h
  obtain ⟨u, hu, htu⟩ := h
  have h1 := ha s u hu
  rw [if_pos h1] at htu
  have := starLoop_length _ g (fun s t ht => Nat.le_of_lt (ha s t ht)) _ u t htu
  omega

theorem RE.findFrom_nonEmpty (re : RE) (hc : ∀ s t, t ∈ re.run s → t.length < s.length)
    (s : Bytes) :
    ∀ fuel pos a b, re.findFrom s fuel pos = some (a, b) → a < b := by
  intro fuel
  induction fuel with
  | zero => intro pos a b h; simp [RE.findFrom] at h
  | succ fuel ih =>
    intro pos a b h
    simp only [RE.findFrom] at h
    split at h
    · cases h
    · rename_i hlen
      split at h
      · rename_i t rest hrun
        have ht : t ∈ re.run (s.drop pos) := by rw [hrun]; exact List.mem_cons_self _ _
        have := hc _ t ht
        rw [List.length_drop] at this
        simp only [Option.some.injEq, Prod.mk.injEq] at h
        omega
      · split at h
        · cases h
        · exact ih _ a b h

/-- The expression `:+` has no empty match. -/
theorem colonRuns_nonEmpty : colonRuns.NonEmptyMatches := by
  intro s pos a b h
  exact RE.findFrom_nonEmpty _ (RE.plus_consuming _ _ (RE.lit_consuming _)) s _ pos a b h

/-- The expression `\s+` has no empty match. -/
theorem spaceRuns_nonEmpty : spaceRuns.NonEmptyMatches := by
  intro s pos a b h
  exact RE.findFrom_nonEmpty _ (RE.plus_consuming _ _ (RE.cls_consuming _ _)) s _ pos a b h

theorem zipWith_take_right {α β γ : Type} (f : α → β → γ) :
    ∀ (l : List α) (m : List β), List.zipWith f (l.take m.length) m = List.zipWith f l m := by
  intro l
  induction l with
  | nil => intro m; simp
  | cons a l ih =>
    intro m
    cases m with
    | nil => simp
    | cons b m => simp [ih]

/-- C1. Named mode: for every field pattern that keeps the library's contract (its
expression is not empty: `Run` compiles the delimiter followed by `+`) and every
non-empty list of `n` names, `NamedVars` never fails and appends to the inherited
environment one entry `NAME=value` per field, the i-th name with the i-th field.  The
fields are the record cut at its first `n - 1` separators: each field but the last lies
between two successive separators (the first one starts at the start of the record), and
the last field is the whole remainder of the record after the separator before it, so
there are at most `n` fields, and `n` of them when the record holds more than `n - 1`
separators.  The separators are the matches of the pattern in the record; for a pattern
without empty matches they are found by searching from the start of the record and then
from the end of each match, so that every field ends where the first match at or after
its start begins. -/
theorem NamedVars_binds_fields (re : Regexp) (hre : re.WellFormed) (hexpr : re.expr ≠ [])
    (command : Bytes) (varNames environ : List Bytes) (input : Bytes) (hn : varNames ≠ []) :
    ∃ fields, fields = cutAt input (varNames.length - 1) 0 (re.separators input) ∧
      NamedVars command varNames re environ input =
        some { Path := ascii "/bin/bash", Args := [ascii "/bin/bash", ascii "-c", command],
               Env := some (environ ++ List.zipWith (fun name v => name ++ ascii "=" ++ v)
                  varNames fields) } ∧
      fields.length = min varNames.length ((re.separators input).length + 1) ∧
      (varNames.length - 1 < (re.separators input).length →
        fields.length = varNames.length ∧
        fields.getLast? = some (input.drop (if varNames.length = 1 then 0
          else ((re.separators input).getD (varNames.length - 2) (0, 0)).2))) ∧
      (re.NonEmptyMatches →
        fields = fieldsBetween re.find input (varNames.length - 1) 0) := by
  have hlen : 1 ≤ varNames.length := by
    cases varNames with
    | nil => exact absurd rfl hn
    | cons a l => simp
  have hsplit := split_eq_cutAt re hre hexpr input varNames.length hlen
  have hl := cutAt_length input (varNames.length - 1) 0 (re.separators input)
  refine ⟨_, rfl, ?_, ?_, ?_, fun hne => cutAt_separators_eq re hre hne input _⟩
  · simp only [NamedVars, execCommand]
    rw [hsplit, bindFields_eq varNames _ 0 environ (by rw [hl]; omega)]
    simp
  · rw [hl]
    omega
  · intro hmore
    refine ⟨by rw [hl]; omega, ?_⟩
    rw [cutAt_getLast]
    have hmin : min (varNames.length - 1) (re.separators input).length =
        varNames.length - 1 := by omega
    rw [hmin]
    by_cases h1 : varNames.length = 1
    · simp [h1]
    · have h2 : ¬ varNames.length - 1 = 0 := by omega
      have h3 : varNames.length - 1 - 1 = varNames.length - 2 := by omega
      simp only [h1, h2, if_false, h3]

/-- C1 at the names `VAR1 VAR2`, the delimiter `:` and the record `a:b:c`: `VAR1=a` and
`VAR2=b:c` follow the inherited environment; the record has two separators and the cut at
the first one gives the fields `a` and `b:c`. -/
theorem NamedVars_binds_fields_witness :
    regexpCompile (ascii ":" ++ ascii "+") = some colonRuns ∧
      colonRuns.separators (ascii "a:b:c") = [(1, 2), (3, 4)] ∧
      fieldsBetween colonRuns.find (ascii "a:b:c") 1 0 = [ascii "a", ascii "b:c"] ∧
      NamedVars (ascii "echo $VAR1,$VAR2") [ascii "VAR1", ascii "VAR2"] colonRuns
          [ascii "HOME=/root"] (ascii "a:b:c") =
        some { Path := ascii "/bin/bash",
               Args := [ascii "/bin/bash", ascii "-c", ascii "echo $VAR1,$VAR2"],
               Env := some [ascii "HOME=/root", ascii "VAR1=a", ascii "VAR2=b:c"] } := by
  obtain ⟨fields, hf, hcmd, _, _, hbetween⟩ :=
    NamedVars_binds_fields colonRuns
      (regexpCompile_wellFormed (ascii ":" ++ ascii "+") colonRuns rfl) (by decide)
      (ascii "echo $VAR1,$VAR2") [ascii "VAR1", ascii "VAR2"] [ascii "HOME=/root"]
      (ascii "a:b:c") (by decide)
  have hfields : fields = [ascii "a", ascii "b:c"] := by
    rw [hbetween colonRuns_nonEmpty]
    decide
  refine ⟨rfl, by decide, by decide, ?_⟩
  rw [hcmd, hfields]
  decide

/-- C2 (amended). Numbered mode: for every field pattern that keeps the library's
contract (its expression is not empty: `Run` compiles the delimiter followed by `+`),
the invocation is `/bin/bash` with the arguments `-c`, the template, the empty
string, and then all fields of the record: the record cut at every one of its separators
(one field more than separators; for a pattern without empty matches the separators are
found by searching from the start of the record and then from the end of each match).
When the template starts with neither `-` nor `+`, bash takes the template as the command
string, `$0` is the empty string and the k-th field is `$k`. -/
theorem NumberedVars_positional (re : Regexp) (hre : re.WellFormed) (hexpr : re.expr ≠ [])
    (command input : Bytes) :
    ∃ fields, fields = cutAt input (re.separators input).length 0 (re.separators input) ∧
      NumberedVars command re input =
        some { Path := ascii "/bin/bash",
               Args := [ascii "/bin/bash", ascii "-c", command, []] ++ fields,
               Env := none } ∧
      fields.length = (re.separators input).length + 1 ∧
      (command.head? ≠ some 0x2D → command.head? ≠ some 0x2B →
        ∀ cmd, NumberedVars command re input = some cmd →
          bashCall cmd.Args = some { commandString := command, params := [] :: fields } ∧
          shellParam cmd 0 = some [] ∧
          ∀ k, shellParam cmd (k + 1) = fields[k]?) ∧
      (re.NonEmptyMatches →
        fields = fieldsBetween re.find input (input.length + 1) 0) := by
  have hsplit := split_all_eq_cutAt re hre hexpr input
  have hcmd : NumberedVars command re input =
      some { Path := ascii "/bin/bash",
             Args := [ascii "/bin/bash", ascii "-c", command, []] ++
               cutAt input (re.separators input).length 0 (re.separators input),
             Env := none } := by
    simp only [NumberedVars, execCommand, hsplit]
    rfl
  refine ⟨_, rfl, hcmd, ?_, ?_, ?_⟩
  · rw [cutAt_length]
    omega
  · intro h1 h2 cmd h
    rw [hcmd] at h
    simp only [Option.some.injEq] at h
    subst h
    have hcall : bashCall ([ascii "/bin/bash", ascii "-c", command, []] ++
        cutAt input (re.separators input).length 0 (re.separators input)) =
        some { commandString := command,
               params := [] :: cutAt input (re.separators input).length 0
                 (re.separators input) } := by
      simp only [List.cons_append, List.nil_append, bashCall, if_true, bashOptions, h1, h2,
        or_self, if_false]
    refine ⟨hcall, ?_, ?_⟩
    · simp only [shellParam, hcall]
      simp
    · intro k
      simp only [shellParam, hcall]
      simp
  · intro hne
    rw [← cutAt_separators_eq re hre hne input (input.length + 1)]
    exact (cutAt_of_le input (input.length + 1) 0 (re.separators input)
      (separators_length_le re hre input)).symm

/-- C2 (amended) at the template `echo $1-$2-$3`, the default delimiter and the record
`x y z`: the fields `x`, `y`, `z` follow the empty `$0`, and they are `$1`, `$2`, `$3`. -/
theorem NumberedVars_positional_witness :
    regexpCompile (ascii "\\s" ++ ascii "+") = some spaceRuns ∧
      spaceRuns.separators (ascii "x y z") = [(1, 2), (3, 4)] ∧
      ∃ cmd, NumberedVars (ascii "echo $1-$2-$3") spaceRuns (ascii "x y z") = some cmd ∧
        cmd.Args = [ascii "/bin/bash", ascii "-c", ascii "echo $1-$2-$3", ascii "",
          ascii "x", ascii "y", ascii "z"] ∧
        shellParam cmd 0 = some (ascii "") ∧ shellParam cmd 1 = some (ascii "x") ∧
        shellParam cmd 2 = some (ascii "y") ∧ shellParam cmd 3 = some (ascii "z") ∧
        shellParam cmd 4 = none := by
  obtain ⟨fields, hf, hcmd, _, hbash, hbetween⟩ :=
    NumberedVars_positional spaceRuns
      (regexpCompile_wellFormed (ascii "\\s" ++ ascii "+") spaceRuns rfl) (by decide)
      (ascii "echo $1-$2-$3") (ascii "x y z")
  have hfields : fields = [ascii "x", ascii "y", ascii "z"] := by
    rw [hbetween spaceRuns_nonEmpty]
    decide
  obtain ⟨_, h0, hk⟩ := hbash (by decide) (by decide) _ hcmd
  refine ⟨rfl, by decide, _, hcmd, ?_, h0, ?_, ?_, ?_, ?_⟩
  · rw [hfields]
    rfl
  · rw [hk 0, hfields]; rfl
  · rw [hk 1, hfields]; rfl
  · rw [hk 2, hfields]; rfl
  · rw [hk 3, hfields]; rfl

/-- C2 as stated fails for a template that starts with `-` or `+`: with the template `-x`
(or `+x`) and the record `a b` the arguments are `-c`, `-x`, the empty string, `a`, `b`;
bash reads `-x` as an option, takes the empty string as the command string, and gives
`$0` the first field `a` and `$1` the second field `b`, where the claim has the empty
string as `$0` and the first field as `$1`. -/
theorem NumberedVars_template_read_as_option :
    spaceRuns.Split (ascii "a b") (-1) = [ascii "a", ascii "b"] ∧
      (∃ cmd, NumberedVars (ascii "-x") spaceRuns (ascii "a b") = some cmd ∧
        cmd.Args = [ascii "/bin/bash", ascii "-c", ascii "-x", ascii "", ascii "a",
          ascii "b"] ∧
        bashCall cmd.Args =
          some { commandString := ascii "", params := [ascii "a", ascii "b"] } ∧
        shellParam cmd 0 = some (ascii "a") ∧ shellParam cmd 0 ≠ some (ascii "") ∧
        shellParam cmd 1 = some (ascii "b") ∧
        shellParam cmd 1 ≠ (spaceRuns.Split (ascii "a b") (-1))[0]?) ∧
      (∃ cmd, NumberedVars (ascii "+x") spaceRuns (ascii "a b") = some cmd ∧
        bashCall cmd.Args =
          some { commandString := ascii "", params := [ascii "a", ascii "b"] } ∧
        shellParam cmd 0 = some (ascii "a") ∧ shellParam cmd 0 ≠ some (ascii "")) := by
  refine ⟨by decide, ⟨_, rfl, by decide, by decide, by decide, by decide, by decide,
    by decide⟩, ⟨_, rfl, by decide, by decide, by decide⟩⟩

/-- C10. Named mode with a short record: when the split yields `k` fields and `k` is
smaller than the number of names, `NamedVars` does not fail (no index past the end of
the names); the environment is the inherited one followed by exactly `k` entries, the
first `k` names paired with the `k` fields, and there is no entry for any later
name. -/
theorem NamedVars_short_record (re : Regexp) (command : Bytes)
    (varNames environ : List Bytes) (input : Bytes) (k : Nat)
    (hk : (re.Split input varNames.length).length = k) (hlt : k < varNames.length) :
    ∃ env, NamedVars command varNames re environ input =
        some { Path := ascii "/bin/bash", Args := [ascii "/bin/bash", ascii "-c", command],
               Env := some env } ∧
      env = environ ++ List.zipWith (fun name v => name ++ ascii "=" ++ v)
        (varNames.take k) (re.Split input varNames.length) ∧
      env.length = environ.length + k ∧
      env.take environ.length = environ ∧
      ∀ j, k ≤ j → env[environ.length + j]? = none := by
  refine ⟨_, ?_, rfl, ?_, ?_, ?_⟩
  · simp only [NamedVars, execCommand]
    rw [bindFields_eq varNames _ 0 environ (by omega)]
    rw [← hk, zipWith_take_right]
    simp
  · simp [hk]
    omega
  · simp
  · intro j hj
    apply List.getElem?_eq_none
    simp [hk]
    omega

/-- C10 at three names and the record `a:b`: two entries are added and the inherited
`Z=inherited` is the only entry for `Z`. -/
theorem NamedVars_short_record_witness :
    NamedVars (ascii "echo $X $Y $Z") [ascii "X", ascii "Y", ascii "Z"] colonRuns
        [ascii "Z=inherited"] (ascii "a:b") =
      some { Path := ascii "/bin/bash",
             Args := [ascii "/bin/bash", ascii "-c", ascii "echo $X $Y $Z"],
             Env := some [ascii "Z=inherited", ascii "X=a", ascii "Y=b"] } := by
  obtain ⟨env, h, henv, _⟩ := NamedVars_short_record colonRuns (ascii "echo $X $Y $Z")
    [ascii "X", ascii "Y", ascii "Z"] [ascii "Z=inherited"] (ascii "a:b") 2
    (by decide) (by decide)
  rw [h, henv]
  decide

theorem ScanLines_eq : ScanLines = delimSplit (fun data => IndexByte data 0x0A) dropCR := rfl

theorem customLineSplitter_eq (d : Bytes) :
    customLineSplitter d = delimSplit (fun data => IndexAny data d) id := rfl

theorem IndexByte_eq_firstIdx (c : Nat) :
    ∀ data, IndexByte data c = firstIdx (fun b => decide (b = c)) data := by
  intro data
  induction data with
  | nil => rfl
  | cons b bs ih =>
    simp only [IndexByte, firstIdx, ih]
    by_cases h : b = c <;> simp [h]

theorem firstIdx_lt (p : Nat → Bool) :
    ∀ data i, firstIdx p data = some i → i < data.length := by
  intro data
  induction data with
  | nil => intro i h; simp [firstIdx] at h
  | cons b bs ih =>
    intro i h
    simp only [firstIdx] at h
    split at h
    · simp only [Option.some.injEq] at h
      subst h
      simp
    · simp only [Option.map_eq_some'] at h
      obtain ⟨j, hj, rfl⟩ := h
      have := ih j hj
      simp
      omega

theorem pieces_cons (p : Nat → Bool) (b : Nat) (bs : Bytes) :
    pieces p (b :: bs) =
      if p b then [] :: pieces p bs
      else
        match pieces p bs with
        | [] => [[b]]
        | piece :: rest => (b :: piece) :: rest := rfl

theorem pieces_of_firstIdx (p : Nat → Bool) :
    ∀ (buf : Bytes) (i : Nat) (rest : Bytes), firstIdx p buf = some i →
      pieces p (buf ++ rest) = buf.take i :: pieces p (buf.drop (i + 1) ++ rest) := by
  intro buf
  induction buf with
  | nil => intro i rest h; simp [firstIdx] at h
  | cons b bs ih =>
    intro i rest h
    simp only [firstIdx] at h
    split at h
    · rename_i hp
      simp only [Option.some.injEq] at h
      subst h
      rw [List.cons_append, pieces_cons]
      simp [hp]
    · rename_i hp
      simp only [Option.map_eq_some'] at h
      obtain ⟨j, hj, rfl⟩ := h
      have := ih j rest hj
      rw [List.cons_append, pieces_cons, this]
      simp [hp]

theorem pieces_of_firstIdx_none (p : Nat → Bool) :
    ∀ (buf : Bytes), firstIdx p buf = none → buf ≠ [] → pieces p buf = [buf] := by
  intro buf
  induction buf with
  | nil => intro _ h; exact absurd rfl h
  | cons b bs ih =>
    intro h _
    simp only [firstIdx] at h
    split at h
    · cases h
    · rename_i hp
      simp only [Option.map_eq_none'] at h
      rw [pieces_cons]
      cases bs with
      | nil => simp [pieces, hp]
      | cons c cs =>
        rw [ih h (by simp)]
        simp [hp]

theorem pieces_first_long (p : Nat → Bool) :
    ∀ (buf rest : Bytes), firstIdx p buf = none → buf ≠ [] →
      ∃ piece more, pieces p (buf ++ rest) = piece :: more ∧ buf.length ≤ piece.length := by
  intro buf
  induction buf with
  | nil => intro _ _ h; exact absurd rfl h
  | cons b bs ih =>
    intro rest h _
    simp only [firstIdx] at h
    split at h
    · cases h
    · rename_i hp
      simp only [Option.map_eq_none'] at h
      rw [List.cons_append, pieces_cons]
      cases bs with
      | nil =>
        cases hpr : pieces p ([] ++ rest) with
        | nil => exact ⟨[b], [], by simp [hp], by simp⟩
        | cons piece more => exact ⟨b :: piece, more, by simp [hp], by simp⟩
      | cons c cs =>
        obtain ⟨piece, more, heq, hle⟩ := ih rest h (by simp)
        rw [heq]
        exact ⟨b :: piece, more, by simp [hp], by simp at hle ⊢; omega⟩

theorem readLoop_delimSplit (p : Nat → Bool) (idx : Bytes → Option Nat)
    (hidx : ∀ d, idx d = firstIdx p d) (post trimSpace : Bytes → Bytes) (tw : Bool) :
    ∀ (fuel : Nat) (buf rest : Bytes) (eof : Bool) (reads : List Nat),
      (eof = true → rest = []) →
      2 * rest.length + buf.length + (if eof then 0 else 1) + 1 ≤ fuel →
      (∀ piece ∈ pieces p (buf ++ rest), piece.length < maxScanTokenSize) →
      readLoop (delimSplit idx post) trimSpace tw fuel buf rest eof reads =
        (pieces p (buf ++ rest)).map (fun t => if tw then trimSpace (post t) else post t) := by
  intro fuel
  induction fuel with
  | zero => intro buf rest eof reads _ h _; omega
  | succ fuel ih =>
    intro buf rest eof reads heof hfuel hsize
    have hread : ∀ (b : Bytes) (k : Nat), b.length < maxScanTokenSize →
        (∀ piece ∈ pieces p (b ++ rest), piece.length < maxScanTokenSize) →
        2 * rest.length + b.length + 1 ≤ fuel → rest ≠ [] → 1 ≤ k →
        readLoop (delimSplit idx post) trimSpace tw fuel (b ++ rest.take k) (rest.drop k)
            false reads.tail =
          (pieces p (b ++ rest)).map (fun t => if tw then trimSpace (post t) else post t) := by
      intro b k _ hs hf hne hk
      have hlen : 0 < rest.length := List.length_pos.2 hne
      rw [ih (b ++ rest.take k) (rest.drop k) false reads.tail (by simp)
        (by simp only [List.length_append, List.length_take, List.length_drop]
            simp only [Bool.false_eq_true, if_false]
            omega)
        (by simpa [List.append_assoc] using hs)]
      simp [List.append_assoc]
    by_cases hbuf : buf = []
    · subst hbuf
      cases eof with
      | true =>
        have hrest := heof rfl
        subst hrest
        simp [readLoop, delimSplit, pieces]
      | false =>
        by_cases hrest : rest = []
        · subst hrest
          simp only [readLoop]
          simp only [ne_eq, not_true_eq_false, Bool.false_eq_true, or_self, if_false, if_true]
          rw [ih [] [] true reads (by simp) (by simp at hfuel ⊢; omega) (by simpa using hsize)]
        · simp only [readLoop]
          simp only [ne_eq, not_true_eq_false, Bool.false_eq_true, or_self, if_false, hrest]
          have := hread [] (max 1 (min (reads.headD maxScanTokenSize) maxScanTokenSize))
            (by decide) hsize (by simp at hfuel ⊢; omega) hrest (by omega)
          simpa using this
    · have hcond : buf ≠ [] ∨ eof = true := Or.inl hbuf
      have hlen : 0 < buf.length := List.length_pos.2 hbuf
      cases hfi : firstIdx p buf with
      | some i =>
        have hi := firstIdx_lt p buf i hfi
        have hsplit : delimSplit idx post buf eof = (i + 1, some (post (buf.take i))) := by
          simp only [delimSplit, hidx, hfi]
          have : ¬ (eof = true ∧ buf.length = 0) := by omega
          simp [hbuf]
        simp only [readLoop, hcond, if_true, hsplit]
        have : ¬ (buf.length < i + 1) := by omega
        simp only [this, if_false]
        rw [pieces_of_firstIdx p buf i rest hfi]
        rw [ih (buf.drop (i + 1)) rest eof reads heof
          (by simp only [List.length_drop]; omega)
          (by
            intro piece hp
            apply hsize
            rw [pieces_of_firstIdx p buf i rest hfi]
            exact List.mem_cons_of_mem _ hp)]
        simp
      | none =>
        cases eof with
        | true =>
          have hrest := heof rfl
          subst hrest
          have hsplit : delimSplit idx post buf true = (buf.length, some (post buf)) := by
            simp only [delimSplit, hidx, hfi]
            have : ¬ (true = true ∧ buf.length = 0) := by omega
            simp [hbuf]
          simp only [readLoop, hcond, if_true, hsplit]
          simp only [lt_self_iff_false, if_false, List.drop_length]
          rw [ih [] [] true reads (by simp) (by simp at hfuel ⊢; omega) (by simp [pieces])]
          simp only [List.append_nil]
          rw [pieces_of_firstIdx_none p buf hfi hbuf]
          simp [pieces]
        | false =>
          have hsplit : delimSplit idx post buf false = (0, none) := by
            simp only [delimSplit, hidx, hfi]
            simp
          obtain ⟨piece, more, hpm, hle⟩ := pieces_first_long p buf rest hfi hbuf
          have hsmall : buf.length < maxScanTokenSize := by
            have := hsize piece (by rw [hpm]; exact List.mem_cons_self _ _)
            omega
          simp only [readLoop, hcond, if_true, hsplit]
          simp only [Nat.not_lt_zero, if_false, List.drop_zero, Bool.false_eq_true]
          have : ¬ (maxScanTokenSize ≤ buf.length) := by omega
          simp only [this, if_false]
          by_cases hrest : rest = []
          · subst hrest
            simp only [if_true]
            rw [ih buf [] true reads (by simp) (by simp at hfuel ⊢; omega) hsize]
          · simp only [hrest, if_false]
            exact hread buf _ hsmall hsize (by simp at hfuel ⊢; omega) hrest (by omega)

theorem dropCR_spec (t : Bytes) : dropCR t = t ∨ dropCR t ++ [0x0D] = t := by
  simp only [dropCR]
  split
  · rename_i h
    right
    have := List.dropLast_append_getLast? 0x0D (by simpa using h.2)
    simpa using this
  · left; rfl

theorem activeCount_append (ws : List Worker) (w : Worker) :
    activeCount (ws ++ [w]) = activeCount ws + (if w.active then 1 else 0) := by
  induction ws with
  | nil => simp [activeCount]
  | cons x xs ih =>
    rw [List.cons_append]
    simp only [activeCount]
    rw [ih]
    omega

theorem activeCount_set (w1 : Worker) :
    ∀ (ws : List Worker) (i : Nat) (w : Worker), ws[i]? = some w →
      activeCount (ws.set i w1) + (if w.active then 1 else 0) =
        activeCount ws + (if w1.active then 1 else 0) := by
  intro ws
  induction ws with
  | nil => intro i w h; simp at h
  | cons x xs ih =>
    intro i w h
    cases i with
    | zero =>
      simp only [List.getElem?_cons_zero, Option.some.injEq] at h
      subst h
      simp only [List.set_cons_zero, activeCount]
      omega
    | succ i =>
      simp only [List.getElem?_cons_succ] at h
      have := ih i w h
      simp only [List.set_cons_succ, activeCount]
      omega

theorem activeCount_zero : ∀ ws : List Worker, activeCount ws = 0 → ∀ w ∈ ws, w = Worker.done := by
  intro ws
  induction ws with
  | nil => intro _ w hw; cases hw
  | cons x xs ih =>
    intro h w hw
    simp only [activeCount] at h
    rcases List.mem_cons.1 hw with rfl | hw
    · cases w <;> simp [Worker.active] at h ⊢
    · exact ih (by omega) w hw

theorem activeCount_pos (ws : List Worker) (i : Nat) (w : Worker) (h : ws[i]? = some w)
    (ha : w.active = true) : 0 < activeCount ws := by
  by_contra hcon
  have h0 : activeCount ws = 0 := by omega
  have hmem : w ∈ ws := List.getElem?_mem h
  have := activeCount_zero ws h0 w hmem
  subst this
  simp [Worker.active] at ha

theorem init_inv (m : Mapper) (items : List ReaderItem) : Inv m (State.init items) := by
  constructor <;> simp [State.init, activeCount]

theorem stepReader_inv (m : Mapper) (s s1 : State) (hinv : Inv m s)
    (h : stepReader s = some s1) : Inv m s1 := by
  obtain ⟨h1, h2, h3, h4, h5, h6, h7, h8, h9, h10, h11, h12, h13⟩ := hinv
  simp only [stepReader] at h
  split at h
  · cases h
  · rename_i hrd
    split at h
    · rename_i hitems
      split at h
      · rename_i hcl
        rw [← h9] at hcl
        exact absurd hcl hrd
      · rename_i hcl
        simp only [Option.some.injEq] at h
        subst h
        refine ⟨?_, ?_, ?_, ?_, ?_, ?_, ?_, ?_, ?_, ?_, ?_, ?_, ?_⟩ <;> (try dsimp only) <;>
          (try assumption)
        · intro _; exact hitems
        · intro hd
          exact absurd (h11 hd).1 hcl
    · simp only [Option.some.injEq] at h
      subst h
      refine ⟨?_, ?_, ?_, ?_, ?_, ?_, ?_, ?_, ?_, ?_, ?_, ?_, ?_⟩ <;> (try dsimp only) <;>
        (try assumption)
      intro why hw
      cases hw
    · rename_i r rest hitems
      split at h
      · rename_i hcl
        have := h10 hcl
        rw [hitems] at this
        cases this
      · rename_i hcl
        split at h
        · simp only [Option.some.injEq] at h
          subst h
          refine ⟨?_, ?_, ?_, ?_, ?_, ?_, ?_, ?_, ?_, ?_, ?_, ?_, ?_⟩ <;> (try dsimp only) <;>
            (try assumption)
          · intro hc; exact absurd hc hcl
          · intro hd
            exact absurd (h11 hd).1 hcl
        · cases h

theorem stepMain_inv (m : Mapper) (s s1 : State) (hinv : Inv m s)
    (h : stepMain m s = some s1) : Inv m s1 := by
  obtain ⟨h1, h2, h3, h4, h5, h6, h7, h8, h9, h10, h11, h12, h13⟩ := hinv
  simp only [stepMain, Mapper.Map] at h
  split at h
  · rename_i w hmain
    obtain ⟨hlen, habs⟩ := h5 w hmain
    split at h
    · rename_i hlt
      simp only [Option.some.injEq] at h
      subst h
      refine ⟨?_, ?_, ?_, ?_, ?_, ?_, ?_, ?_, ?_, ?_, ?_, ?_, ?_⟩ <;> (try dsimp only) <;>
        (try assumption)
      · rw [activeCount_append, h3]; rfl
      · intro hd; rw [habs] at hd; cases hd
      · intro w1 hw1
        simp only [Phase.spawning.injEq] at hw1
        subst hw1
        exact ⟨by simp [hlen], habs⟩
      · intro hall
        exact absurd rfl (hall (w + 1))
      · simp only [List.length_append, List.length_singleton, hlen]
        have : (w : Int) + 1 ≤ m.workers := by omega
        have := le_max_left m.workers 0
        push_cast
        omega
      · intro hret; cases hret
      · intro hd
        simp only [List.mem_append, List.mem_singleton] at hd
        rcases hd with hd | hd
        · exact h11 hd
        · cases hd
    · rename_i hlt
      simp only [Option.some.injEq] at h
      subst h
      refine ⟨?_, ?_, ?_, ?_, ?_, ?_, ?_, ?_, ?_, ?_, ?_, ?_, ?_⟩ <;> (try dsimp only) <;>
        (try assumption)
      · constructor
        · intro hc
          have := h2.1 hc
          rw [habs] at this
          cases this
        · intro hc; cases hc
      · intro hc; cases hc
      · intro w1 hw1; cases hw1
      · intro _
        refine ⟨(by decide), ?_⟩
        rw [hlen]
        exact hlt
      · intro hret; cases hret
  · rename_i hmain
    split at h
    · rename_i out rest hout
      simp only [Option.some.injEq] at h
      subst h
      refine ⟨?_, ?_, ?_, ?_, ?_, ?_, ?_, ?_, ?_, ?_, ?_, ?_, ?_⟩ <;> (try dsimp only) <;>
        (try assumption)
      · intro hret; rw [hmain] at hret; cases hret
      · rw [← h12, hout]; simp
    · rename_i hout
      split at h
      · rename_i hcl
        simp only [Option.some.injEq] at h
        subst h
        refine ⟨?_, ?_, ?_, ?_, ?_, ?_, ?_, ?_, ?_, ?_, ?_, ?_, ?_⟩ <;> (try dsimp only) <;>
          (try assumption)
        · intro w1 hw1; cases hw1
        · intro _
          apply h6
          intro w1 hw1
          rw [hmain] at hw1
          cases hw1
        · intro _; exact ⟨hcl, hout⟩
      · cases h
  · cases h

theorem stepCloser_inv (m : Mapper) (s s1 : State) (hinv : Inv m s)
    (h : stepCloser s = some s1) : Inv m s1 := by
  obtain ⟨h1, h2, h3, h4, h5, h6, h7, h8, h9, h10, h11, h12, h13⟩ := hinv
  simp only [stepCloser] at h
  split at h
  · rename_i hwait
    split at h
    · rename_i hwg
      split at h
      · rename_i hcl
        have := h2.1 hcl
        rw [hwait] at this
        cases this
      · rename_i hcl
        simp only [Option.some.injEq] at h
        subst h
        refine ⟨?_, ?_, ?_, ?_, ?_, ?_, ?_, ?_, ?_, ?_, ?_, ?_, ?_⟩ <;> (try dsimp only) <;>
          (try assumption)
        · rw [h1]; simp [hcl]
        · simp
        · intro _; exact hwg
        · intro w hw
          have := (h5 w hw).2
          rw [hwait] at this
          cases this
        · intro hall
          exact ⟨(by decide), (h6 hall).2⟩
        · intro hret
          exact absurd (h8 hret).1 hcl
    · cases h
  · cases h

theorem done_mem_set (ws : List Worker) (i : Nat) (w : Worker) (hw : w ≠ Worker.done)
    (h : Worker.done ∈ ws.set i w) : Worker.done ∈ ws := by
  rcases List.mem_or_eq_of_mem_set h with h | h
  · exact h
  · exact absurd h.symm hw

theorem executeTask_inv (m : Mapper) (exec : Cmd → Child) (i : Nat) (s s1 : State)
    (hinv : Inv m s) (h : Mapper.executeTask m exec i s = some s1) : Inv m s1 := by
  obtain ⟨h1, h2, h3, h4, h5, h6, h7, h8, h9, h10, h11, h12, h13⟩ := hinv
  simp only [Mapper.executeTask] at h
  split at h
  · cases h
  · cases h
  · rename_i hw
    have hact : 0 < activeCount s.workers := activeCount_pos _ i _ hw rfl
    have hset := fun w1 => activeCount_set w1 s.workers i _ hw
    split at h
    · rename_i line rest hin
      split at h
      · simp only [Option.some.injEq] at h
        subst h
        refine ⟨?_, ?_, ?_, ?_, ?_, ?_, ?_, ?_, ?_, ?_, ?_, ?_, ?_⟩ <;> (try dsimp only) <;>
          (try assumption)
        intro why hwhy
        cases hwhy
        rfl
      · rename_i process hgen
        split at h
        · simp only [Option.some.injEq] at h
          subst h
          refine ⟨?_, ?_, ?_, ?_, ?_, ?_, ?_, ?_, ?_, ?_, ?_, ?_, ?_⟩ <;> (try dsimp only) <;>
            (try simp only [List.length_set]) <;> (try assumption)
          · have := hset (Worker.running line (exec process).lines (exec process).exitOk)
            simp only [Worker.active, if_true] at this
            omega
          · intro hd
            have := (h11 (done_mem_set _ _ _ (by simp) hd)).2
            rw [hin] at this
            cases this
        · simp only [Option.some.injEq] at h
          subst h
          refine ⟨?_, ?_, ?_, ?_, ?_, ?_, ?_, ?_, ?_, ?_, ?_, ?_, ?_⟩ <;> (try dsimp only) <;>
            (try assumption)
          intro why hwhy
          cases hwhy
    · rename_i hin
      split at h
      · rename_i hcl
        split at h
        · rename_i hwg
          omega
        · rename_i hwg
          simp only [Option.some.injEq] at h
          subst h
          refine ⟨?_, ?_, ?_, ?_, ?_, ?_, ?_, ?_, ?_, ?_, ?_, ?_, ?_⟩ <;> (try dsimp only) <;>
            (try simp only [List.length_set]) <;> (try assumption)
          · have := hset Worker.done
            simp only [Worker.active, if_true] at this
            simp at this
            omega
          · intro hd
            have := h4 hd
            omega
          · intro _
            exact ⟨hcl, hin⟩
      · cases h
  · rename_i line out rest exitOk hw
    have hact : 0 < activeCount s.workers := activeCount_pos _ i _ hw rfl
    have hset := fun w1 => activeCount_set w1 s.workers i _ hw
    have hopen : ¬ s.outClosed = true := by
      intro hcl
      have := h4 (h2.1 hcl)
      omega
    split at h
    · rename_i hcl
      exact absurd hcl hopen
    · split at h
      · simp only [Option.some.injEq] at h
        subst h
        refine ⟨?_, ?_, ?_, ?_, ?_, ?_, ?_, ?_, ?_, ?_, ?_, ?_, ?_⟩ <;> (try dsimp only) <;>
          (try simp only [List.length_set]) <;> (try assumption)
        · have := hset (Worker.running line rest exitOk)
          simp only [Worker.active, if_true] at this
          omega
        · intro hret
          exact absurd (h8 hret).1 hopen
        · intro hd
          exact h11 (done_mem_set _ _ _ (by simp) hd)
        · rw [← h12]; simp
      · cases h
  · rename_i line exitOk hw
    have hact : 0 < activeCount s.workers := activeCount_pos _ i _ hw rfl
    have hset := fun w1 => activeCount_set w1 s.workers i _ hw
    split at h
    · simp only [Option.some.injEq] at h
      subst h
      refine ⟨?_, ?_, ?_, ?_, ?_, ?_, ?_, ?_, ?_, ?_, ?_, ?_, ?_⟩ <;> (try dsimp only) <;>
        (try simp only [List.length_set]) <;> (try assumption)
      · have := hset Worker.idle
        simp only [Worker.active, if_true] at this
        omega
      · intro hd
        exact h11 (done_mem_set _ _ _ (by simp) hd)
    · simp only [Option.some.injEq] at h
      subst h
      refine ⟨?_, ?_, ?_, ?_, ?_, ?_, ?_, ?_, ?_, ?_, ?_, ?_, ?_⟩ <;> (try dsimp only) <;>
        (try assumption)
      intro why hwhy
      cases hwhy

theorem step_inv (m : Mapper) (exec : Cmd → Child) (a : Action) (s s1 : State)
    (hinv : Inv m s) (h : step m exec a s = some s1) : Inv m s1 := by
  simp only [step] at h
  split at h
  · cases h
  · cases a with
    | reader => exact stepReader_inv m s s1 hinv h
    | main => exact stepMain_inv m s s1 hinv h
    | worker i => exact executeTask_inv m exec i s s1 hinv h
    | closer => exact stepCloser_inv m s s1 hinv h

theorem runSchedule_inv (m : Mapper) (exec : Cmd → Child) :
    ∀ (schedule : List Action) (s s1 : State), Inv m s →
      runSchedule m exec schedule s = some s1 → Inv m s1 := by
  intro schedule
  induction schedule with
  | nil =>
    intro s s1 hinv h
    simp only [runSchedule, Option.some.injEq] at h
    subst h
    exact hinv
  | cons a rest ih =>
    intro s s1 hinv h
    simp only [runSchedule] at h
    split at h
    · cases h
    · rename_i s2 hstep
      exact ih s2 s1 (step_inv m exec a s s2 hinv hstep) h

theorem reachable_inv (m : Mapper) (exec : Cmd → Child) (items : List ReaderItem)
    (s : State) (h : Reachable m exec (State.init items) s) : Inv m s := by
  obtain ⟨schedule, hs⟩ := h
  exact runSchedule_inv m exec schedule _ s (init_inv m items) hs

theorem workersCost_append (ws : List Worker) (w : Worker) :
    workersCost (ws ++ [w]) = workersCost ws + w.cost := by
  induction ws with
  | nil => simp [workersCost]
  | cons x xs ih =>
    rw [List.cons_append]
    simp only [workersCost]
    rw [ih]
    omega

theorem workersCost_set (w1 : Worker) :
    ∀ (ws : List Worker) (i : Nat) (w : Worker), ws[i]? = some w →
      workersCost (ws.set i w1) + w.cost = workersCost ws + w1.cost := by
  intro ws
  induction ws with
  | nil => intro i w h; simp at h
  | cons x xs ih =>
    intro i w h
    cases i with
    | zero =>
      simp only [List.getElem?_cons_zero, Option.some.injEq] at h
      subst h
      simp only [List.set_cons_zero, workersCost]
      omega
    | succ i =>
      simp only [List.getElem?_cons_succ] at h
      have := ih i w h
      simp only [List.set_cons_succ, workersCost]
      omega

theorem chanCost_append (m : Mapper) (exec : Cmd → Child) (l : List Bytes) (r : Bytes) :
    chanCost m exec (l ++ [r]) = chanCost m exec l + (lineCost m exec r + 3) := by
  induction l with
  | nil => simp [chanCost]
  | cons x xs ih =>
    rw [List.cons_append]
    simp only [chanCost]
    rw [ih]
    omega

theorem step_cost (m : Mapper) (exec : Cmd → Child) (a : Action) (s s1 : State)
    (h : step m exec a s = some s1) : s1.cost m exec < s.cost m exec := by
  simp only [step] at h
  split at h
  · cases h
  rename_i hguard
  have hrun : s.status = Status.running := by
    by_contra hc
    exact hguard (Or.inl hc)
  cases a with
  | reader =>
    simp only [stepReader] at h
    split at h
    · cases h
    rename_i hrd
    split at h
    · split at h <;>
      · simp only [Option.some.injEq] at h
        subst h
        simp [State.cost, hrun, hrd]
    · simp only [Option.some.injEq] at h
      subst h
      simp [State.cost, hrun]
    · rename_i r rest hitems
      split at h
      · simp only [Option.some.injEq] at h
        subst h
        simp [State.cost, hrun]
      · split at h
        · simp only [Option.some.injEq] at h
          subst h
          simp only [State.cost, hitems, itemsCost, chanCost_append]
          omega
        · cases h
  | main =>
    simp only [stepMain, Mapper.Map] at h
    split at h
    · rename_i w hmain
      split at h
      · rename_i hlt
        simp only [Option.some.injEq] at h
        subst h
        simp only [State.cost, hmain, workersCost_append, Worker.cost]
        have : (m.workers - ((w + 1 : Nat) : Int)).toNat + 1 = (m.workers - (w : Int)).toNat := by
          omega
        omega
      · rename_i hlt
        simp only [Option.some.injEq] at h
        subst h
        simp only [State.cost, hmain]
        have : (m.workers - (w : Int)).toNat = 0 := by omega
        simp only [this]
        split <;> simp <;> omega
    · rename_i hmain
      split at h
      · rename_i out rest hout
        simp only [Option.some.injEq] at h
        subst h
        simp only [State.cost, hmain, hout, List.length_cons]
        omega
      · split at h
        · simp only [Option.some.injEq] at h
          subst h
          simp only [State.cost, hmain]
          omega
        · cases h
    · cases h
  | worker i =>
    simp only [Mapper.executeTask] at h
    split at h
    · cases h
    · cases h
    · rename_i hw
      have hset := fun w1 => workersCost_set w1 s.workers i _ hw
      split at h
      · rename_i line rest hin
        split at h
        · simp only [Option.some.injEq] at h
          subst h
          simp [State.cost, hrun]
        · rename_i process hgen
          split at h
          · simp only [Option.some.injEq] at h
            subst h
            have := hset (Worker.running line (exec process).lines (exec process).exitOk)
            simp only [Worker.cost] at this
            simp only [State.cost, hin, chanCost, lineCost, hgen]
            omega
          · simp only [Option.some.injEq] at h
            subst h
            simp [State.cost, hrun]
      · split at h
        · split at h
          · simp only [Option.some.injEq] at h
            subst h
            simp [State.cost, hrun]
          · simp only [Option.some.injEq] at h
            subst h
            have := hset Worker.done
            simp only [Worker.cost] at this
            simp only [State.cost]
            omega
        · cases h
    · rename_i line out rest exitOk hw
      have hset := fun w1 => workersCost_set w1 s.workers i _ hw
      split at h
      · simp only [Option.some.injEq] at h
        subst h
        simp [State.cost, hrun]
      · split at h
        · simp only [Option.some.injEq] at h
          subst h
          have := hset (Worker.running line rest exitOk)
          simp only [Worker.cost, List.length_cons] at this
          simp only [State.cost, List.length_append, List.length_singleton]
          omega
        · cases h
    · rename_i line exitOk hw
      have hset := fun w1 => workersCost_set w1 s.workers i _ hw
      split at h
      · simp only [Option.some.injEq] at h
        subst h
        have := hset Worker.idle
        simp only [Worker.cost, List.length_nil] at this
        simp only [State.cost]
        omega
      · simp only [Option.some.injEq] at h
        subst h
        simp [State.cost, hrun]
  | closer =>
    simp only [stepCloser] at h
    split at h
    · rename_i hwait
      split at h
      · split at h
        · simp only [Option.some.injEq] at h
          subst h
          simp [State.cost, hrun]
        · simp only [Option.some.injEq] at h
          subst h
          simp [State.cost, hwait]
      · cases h
    · cases h

theorem runSchedule_cost (m : Mapper) (exec : Cmd → Child) :
    ∀ (schedule : List Action) (s s1 : State), runSchedule m exec schedule s = some s1 →
      schedule.length + s1.cost m exec ≤ s.cost m exec := by
  intro schedule
  induction schedule with
  | nil =>
    intro s s1 h
    simp only [runSchedule, Option.some.injEq] at h
    subst h
    simp
  | cons a rest ih =>
    intro s s1 h
    simp only [runSchedule] at h
    split at h
    · cases h
    · rename_i s2 hstep
      have := ih s2 s1 h
      have := step_cost m exec a s s2 hstep
      simp only [List.length_cons]
      omega

theorem activeCount_exists : ∀ ws : List Worker, 0 < activeCount ws →
    ∃ (i : Nat) (w : Worker), ws[i]? = some w ∧ w.active = true := by
  intro ws
  induction ws with
  | nil => intro h; simp [activeCount] at h
  | cons x xs ih =>
    intro h
    by_cases hx : x.active = true
    · exact ⟨0, x, by simp, hx⟩
    · simp only [activeCount, hx] at h
      obtain ⟨i, w, hi, hw⟩ := ih (by simpa using h)
      exact ⟨i + 1, w, by rw [List.getElem?_cons_succ]; exact hi, hw⟩

theorem progress (m : Mapper) (exec : Cmd → Child) (s : State) (hinv : Inv m s)
    (hrun : s.status = Status.running) (hmain : s.main ≠ Phase.returned) :
    ∃ a s1, step m exec a s = some s1 := by
  obtain ⟨h1, h2, h3, h4, h5, h6, h7, h8, h9, h10, h11, h12, h13⟩ := hinv
  have hstep : ∀ a, step m exec a s =
      match a with
      | Action.reader => stepReader s
      | Action.main => stepMain m s
      | Action.worker i => Mapper.executeTask m exec i s
      | Action.closer => stepCloser s := by
    intro a
    cases a <;> simp [step, hrun, hmain]
  cases hm : s.main with
  | returned => exact absurd hm hmain
  | spawning w =>
    by_cases hlt : (w : Int) < m.workers
    · exact ⟨Action.main, by
                  rw [hstep]
                  simp [stepMain, Mapper.Map, hm, hlt, if_true]⟩
    · exact ⟨Action.main, by
                  rw [hstep]
                  simp [stepMain, Mapper.Map, hm, hlt]⟩
  | draining =>
    cases hout : s.outChan with
    | cons out rest =>
      exact ⟨Action.main, by
                  rw [hstep]
                  simp [stepMain, Mapper.Map, hm, hout]⟩
    | nil =>
      by_cases hcl : s.outClosed = true
      · exact ⟨Action.main, by
                  rw [hstep]
                  simp [stepMain, Mapper.Map, hm, hout, hcl, if_true]⟩
      · have hmapped := h6 (by intro w hw; rw [hm] at hw; cases hw)
        have hwait : s.closer = Closer.waiting := by
          cases hc : s.closer with
          | absent => exact absurd hc hmapped.1
          | waiting => rfl
          | done => exact absurd (h2.2 hc) hcl
        by_cases hwg : s.wg = 0
        · exact ⟨Action.closer, by
                  rw [hstep]
                  simp [stepCloser, hwait, hwg, if_true, hcl]⟩
        · obtain ⟨i, w, hi, hw⟩ := activeCount_exists s.workers (by omega)
          cases w with
          | done => simp [Worker.active] at hw
          | running line out exitOk =>
            cases out with
            | nil =>
              by_cases hok : exitOk = true
              · exact ⟨Action.worker i, by
                  rw [hstep]
                  simp [Mapper.executeTask, hi, hok, if_true]⟩
              · exact ⟨Action.worker i, by
                  rw [hstep]
                  simp [Mapper.executeTask, hi, hok]⟩
            | cons o rest =>
              have hroom : s.outChan.length < chanCap := by rw [hout]; decide
              exact ⟨Action.worker i, by
                  rw [hstep]
                  simp [Mapper.executeTask, hi, hcl, hroom, if_true]⟩
          | idle =>
            cases hin : s.inChan with
            | cons line rest =>
              cases hgen : m.generateCmd line with
              | none =>
                exact ⟨Action.worker i, by
                  rw [hstep]
                  simp [Mapper.executeTask, hi, hin, hgen]⟩
              | some process =>
                by_cases hst : (exec process).startOk = true
                · exact ⟨Action.worker i, by
                  rw [hstep]
                  simp [Mapper.executeTask, hi, hin, hgen, hst, if_true]⟩
                · exact ⟨Action.worker i, by
                  rw [hstep]
                  simp [Mapper.executeTask, hi, hin, hgen, hst]⟩
            | nil =>
              by_cases hic : s.inClosed = true
              · exact ⟨Action.worker i, by
                  rw [hstep]
                  simp [Mapper.executeTask, hi, hin, hic, if_true, hwg]⟩
              · have hrd : ¬ s.readerDone = true := by rw [h9]; exact hic
                cases hit : s.items with
                | nil =>
                  exact ⟨Action.reader, by
                  rw [hstep]
                  simp [stepReader, hrd, hit, hic]⟩
                | cons item rest =>
                  cases item with
                  | fatal =>
                    exact ⟨Action.reader, by
                  rw [hstep]
                  simp [stepReader, hrd, hit]⟩
                  | line r =>
                    have hroom : s.inChan.length < chanCap := by rw [hin]; decide
                    exact ⟨Action.reader, by
                  rw [hstep]
                  simp [stepReader, hrd, hit, hic, hroom, if_true]⟩

theorem expectedOutput_append (m : Mapper) (exec : Cmd → Child) (a b : List Bytes) :
    expectedOutput m exec (a ++ b) = expectedOutput m exec a ++ expectedOutput m exec b := by
  induction a with
  | nil => simp [expectedOutput]
  | cons x xs ih =>
    rw [List.cons_append]
    simp only [expectedOutput]
    rw [ih, List.append_assoc]

theorem pendingOutput_append (m : Mapper) (ws : List Worker) (w : Worker) :
    pendingOutput m (ws ++ [w]) = pendingOutput m ws ++ w.pending m := by
  induction ws with
  | nil => simp [pendingOutput]
  | cons x xs ih =>
    rw [List.cons_append]
    simp only [pendingOutput]
    rw [ih, List.append_assoc]

theorem single_worker (ws : List Worker) (i : Nat) (w : Worker) (hlen : ws.length ≤ 1)
    (h : ws[i]? = some w) : ws = [w] ∧ i = 0 := by
  cases ws with
  | nil => simp at h
  | cons x xs =>
    cases xs with
    | cons y ys => simp at hlen
    | nil =>
      cases i with
      | zero => simp at h; simp [h]
      | succ i => simp at h

theorem step_ordered (m : Mapper) (exec : Cmd → Child) (expected : List Bytes) (a : Action)
    (s s1 : State) (hlen : s.workers.length ≤ 1) (hord : Ordered m exec expected s)
    (h : step m exec a s = some s1) : Ordered m exec expected s1 := by
  simp only [step] at h
  split at h
  · cases h
  simp only [Ordered] at hord ⊢
  cases a with
  | reader =>
    simp only [stepReader] at h
    split at h
    · cases h
    split at h
    · split at h <;>
      · simp only [Option.some.injEq] at h
        subst h
        exact hord
    · simp only [Option.some.injEq] at h
      subst h
      exact hord
    · rename_i r rest hitems
      split at h
      · simp only [Option.some.injEq] at h
        subst h
        exact hord
      · split at h
        · simp only [Option.some.injEq] at h
          subst h
          rw [← hord, hitems]
          simp [linesOf]
        · cases h
  | main =>
    simp only [stepMain, Mapper.Map] at h
    split at h
    · split at h
      · simp only [Option.some.injEq] at h
        subst h
        rw [← hord]
        simp [pendingOutput_append, Worker.pending]
      · simp only [Option.some.injEq] at h
        subst h
        exact hord
    · split at h
      · rename_i out rest hout
        simp only [Option.some.injEq] at h
        subst h
        rw [← hord, hout]
        simp
      · split at h
        · simp only [Option.some.injEq] at h
          subst h
          exact hord
        · cases h
    · cases h
  | closer =>
    simp only [stepCloser] at h
    split at h
    · split at h
      · split at h <;>
        · simp only [Option.some.injEq] at h
          subst h
          exact hord
      · cases h
    · cases h
  | worker i =>
    simp only [Mapper.executeTask] at h
    split at h
    · cases h
    · cases h
    · rename_i hw
      obtain ⟨hws, hi⟩ := single_worker _ i _ hlen hw
      split at h
      · rename_i line rest hin
        split at h
        · simp only [Option.some.injEq] at h
          subst h
          exact hord
        · rename_i process hgen
          split at h
          · simp only [Option.some.injEq] at h
            subst h
            rw [← hord, hws, hin, hi]
            simp [pendingOutput, Worker.pending, expectedOutput, hgen]
          · simp only [Option.some.injEq] at h
            subst h
            exact hord
      · split at h
        · split at h
          · simp only [Option.some.injEq] at h
            subst h
            exact hord
          · simp only [Option.some.injEq] at h
            subst h
            rw [← hord, hws, hi]
            simp [pendingOutput, Worker.pending]
        · cases h
    · rename_i line out rest exitOk hw
      obtain ⟨hws, hi⟩ := single_worker _ i _ hlen hw
      split at h
      · simp only [Option.some.injEq] at h
        subst h
        exact hord
      · split at h
        · simp only [Option.some.injEq] at h
          subst h
          rw [← hord, hws, hi]
          simp [pendingOutput, Worker.pending]
        · cases h
    · rename_i line exitOk hw
      obtain ⟨hws, hi⟩ := single_worker _ i _ hlen hw
      split at h
      · simp only [Option.some.injEq] at h
        subst h
        rw [← hord, hws, hi]
        simp [pendingOutput, Worker.pending]
      · simp only [Option.some.injEq] at h
        subst h
        exact hord

theorem linesOf_map_line (records : List Bytes) :
    linesOf (records.map ReaderItem.line) = records := by
  induction records with
  | nil => rfl
  | cons r rest ih => simp [linesOf, ih]

theorem runSchedule_ordered (m : Mapper) (exec : Cmd → Child) (expected : List Bytes)
    (hw : m.workers = 1) :
    ∀ (schedule : List Action) (s s1 : State), Inv m s → Ordered m exec expected s →
      runSchedule m exec schedule s = some s1 → Ordered m exec expected s1 := by
  intro schedule
  induction schedule with
  | nil =>
    intro s s1 _ hord h
    simp only [runSchedule, Option.some.injEq] at h
    subst h
    exact hord
  | cons a rest ih =>
    intro s s1 hinv hord h
    simp only [runSchedule] at h
    split at h
    · cases h
    · rename_i s2 hstep
      have hlen : s.workers.length ≤ 1 := by
        have := hinv.bound
        rw [hw] at this
        simp at this
        omega
      exact ih s2 s1 (step_inv m exec a s s2 hinv hstep)
        (step_ordered m exec expected a s s2 hlen hord hstep) h

/-- When the lines a child prints are shorter than the scanner's token limit, the
scanner of the worker delivers every one of them, without one trailing carriage return. -/
theorem Child.lines_eq (c : Child)
    (hshort : ∀ line ∈ c.printed, line.length < maxScanTokenSize) :
    c.lines = c.printed.map dropCR := by
  simp only [Child.lines, Child.printed, ScanLines_eq] at *
  have := readLoop_delimSplit (fun b => decide (b = 0x0A)) (fun data => IndexByte data 0x0A)
    (IndexByte_eq_firstIdx 0x0A) dropCR (fun t => t) false (2 * c.stdout.content.length + 3) []
    c.stdout.content false c.stdout.reads (by simp) (by simp) (by simpa using hshort)
  simpa using this

theorem expectedOutput_eq_mapped (m : Mapper) (exec : Cmd → Child) :
    ∀ records : List Bytes,
      (∀ r ∈ records, ∀ p, m.generateCmd r = some p →
        ∀ line ∈ (exec p).printed, line.length < maxScanTokenSize) →
      expectedOutput m exec records = mappedOutput m exec dropCR records := by
  intro records
  induction records with
  | nil => intro _; rfl
  | cons r rest ih =>
    intro h
    simp only [expectedOutput, mappedOutput]
    rw [ih (fun r1 hr1 => h r1 (List.mem_cons_of_mem _ hr1))]
    cases hp : m.generateCmd r with
    | none => rfl
    | some p =>
      simp only
      rw [Child.lines_eq (exec p) (h r (List.mem_cons_self _ _) p hp)]

theorem pieces_single (p : Nat → Bool) (d : Nat) (hd : p d = true) :
    ∀ r : Bytes, (∀ b ∈ r, p b = false) → pieces p (r ++ [d]) = [r] := by
  intro r
  induction r with
  | nil => intro _; simp [pieces, hd]
  | cons b bs ih =>
    intro h
    have hb : p b = false := h b (List.mem_cons_self _ _)
    have := ih (fun x hx => h x (List.mem_cons_of_mem _ hx))
    rw [List.cons_append, pieces_cons, this]
    simp [hb]

theorem dropCR_id (t : Bytes) (h : t.getLast? ≠ some 0x0D) : dropCR t = t := by
  simp only [dropCR]
  rw [if_neg]
  intro hc
  exact h hc.2

theorem mappedOutput_echo (m : Mapper) (exec : Cmd → Child) (he : m.echoInput = false) :
    ∀ records : List Bytes,
      (∀ r ∈ records, 0x0A ∉ r ∧ r.getLast? ≠ some 0x0D ∧
        ∃ p, m.generateCmd r = some p ∧ (exec p).stdout.content = r ++ [0x0A]) →
      mappedOutput m exec dropCR records = records := by
  intro records
  induction records with
  | nil => intro _; rfl
  | cons r rest ih =>
    intro h
    obtain ⟨hnl, hcr, p, hp, hout⟩ := h r (List.mem_cons_self _ _)
    have hpieces : (exec p).printed = [r] := by
      simp only [Child.printed, hout]
      apply pieces_single _ _ (by simp)
      intro b hb
      simp only [decide_eq_false_iff_not]
      intro hb0
      exact hnl (hb0 ▸ hb)
    simp only [mappedOutput, hp, hpieces, List.map_cons, List.map_nil, Mapper.echoLine, he,
      dropCR_id r hcr]
    rw [ih (fun r1 hr1 => h r1 (List.mem_cons_of_mem _ hr1))]
    simp

/-- C6 (amended). Order preservation with one worker: when the children print lines
shorter than the scanner's token limit, in every state of a run with `workers = 1` the
lines printed are an initial part of the concatenation, in record order, of the output
lines of the children, each without one trailing carriage return if it has one and each
as the worker prefixes it, and when `Run` returns they are all of it; a run that has not
ended can always take a step, and no run takes more steps than `State.cost` allows, so
every run that is not aborted ends with `Run` returning.  For a command that prints its
record as one line, with echo off and records that hold no newline and do not end in a
carriage return, that concatenation is the list of records. -/
theorem single_worker_order (m : Mapper) (exec : Cmd → Child) (records : List Bytes)
    (s : State) (hw : m.workers = 1)
    (hshort : ∀ r ∈ records, ∀ p, m.generateCmd r = some p →
      ∀ line ∈ (exec p).printed, line.length < maxScanTokenSize)
    (h : Reachable m exec (State.init (records.map ReaderItem.line)) s) :
    (∃ rest, s.sink ++ rest = mappedOutput m exec dropCR records) ∧
      (s.main = Phase.returned → s.sink = mappedOutput m exec dropCR records) ∧
      (s.status = Status.running → s.main ≠ Phase.returned →
        ∃ a s1, step m exec a s = some s1) ∧
      (∀ schedule s1, runSchedule m exec schedule s = some s1 →
        schedule.length ≤ s.cost m exec) ∧
      (∀ t, dropCR t = t ∨ dropCR t ++ [0x0D] = t) ∧
      (m.echoInput = false →
        (∀ r ∈ records, 0x0A ∉ r ∧ r.getLast? ≠ some 0x0D ∧
          ∃ p, m.generateCmd r = some p ∧ (exec p).stdout.content = r ++ [0x0A]) →
        mappedOutput m exec dropCR records = records) := by
  have hinv := reachable_inv m exec _ s h
  obtain ⟨schedule, hs⟩ := h
  have hexp := expectedOutput_eq_mapped m exec records hshort
  have hord : Ordered m exec (expectedOutput m exec records) s := by
    apply runSchedule_ordered m exec _ hw schedule _ s (init_inv m _) _ hs
    simp [Ordered, State.init, pendingOutput, linesOf_map_line]
  rw [hexp] at hord
  refine ⟨?_, ?_, progress m exec s hinv, ?_, dropCR_spec,
    fun he => mappedOutput_echo m exec he records⟩
  · exact ⟨_, by simpa [Ordered, List.append_assoc] using hord⟩
  · intro hret
    obtain ⟨hcl, hout⟩ := hinv.returned hret
    have hwg := hinv.quiet (hinv.closer.1 hcl)
    rw [hinv.wg] at hwg
    have hdone := activeCount_zero _ hwg
    have hmapped := hinv.mapped (by intro w hw1; rw [hret] at hw1; cases hw1)
    have hne : s.workers ≠ [] := by
      intro hnil
      have := hmapped.2
      rw [hnil, hw] at this
      simp at this
    obtain ⟨w, hwmem⟩ := List.exists_mem_of_ne_nil _ hne
    have hw0 := hdone w hwmem
    subst hw0
    obtain ⟨hic, hin⟩ := hinv.drained hwmem
    have hitems := hinv.items hic
    have hpend : pendingOutput m s.workers = [] := by
      have : ∀ ws : List Worker, (∀ w ∈ ws, w = Worker.done) → pendingOutput m ws = [] := by
        intro ws
        induction ws with
        | nil => intro _; rfl
        | cons x xs ih =>
          intro hall
          have hx := hall x (List.mem_cons_self _ _)
          subst hx
          simp [pendingOutput, Worker.pending, ih (fun w hw => hall w (List.mem_cons_of_mem _ hw))]
      exact this _ hdone
    simp only [Ordered, hout, hpend, hin, hitems, linesOf, expectedOutput, List.append_nil] at hord
    exact hord
  · intro schedule1 s1 hs1
    have := runSchedule_cost m exec schedule1 s s1 hs1
    omega

theorem step_frame (m : Mapper) (exec : Cmd → Child) (a : Action) (s s1 : State)
    (h : step m exec a s = some s1) :
    (a ≠ Action.closer → s1.closes = s.closes) ∧
      (s.outClosed = true → s1.pushed = s.pushed) := by
  simp only [step] at h
  split at h
  · cases h
  cases a with
  | reader =>
    simp only [stepReader] at h
    split at h
    · cases h
    split at h
    · split at h <;>
      · simp only [Option.some.injEq] at h
        subst h
        exact ⟨fun _ => rfl, fun _ => rfl⟩
    · simp only [Option.some.injEq] at h
      subst h
      exact ⟨fun _ => rfl, fun _ => rfl⟩
    · split at h
      · simp only [Option.some.injEq] at h
        subst h
        exact ⟨fun _ => rfl, fun _ => rfl⟩
      · split at h
        · simp only [Option.some.injEq] at h
          subst h
          exact ⟨fun _ => rfl, fun _ => rfl⟩
        · cases h
  | main =>
    simp only [stepMain, Mapper.Map] at h
    split at h
    · split at h <;>
      · simp only [Option.some.injEq] at h
        subst h
        exact ⟨fun _ => rfl, fun _ => rfl⟩
    · split at h
      · simp only [Option.some.injEq] at h
        subst h
        exact ⟨fun _ => rfl, fun _ => rfl⟩
      · split at h
        · simp only [Option.some.injEq] at h
          subst h
          exact ⟨fun _ => rfl, fun _ => rfl⟩
        · cases h
    · cases h
  | closer =>
    simp only [stepCloser] at h
    split at h
    · split at h
      · split at h <;>
        · simp only [Option.some.injEq] at h
          subst h
          exact ⟨fun hc => absurd rfl hc, fun _ => rfl⟩
      · cases h
    · cases h
  | worker i =>
    simp only [Mapper.executeTask] at h
    split at h
    · cases h
    · cases h
    · split at h
      · split at h
        · simp only [Option.some.injEq] at h
          subst h
          exact ⟨fun _ => rfl, fun _ => rfl⟩
        · split at h <;>
          · simp only [Option.some.injEq] at h
            subst h
            exact ⟨fun _ => rfl, fun _ => rfl⟩
      · split at h
        · split at h <;>
          · simp only [Option.some.injEq] at h
            subst h
            exact ⟨fun _ => rfl, fun _ => rfl⟩
        · cases h
    · split at h
      · simp only [Option.some.injEq] at h
        subst h
        exact ⟨fun _ => rfl, fun _ => rfl⟩
      · rename_i hopen
        split at h
        · simp only [Option.some.injEq] at h
          subst h
          exact ⟨fun _ => rfl, fun hc => absurd hc hopen⟩
        · cases h
    · split at h <;>
      · simp only [Option.some.injEq] at h
        subst h
        exact ⟨fun _ => rfl, fun _ => rfl⟩

/-- C8. Close discipline of the output channel: in every state of every run, with any
number of workers, `close(outputChannel)` has been executed at most once, and exactly
once when `Run` returns; only the closer goroutine executes it; when the channel is
closed every worker `Map` starts has been started and has finished (a finished worker
has seen the input channel closed and empty); no string is sent after the close; the
run never panics by a send on a closed channel, a second close or a negative counter;
everything sent is printed or still queued, and when `Run` returns everything sent has
been printed; a run that has not ended can always take a step, and no run takes more
steps than `State.cost` allows, so every run that is not aborted ends with `Run`
returning after exactly one close. -/
theorem output_close_discipline (m : Mapper) (exec : Cmd → Child) (items : List ReaderItem)
    (s : State) (h : Reachable m exec (State.init items) s) :
    s.closes ≤ 1 ∧ (s.outClosed = true ↔ s.closes = 1) ∧
      (s.main = Phase.returned → s.closes = 1) ∧
      (∀ a s1, step m exec a s = some s1 → s1.closes ≠ s.closes → a = Action.closer) ∧
      (s.outClosed = true →
        (s.workers.length : Int) = max m.workers 0 ∧ ∀ w ∈ s.workers, w = Worker.done) ∧
      (Worker.done ∈ s.workers → s.inClosed = true ∧ s.inChan = []) ∧
      (s.outClosed = true → ∀ a s1, step m exec a s = some s1 → s1.pushed = s.pushed) ∧
      (∀ why, s.status = Status.panicked why → why = Panic.generateCmd) ∧
      s.sink ++ s.outChan = s.pushed ∧
      (s.main = Phase.returned → s.sink = s.pushed) ∧
      (s.status = Status.running → s.main ≠ Phase.returned →
        ∃ a s1, step m exec a s = some s1) ∧
      (∀ schedule s1, runSchedule m exec schedule s = some s1 →
        schedule.length ≤ s.cost m exec) := by
  have hinv := reachable_inv m exec items s h
  have hc := hinv.closes
  have hclosed : s.outClosed = true →
      (s.workers.length : Int) = max m.workers 0 ∧ ∀ w ∈ s.workers, w = Worker.done := by
    intro hcl
    have hd := hinv.closer.1 hcl
    have hwg := hinv.quiet hd
    rw [hinv.wg] at hwg
    refine ⟨?_, activeCount_zero _ hwg⟩
    have hmapped := hinv.mapped (by
      intro w hw
      have := (hinv.spawning w hw).2
      rw [hd] at this
      cases this)
    have hb := hinv.bound
    have := hmapped.2
    rcases le_total m.workers 0 with hle | hle
    · rw [max_eq_right hle] at hb ⊢
      omega
    · rw [max_eq_left hle] at hb ⊢
      omega
  refine ⟨?_, ?_, ?_, ?_, hclosed, hinv.drained, ?_, hinv.panic, hinv.pushed, ?_,
    progress m exec s hinv, ?_⟩
  · rw [hc]; split <;> omega
  · rw [hc]
    constructor
    · intro hcl; simp [hcl]
    · intro h1
      by_contra hcl
      simp [hcl] at h1
  · intro hret
    rw [hc, (hinv.returned hret).1]
    rfl
  · intro a s1 hstep hne
    by_contra ha
    exact hne ((step_frame m exec a s s1 hstep).1 ha)
  · intro hcl a s1 hstep
    exact (step_frame m exec a s s1 hstep).2 hcl
  · intro hret
    have := hinv.pushed
    rw [(hinv.returned hret).2] at this
    simpa using this
  · intro schedule1 s1 hs1
    have := runSchedule_cost m exec schedule1 s s1 hs1
    omega

/-- C4. Echo prefixing: when a worker that streams the output of the child of `line`
takes its next step with room in the open output channel, the string it appends to the
channel is `line ++ outputDelimiter ++ out` with echo enabled and `out` with echo
disabled, and nothing else in the channel or the sink changes. -/
theorem executeTask_echo (m : Mapper) (exec : Cmd → Child) (s : State) (i : Nat)
    (line out : Bytes) (rest : List Bytes) (exitOk : Bool)
    (hrun : s.status = Status.running) (hmain : s.main ≠ Phase.returned)
    (hw : s.workers[i]? = some (Worker.running line (out :: rest) exitOk))
    (hopen : s.outClosed = false) (hroom : s.outChan.length < chanCap) :
    ∃ s1, step m exec (Action.worker i) s = some s1 ∧
      s1.outChan = s.outChan ++ [if m.echoInput then line ++ m.outputDelimiter ++ out else out] ∧
      s1.sink = s.sink ∧
      s1.workers[i]? = some (Worker.running line rest exitOk) := by
  refine ⟨{ s with outChan := s.outChan ++ [m.echoLine line out],
                   pushed := s.pushed ++ [m.echoLine line out],
                   workers := s.workers.set i (Worker.running line rest exitOk) },
    ?_, rfl, rfl, ?_⟩
  · simp [step, hrun, hmain, Mapper.executeTask, hw, hopen, hroom]
  · have hi : i < s.workers.length := by
      rcases List.getElem?_eq_some.1 hw with ⟨hi, _⟩
      exact hi
    simp [List.getElem?_set, hi]

/-- C6 (amended) at one worker, the command `echo $1` and the records `a`, `b`: a whole
run, which prints `a` and then `b`. -/
theorem single_worker_order_witness :
    ∃ s, runSchedule (echoMapper 1) echoFirst scheduleOne
        (State.init ([ascii "a", ascii "b"].map ReaderItem.line)) = some s ∧
      s.main = Phase.returned ∧ s.sink = [ascii "a", ascii "b"] :=
  ⟨_, rfl, rfl,
    ((single_worker_order (echoMapper 1) echoFirst [ascii "a", ascii "b"] _ rfl
      (fun r hr p hp =>
        (by decide : ∀ r ∈ [ascii "a", ascii "b"],
          ∀ p ∈ ((echoMapper 1).generateCmd r).toList,
          ∀ line ∈ (echoFirst p).printed, line.length < maxScanTokenSize)
          r hr p (by rw [hp]; exact List.mem_singleton.2 rfl))
      ⟨scheduleOne, rfl⟩).2.1 rfl).trans (by decide)⟩

/-- C6 as stated fails: with one worker, the field delimiter `:` and the command
`echo $1`, the child of the record `a\r` prints the record as one line, the bytes
`a\r\n`; the scanner of the worker drops the carriage return, so the run prints `a`,
which is neither the output line of the child nor the record. -/
theorem single_worker_drops_carriage_return :
    (echoFirst (execCommand (ascii "/bin/bash")
        [ascii "-c", ascii "echo $1", ascii "", ascii "a\r"])).stdout.content =
        ascii "a\r\n" ∧
      mappedOutput colonMapper echoFirst (fun t => t) [ascii "a\r"] = [ascii "a\r"] ∧
      ∃ s, runSchedule colonMapper echoFirst scheduleSingle
          (State.init ([ascii "a\r"].map ReaderItem.line)) = some s ∧
        s.main = Phase.returned ∧ s.sink = [ascii "a"] ∧
        s.sink ≠ mappedOutput colonMapper echoFirst (fun t => t) [ascii "a\r"] ∧
        s.sink ≠ [ascii "a\r"] :=
  ⟨by decide, by decide, _, rfl, rfl, by decide, by decide, by decide⟩

/-- C8 at two workers and the records `a`, `b`: a whole run in which the second record
is printed first; the output channel is closed once. -/
theorem output_close_discipline_witness :
    ∃ s, runSchedule (echoMapper 2) echoFirst scheduleTwo
        (State.init [ReaderItem.line (ascii "a"), ReaderItem.line (ascii "b")]) = some s ∧
      s.main = Phase.returned ∧ s.closes = 1 ∧ s.sink = [ascii "b", ascii "a"] :=
  ⟨_, rfl, rfl,
    (output_close_discipline (echoMapper 2) echoFirst
      [ReaderItem.line (ascii "a"), ReaderItem.line (ascii "b")] _
      ⟨scheduleTwo, rfl⟩).2.2.1 rfl, by decide⟩

/-- C4 at the record `hello`, the separator `|` and the output line `world`. -/
theorem executeTask_echo_witness :
    ∃ s1, step { echoMapper 1 with echoInput := true, outputDelimiter := ascii "|" } echoFirst
        (Action.worker 0) echoState = some s1 ∧ s1.outChan = [ascii "hello|world"] := by
  obtain ⟨s1, h1, h2, _⟩ := executeTask_echo
    { echoMapper 1 with echoInput := true, outputDelimiter := ascii "|" } echoFirst echoState 0
    (ascii "hello") (ascii "world") [] true rfl (by decide) rfl rfl (by decide)
  exact ⟨s1, h1, h2.trans (by decide)⟩

theorem any_empty (args : List Bytes) :
    args.any (fun arg => arg.length == 0) = true ↔ ∃ arg ∈ args, arg = [] := by
  simp [List.any_eq_true, List.length_eq_zero]

/-- C5 (amended). Usage validation: `Run` returns the error "No function given!" for an
empty argument list, "No empty string allowed as VAR or COMMAND" when some argument is
empty, and "No stdin and no files given." when no input file is given and `Stat` reports
standard input as a character device; in each case it has by then at most looked at
standard input (no channel, no reader, no worker).  When none of the three faults holds,
`Run` returns no usage error.  A terminal is a character device, so where `Stat` reports
it as one the faults the specification names are among these faults. -/
theorem Run_usage_errors (w : World) (flags : MapFlags) (args : List Bytes) :
    (args = [] → Run w flags args = ([], RunResult.error RunError.noFunction)) ∧
      (args ≠ [] → (∃ arg ∈ args, arg = []) →
        Run w flags args = ([], RunResult.error RunError.emptyArgument)) ∧
      (args ≠ [] → (∀ arg ∈ args, arg ≠ []) → flags.InputFiles = [] →
        ∀ mode, w.stdinStat = Except.ok mode → mode &&& ModeCharDevice ≠ 0 →
        Run w flags args = ([Effect.statStdin], RunResult.error RunError.noInput)) ∧
      (UsageFault w flags args →
        ∃ e, (Run w flags args).2 = RunResult.error e ∧ e.isUsage = true ∧
          ∀ eff ∈ (Run w flags args).1, eff = Effect.statStdin) ∧
      (¬ UsageFault w flags args →
        ∀ e, (Run w flags args).2 = RunResult.error e → e.isUsage = false) ∧
      ((w.stdinTerminal = true →
          ∃ mode, w.stdinStat = Except.ok mode ∧ mode &&& ModeCharDevice ≠ 0) →
        TerminalFault w flags args → UsageFault w flags args) := by
  have hA : args = [] → Run w flags args = ([], RunResult.error RunError.noFunction) := by
    intro h
    simp [Run, h]
  have hB : args ≠ [] → (∃ arg ∈ args, arg = []) →
      Run w flags args = ([], RunResult.error RunError.emptyArgument) := by
    intro hne he
    have hlen : ¬ args.length < 1 := by
      have := List.length_pos.2 hne
      omega
    have := (any_empty args).2 he
    simp only [Run, hlen, if_false, this, if_true]
  have hC : args ≠ [] → (∀ arg ∈ args, arg ≠ []) → flags.InputFiles = [] →
      ∀ mode, w.stdinStat = Except.ok mode → mode &&& ModeCharDevice ≠ 0 →
      Run w flags args = ([Effect.statStdin], RunResult.error RunError.noInput) := by
    intro hne hall hfiles mode hstat hmode
    have hlen : ¬ args.length < 1 := by
      have := List.length_pos.2 hne
      omega
    have hany : ¬ args.any (fun arg => arg.length == 0) = true := by
      rw [any_empty]
      rintro ⟨arg, hmem, harg⟩
      exact hall arg hmem harg
    simp only [ne_eq] at hmode
    simp [Run, hlen, hany, hfiles, checkStdin, hstat, hmode]
  refine ⟨hA, hB, hC, ?_, ?_, ?_⟩
  rotate_left 2
  · intro hterm hfault
    rcases hfault with h | h | ⟨hfiles, ht⟩
    · exact Or.inl h
    · exact Or.inr (Or.inl h)
    · exact Or.inr (Or.inr ⟨hfiles, hterm ht⟩)
  · intro hfault
    by_cases hne : args = []
    · rw [hA hne]
      exact ⟨_, rfl, rfl, by simp⟩
    by_cases he : ∃ arg ∈ args, arg = []
    · rw [hB hne he]
      exact ⟨_, rfl, rfl, by simp⟩
    rcases hfault with h | h | ⟨hfiles, mode, hstat, hmode⟩
    · exact absurd h hne
    · exact absurd h he
    · rw [hC hne (fun arg hmem harg => he ⟨arg, hmem, harg⟩) hfiles mode hstat hmode]
      exact ⟨_, rfl, rfl, by simp⟩
  · intro hno e he
    have hne : args ≠ [] := fun h => hno (Or.inl h)
    have hnone : ¬ ∃ arg ∈ args, arg = [] := fun h => hno (Or.inr (Or.inl h))
    have hlen : ¬ args.length < 1 := by
      have := List.length_pos.2 hne
      omega
    have hany : ¬ args.any (fun arg => arg.length == 0) = true := by
      rw [any_empty]
      exact hnone
    have hany2 : args.any (fun arg => arg.length == 0) = false := by
      cases hb : args.any (fun arg => arg.length == 0)
      · rfl
      · exact absurd hb hany
    by_cases hfiles : flags.InputFiles.length = 0
    · cases hstat : w.stdinStat with
      | error err =>
        simp only [Run, hlen, if_false, hany2, hfiles, if_true, checkStdin, hstat,
          Bool.false_eq_true] at he
        simp only [RunResult.error.injEq] at he
        subst he
        rfl
      | ok mode =>
        by_cases hmode : mode &&& ModeCharDevice ≠ 0
        · exfalso
          apply hno
          exact Or.inr (Or.inr ⟨List.length_eq_zero.1 hfiles, mode, hstat, hmode⟩)
        · cases hfs : fieldSplitterOf w flags <;>
          · simp only [Run, hlen, if_false, hany2, hfiles, if_true, checkStdin, hstat, hmode,
              Bool.false_eq_true, hfs] at he
            cases he
    · cases hfs : fieldSplitterOf w flags <;>
      · simp only [Run, hlen, if_false, hany2, hfiles, Bool.false_eq_true, hfs] at he
        cases he

/-- C5 as stated fails: in `map cat < /dev/null` no input file is given and standard
input is not an interactive terminal, the argument list is not empty and no argument is
empty, so none of the faults the specification names holds; yet `Stat` reports a
character device and `Run` returns the usage error "No stdin and no files given."
without starting anything. -/
theorem Run_refuses_dev_null :
    devNullWorld.stdinTerminal = false ∧
      devNullWorld.stdinStat = Except.ok 69206454 ∧
      ¬ TerminalFault devNullWorld defaultFlags [ascii "cat"] ∧
      Run devNullWorld defaultFlags [ascii "cat"] =
        ([Effect.statStdin], RunResult.error RunError.noInput) ∧
      RunError.noInput.isUsage = true ∧
      RunError.noInput.message = ascii "No stdin and no files given." := by
  refine ⟨rfl, rfl, ?_, rfl, rfl, rfl⟩
  simp [TerminalFault, defaultFlags, devNullWorld, ascii]

/-- C7 (amended). Default record delimiter: with `LineDelimiter` left at the newline and
trimming disabled, for every input whose lines are shorter than the scanner's token
limit and for every way the input arrives in reads, the records are the byte sequences
between consecutive newlines (with trailing undelimited data as the last record), each
without one trailing carriage return if it has one; nothing else is removed. -/
theorem default_delimiter_records (flags : MapFlags) (f : File) (trimSpace : Bytes → Bytes)
    (hd : flags.LineDelimiter = ascii "\n") (hs : flags.NoTrimWhitespace = true)
    (hlen : ∀ piece ∈ pieces (fun b => decide (b = 0x0A)) f.content,
      piece.length < maxScanTokenSize) :
    ReadAllLines f (lineSplitterOf flags) trimSpace (!flags.NoTrimWhitespace) =
        (pieces (fun b => decide (b = 0x0A)) f.content).map dropCR ∧
      ∀ t, dropCR t = t ∨ dropCR t ++ [0x0D] = t := by
  refine ⟨?_, dropCR_spec⟩
  have hsplit : lineSplitterOf flags = delimSplit (fun data => IndexByte data 0x0A) dropCR := by
    simp only [lineSplitterOf, hd, ne_eq, not_true_eq_false, if_false]
    exact ScanLines_eq
  rw [hsplit, hs]
  simp only [ReadAllLines, Bool.not_true]
  have := readLoop_delimSplit (fun b => decide (b = 0x0A)) (fun data => IndexByte data 0x0A)
    (IndexByte_eq_firstIdx 0x0A) dropCR trimSpace false (2 * f.content.length + 3) []
    f.content false f.reads (by simp) (by simp) (by simpa using hlen)
  simpa using this

/-- C7 (amended) at the input `x y\r\n\nz\r`, read in pieces of 2, 1 and 3 bytes. -/
theorem default_delimiter_records_witness :
    ReadAllLines { content := ascii "x y\r\n\nz\r", reads := [2, 1, 3] }
        (lineSplitterOf { defaultFlags with NoTrimWhitespace := true }) id false =
      [ascii "x y", ascii "", ascii "z"] :=
  (default_delimiter_records { defaultFlags with NoTrimWhitespace := true }
    { content := ascii "x y\r\n\nz\r", reads := [2, 1, 3] } id rfl rfl (by decide)).1.trans
    (by decide)

/-- C7 as stated fails: with the default delimiter and trimming disabled the input
`a\r\nb` gives the records `a` and `b`, not the byte sequences `a\r` and `b` that lie
between the newlines. -/
theorem default_delimiter_drops_carriage_return :
    ReadAllLines { content := ascii "a\r\nb", reads := [] }
        (lineSplitterOf { defaultFlags with NoTrimWhitespace := true }) id false =
        [ascii "a", ascii "b"] ∧
      pieces (fun b => decide (b = 0x0A)) (ascii "a\r\nb") = [ascii "a\r", ascii "b"] ∧
      ReadAllLines { content := ascii "a\r\nb", reads := [] }
        (lineSplitterOf { defaultFlags with NoTrimWhitespace := true }) id false ≠
        pieces (fun b => decide (b = 0x0A)) (ascii "a\r\nb") := by
  decide

/-- C3 at a delimiter of two bytes: with the record delimiter `é` (bytes C3 A9) the input
`aéb` gives the records `a` and the bytes A9 62: the splitter advances one byte past
the start of the delimiter, so its second byte begins the next record. -/
theorem customLineSplitter_multibyte_delimiter :
    runes [0xC3, 0xA9] = [0xE9] ∧
      runes [0x61, 0xC3, 0xA9, 0x62] = [0x61, 0xE9, 0x62] ∧
      ReadAllLines { content := [0x61, 0xC3, 0xA9, 0x62], reads := [] }
        (lineSplitterOf { defaultFlags with LineDelimiter := [0xC3, 0xA9] }) id false =
        [[0x61], [0xA9, 0x62]] := by
  decide

/-- C9 at a delimiter of two characters: for the field delimiter `ab` the program compiles
`ab+`, which splits `xababy` into `x`, the empty field and `y`, while `(ab)+` splits it
into `x` and `y`; for a delimiter that ends in a repetition operator, such as `x*`, the
expression does not compile. -/
theorem fieldSplitter_multichar_delimiter :
    (fieldSplitterOf sampleWorld { defaultFlags with FieldDelimiter := ascii "ab" }).map
        (fun re => re.Split (ascii "xababy") (-1)) = some [ascii "x", ascii "", ascii "y"] ∧
      (regexpCompile (ascii "(ab)+")).map (fun re => re.Split (ascii "xababy") (-1)) =
        some [ascii "x", ascii "y"] ∧
      (fieldSplitterOf sampleWorld { defaultFlags with FieldDelimiter := ascii "x*" }).isSome
        = false := by
  decide

theorem decodeRune_ascii (b : Nat) (bs : Bytes) (h : b < 0x80) :
    decodeRune (b :: bs) = (b, 1) := by
  simp [decodeRune, h]

theorem decodeRune_high (b : Nat) (bs : Bytes) (h : ¬ b < 0x80) :
    0x80 ≤ (decodeRune (b :: bs)).1 ∧ 1 ≤ (decodeRune (b :: bs)).2 ∧
      (decodeRune (b :: bs)).2 ≤ (b :: bs).length ∧
      ∀ x ∈ (b :: bs).take (decodeRune (b :: bs)).2, 0x80 ≤ x := by
  have hb : 0x80 ≤ b := by omega
  rcases bs with _ | ⟨b1, _ | ⟨b2, _ | ⟨b3, rest⟩⟩⟩ <;>
    simp only [decodeRune, h, if_false] <;>
    split_ifs <;>
    refine ⟨?_, ?_, ?_, ?_⟩ <;>
    simp [RuneError] <;>
    omega

theorem runesAux_ascii : ∀ (fuel : Nat) (d : Bytes), d.length ≤ fuel → (∀ b ∈ d, b < 0x80) →
    runesAux fuel d = d := by
  intro fuel
  induction fuel with
  | zero =>
    intro d hd _
    have : d = [] := List.length_eq_zero.1 (by omega)
    subst this
    rfl
  | succ fuel ih =>
    intro d hd hall
    cases d with
    | nil => rfl
    | cons b bs =>
      have hb := hall b (List.mem_cons_self _ _)
      simp only [runesAux, decodeRune_ascii b bs hb, List.drop_succ_cons, List.drop_zero]
      rw [ih bs (by simpa using hd) (fun x hx => hall x (List.mem_cons_of_mem _ hx))]

theorem firstIdx_skip (p : Nat → Bool) :
    ∀ (w : Nat) (data : Bytes), w ≤ data.length → (∀ x ∈ data.take w, p x = false) →
      firstIdx p data = (firstIdx p (data.drop w)).map (· + w) := by
  intro w
  induction w with
  | zero => intro data _ _; simp
  | succ w ih =>
    intro data hw hall
    cases data with
    | nil => simp at hw
    | cons b bs =>
      have hb : p b = false := hall b (by simp)
      have := ih bs (by simpa using hw) (fun x hx => hall x (by simp [hx]))
      simp only [firstIdx, hb, Bool.false_eq_true, if_false, List.drop_succ_cons, this,
        Option.map_map]
      congr 1

theorem indexAnyAux_ascii (chars : List Nat) (hchars : ∀ c ∈ chars, c < 0x80) :
    ∀ (fuel : Nat) (data : Bytes) (i : Nat), data.length ≤ fuel →
      indexAnyAux chars fuel data i =
        (firstIdx (fun b => decide (b ∈ chars)) data).map (· + i) := by
  intro fuel
  induction fuel with
  | zero =>
    intro data i hd
    have : data = [] := List.length_eq_zero.1 (by omega)
    subst this
    rfl
  | succ fuel ih =>
    intro data i hd
    cases data with
    | nil => rfl
    | cons b bs =>
      by_cases hb : b < 0x80
      · simp only [indexAnyAux, decodeRune_ascii b bs hb, List.drop_succ_cons, List.drop_zero,
          firstIdx, decide_eq_true_eq]
        by_cases hmem : b ∈ chars
        · simp [hmem]
        · simp only [hmem, if_false]
          rw [ih bs (i + 1) (by simpa using hd), Option.map_map]
          congr 1
          funext x
          simp only [Function.comp]
          omega
      · obtain ⟨hr, hw1, hw2, hall⟩ := decodeRune_high b bs hb
        have hnot : (decodeRune (b :: bs)).1 ∉ chars := by
          intro hmem
          have := hchars _ hmem
          omega
        simp only [indexAnyAux, hnot, if_false]
        rw [ih _ _ (by simp only [List.length_drop, List.length_cons] at hd ⊢; omega)]
        rw [firstIdx_skip _ (decodeRune (b :: bs)).2 (b :: bs) hw2
          (by
            intro x hx
            have := hall x hx
            simp only [decide_eq_false_iff_not]
            intro hmem
            have := hchars _ hmem
            omega)]
        rw [Option.map_map]
        congr 1
        funext x
        simp only [Function.comp]
        omega

theorem IndexAny_ascii (chars : Bytes) (hchars : ∀ c ∈ chars, c < 0x80) (data : Bytes) :
    IndexAny data chars = firstIdx (fun b => decide (b ∈ chars)) data := by
  simp only [IndexAny, runes]
  rw [runesAux_ascii _ _ (le_refl _) hchars, indexAnyAux_ascii chars hchars _ _ _ (le_refl _)]
  simp

theorem pieces_no_delimiter (p : Nat → Bool) :
    ∀ data : Bytes, ∀ piece ∈ pieces p data, ∀ b ∈ piece, p b = false := by
  intro data
  induction data with
  | nil => intro piece h; cases h
  | cons x xs ih =>
    intro piece h b hb
    rw [pieces_cons] at h
    by_cases hp : p x = true
    · simp only [hp, if_true] at h
      rcases List.mem_cons.1 h with rfl | h
      · cases hb
      · exact ih piece h b hb
    · have hpf : p x = false := by simpa using hp
      simp only [hpf, Bool.false_eq_true, if_false] at h
      cases hpr : pieces p xs with
      | nil =>
        rw [hpr] at h
        simp only [List.mem_singleton] at h
        subst h
        simp only [List.mem_singleton] at hb
        subst hb
        exact hpf
      | cons q more =>
        rw [hpr] at h ih
        rcases List.mem_cons.1 h with rfl | h
        · rcases List.mem_cons.1 hb with rfl | hb
          · simpa using hp
          · exact ih q (List.mem_cons_self _ _) b hb
        · exact ih piece (List.mem_cons_of_mem _ h) b hb

/-- Custom record delimiter of ASCII characters: for every input whose records are
shorter than the scanner's token limit and every way the input arrives in reads, the
records are the pieces of the input cut at (and without) every byte of the delimiter
string, each trimmed when trimming is enabled; without trimming no record contains a
byte of the delimiter string. -/
theorem custom_delimiter_ascii (flags : MapFlags) (f : File) (trimSpace : Bytes → Bytes)
    (hd : flags.LineDelimiter ≠ ascii "\n")
    (hascii : ∀ c ∈ flags.LineDelimiter, c < 0x80)
    (hlen : ∀ piece ∈ pieces (fun b => decide (b ∈ flags.LineDelimiter)) f.content,
      piece.length < maxScanTokenSize) :
    ReadAllLines f (lineSplitterOf flags) trimSpace (!flags.NoTrimWhitespace) =
        (pieces (fun b => decide (b ∈ flags.LineDelimiter)) f.content).map
          (fun t => if (!flags.NoTrimWhitespace) = true then trimSpace t else t) ∧
      (flags.NoTrimWhitespace = true →
        ∀ r ∈ ReadAllLines f (lineSplitterOf flags) trimSpace (!flags.NoTrimWhitespace),
          ∀ b ∈ r, b ∉ flags.LineDelimiter) := by
  have hsplit : lineSplitterOf flags =
      delimSplit (fun data => IndexAny data flags.LineDelimiter) id := by
    simp only [lineSplitterOf, hd, ne_eq, not_false_eq_true, if_true]
    exact customLineSplitter_eq _
  have key : ReadAllLines f (lineSplitterOf flags) trimSpace (!flags.NoTrimWhitespace) =
      (pieces (fun b => decide (b ∈ flags.LineDelimiter)) f.content).map
        (fun t => if (!flags.NoTrimWhitespace) = true then trimSpace t else t) := by
    rw [hsplit]
    simp only [ReadAllLines]
    have := readLoop_delimSplit (fun b => decide (b ∈ flags.LineDelimiter))
      (fun data => IndexAny data flags.LineDelimiter)
      (IndexAny_ascii flags.LineDelimiter hascii) id trimSpace (!flags.NoTrimWhitespace)
      (2 * f.content.length + 3) [] f.content false f.reads (by simp) (by simp)
      (by simpa using hlen)
    simpa using this
  refine ⟨key, ?_⟩
  intro hs r hr b hb
  rw [key, hs] at hr
  simp only [Bool.not_true, Bool.false_eq_true, if_false, List.map_id'] at hr
  have := pieces_no_delimiter _ _ r hr b hb
  simpa using this

/-- The delimiter string `;:` and the input `a;b:c` give the records `a`, `b`, `c`. -/
theorem custom_delimiter_ascii_witness :
    ReadAllLines { content := ascii "a;b:c", reads := [1, 2] }
        (lineSplitterOf { defaultFlags with LineDelimiter := ascii ";:" }) trimSpaceAscii
        true =
      [ascii "a", ascii "b", ascii "c"] :=
  (custom_delimiter_ascii { defaultFlags with LineDelimiter := ascii ";:" }
    { content := ascii "a;b:c", reads := [1, 2] } trimSpaceAscii (by decide) (by decide)
    (by decide)).1.trans (by decide)

/-- Trimming follows splitting: with the default delimiter, for every input whose
lines are shorter than the scanner's token limit, each record is the line between two
newlines without its trailing carriage return, passed through `strings.TrimSpace` when
trimming is enabled; the search for the newline does not depend on trimming. -/
theorem trimming_after_splitting (flags : MapFlags) (f : File) (trimSpace : Bytes → Bytes)
    (hd : flags.LineDelimiter = ascii "\n")
    (hlen : ∀ piece ∈ pieces (fun b => decide (b = 0x0A)) f.content,
      piece.length < maxScanTokenSize) :
    ReadAllLines f (lineSplitterOf flags) trimSpace (!flags.NoTrimWhitespace) =
      (pieces (fun b => decide (b = 0x0A)) f.content).map
        (fun t => if (!flags.NoTrimWhitespace) = true then trimSpace (dropCR t)
          else dropCR t) := by
  have hsplit : lineSplitterOf flags = delimSplit (fun data => IndexByte data 0x0A) dropCR := by
    simp only [lineSplitterOf, hd, ne_eq, not_true_eq_false, if_false]
    exact ScanLines_eq
  rw [hsplit]
  simp only [ReadAllLines]
  have := readLoop_delimSplit (fun b => decide (b = 0x0A)) (fun data => IndexByte data 0x0A)
    (IndexByte_eq_firstIdx 0x0A) dropCR trimSpace (!flags.NoTrimWhitespace)
    (2 * f.content.length + 3) [] f.content false f.reads (by simp) (by simp)
    (by simpa using hlen)
  simpa using this

/-- The default flags on the input `  x y \r\n\tz` give the records `x y` and `z`. -/
theorem trimming_after_splitting_witness :
    ReadAllLines { content := ascii "  x y \r\n\tz", reads := [3] }
        (lineSplitterOf defaultFlags) trimSpaceAscii (!defaultFlags.NoTrimWhitespace) =
      [ascii "x y", ascii "z"] :=
  (trimming_after_splitting defaultFlags { content := ascii "  x y \r\n\tz", reads := [3] }
    trimSpaceAscii rfl (by decide)).trans (by decide)

theorem firstIdx_none_of_forall (p : Nat → Bool) :
    ∀ l : Bytes, (∀ x ∈ l, p x = false) → firstIdx p l = none := by
  intro l
  induction l with
  | nil => intro _; rfl
  | cons b bs ih =>
    intro h
    have hb := h b (List.mem_cons_self _ _)
    simp [firstIdx, hb, ih (fun x hx => h x (List.mem_cons_of_mem _ hx))]

theorem mem_take_of_mem_left (buf rest : Bytes) (n : Nat) (hn : buf.length ≤ n) (x : Nat)
    (hx : x ∈ buf) : x ∈ (buf ++ rest).take n := by
  rw [List.take_append_eq_append_take, List.take_of_length_le hn]
  exact List.mem_append_left _ hx

theorem readLoop_tooLong (p : Nat → Bool) (idx : Bytes → Option Nat)
    (hidx : ∀ d, idx d = firstIdx p d) (post trimSpace : Bytes → Bytes) (tw : Bool) :
    ∀ (fuel : Nat) (buf rest : Bytes) (reads : List Nat),
      (∀ x ∈ (buf ++ rest).take maxScanTokenSize, p x = false) →
      maxScanTokenSize ≤ buf.length + rest.length → buf.length ≤ maxScanTokenSize →
      readLoop (delimSplit idx post) trimSpace tw fuel buf rest false reads = [] := by
  intro fuel
  induction fuel with
  | zero => intro buf rest reads _ _ _; rfl
  | succ fuel ih =>
    intro buf rest reads hall hlong hshort
    have hmax : maxScanTokenSize = 65536 := by decide
    by_cases hbuf : buf = []
    · subst hbuf
      have hrest : rest ≠ [] := by
        intro h
        subst h
        simp at hlong
        omega
      simp only [readLoop]
      simp only [ne_eq, not_true_eq_false, Bool.false_eq_true, or_self, if_false, hrest]
      apply ih
      · simpa using hall
      · simp only [List.nil_append, List.length_take, List.length_drop]
        simp only [List.nil_append, List.length_nil] at hlong
        omega
      · simp only [List.nil_append, List.length_take]
        omega
    · have hnone : firstIdx p buf = none :=
        firstIdx_none_of_forall p buf (fun x hx =>
          hall x (mem_take_of_mem_left buf rest _ hshort x hx))
      have hsplit : delimSplit idx post buf false = (0, none) := by
        simp only [delimSplit, hidx, hnone]
        simp
      have hcond : buf ≠ [] ∨ false = true := Or.inl hbuf
      simp only [readLoop, hcond, if_true, hsplit]
      simp only [Nat.not_lt_zero, if_false, List.drop_zero, Bool.false_eq_true]
      by_cases hfull : maxScanTokenSize ≤ buf.length
      · simp [hfull]
      · have hrest : rest ≠ [] := by
          intro h
          subst h
          simp at hlong
          omega
        simp only [hfull, if_false, hrest]
        apply ih
        · simpa [List.append_assoc] using hall
        · simp only [List.length_append, List.length_take, List.length_drop]
          omega
        · simp only [List.length_append, List.length_take]
          omega

/-- A record at the scanner's token limit stops the reading: when the first 64 KiB of
a source hold no newline, `ReadAllLines` sends no record at all for that source, however
the input arrives in reads (the scanner ends with `ErrTooLong`, which the program does
not look at), so the records after the long one are lost too. -/
theorem long_record_stops_reading (flags : MapFlags) (f : File) (trimSpace : Bytes → Bytes)
    (hd : flags.LineDelimiter = ascii "\n")
    (hlong : ∀ x ∈ f.content.take maxScanTokenSize, x ≠ 0x0A)
    (hlen : maxScanTokenSize ≤ f.content.length) :
    ReadAllLines f (lineSplitterOf flags) trimSpace (!flags.NoTrimWhitespace) = [] := by
  have hsplit : lineSplitterOf flags = delimSplit (fun data => IndexByte data 0x0A) dropCR := by
    simp only [lineSplitterOf, hd, ne_eq, not_true_eq_false, if_false]
    exact ScanLines_eq
  rw [hsplit]
  simp only [ReadAllLines]
  apply readLoop_tooLong (fun b => decide (b = 0x0A)) _ (IndexByte_eq_firstIdx 0x0A)
  · intro x hx
    simpa using hlong x (by simpa using hx)
  · simpa using hlen
  · simp

/-- A line of 65536 bytes followed by the line `b` gives no record. -/
theorem long_record_stops_reading_witness :
    ReadAllLines { content := List.replicate 65536 0x61 ++ ascii "\nb\n", reads := [] }
      (lineSplitterOf defaultFlags) trimSpaceAscii (!defaultFlags.NoTrimWhitespace) = [] :=
  long_record_stops_reading defaultFlags
    { content := List.replicate 65536 0x61 ++ ascii "\nb\n", reads := [] } trimSpaceAscii rfl
    (by
      intro x hx
      have hmax : maxScanTokenSize = 65536 := by decide
      rw [hmax, List.take_append_eq_append_take] at hx
      simp only [List.length_replicate, Nat.sub_self, List.take_zero, List.append_nil] at hx
      have := List.mem_of_mem_take hx
      rw [List.mem_replicate] at this
      omega)
    (by
      have hmax : maxScanTokenSize = 65536 := by decide
      rw [hmax, List.length_append, List.length_replicate]
      omega)

theorem pendingOutput_set (m : Mapper) (w1 : Worker) :
    ∀ (ws : List Worker) (i : Nat) (w : Worker), ws[i]? = some w →
      (pendingOutput m (ws.set i w1) ++ w.pending m).Perm
        (pendingOutput m ws ++ w1.pending m) := by
  intro ws
  induction ws with
  | nil => intro i w h; simp at h
  | cons x xs ih =>
    intro i w h
    cases i with
    | zero =>
      simp only [List.getElem?_cons_zero, Option.some.injEq] at h
      subst h
      rw [List.perm_iff_count]
      intro a
      simp only [List.set_cons_zero, pendingOutput, List.count_append]
      omega
    | succ i =>
      simp only [List.getElem?_cons_succ] at h
      have := List.perm_iff_count.1 (ih i w h)
      rw [List.perm_iff_count]
      intro a
      have := this a
      simp only [List.set_cons_succ, pendingOutput, List.count_append] at this ⊢
      omega

theorem expectedOutput_cons (m : Mapper) (exec : Cmd → Child) (r : Bytes)
    (rest : List Bytes) (p : Cmd) (h : m.generateCmd r = some p) :
    expectedOutput m exec (r :: rest) =
      (exec p).lines.map (m.echoLine r) ++ expectedOutput m exec rest := by
  simp only [expectedOutput, h]

theorem step_balanced (m : Mapper) (exec : Cmd → Child) (expected : List Bytes) (a : Action)
    (s s1 : State) (hbal : Balanced m exec expected s)
    (h : step m exec a s = some s1) : Balanced m exec expected s1 := by
  simp only [step] at h
  split at h
  · cases h
  cases a with
  | reader =>
    simp only [stepReader] at h
    split at h
    · cases h
    split at h
    · split at h <;>
      · simp only [Option.some.injEq] at h
        subst h
        exact hbal
    · simp only [Option.some.injEq] at h
      subst h
      exact hbal
    · rename_i r rest hitems
      split at h
      · simp only [Option.some.injEq] at h
        subst h
        exact hbal
      · split at h
        · simp only [Option.some.injEq] at h
          subst h
          simp only [Balanced] at hbal ⊢
          rw [hitems] at hbal
          simpa [linesOf] using hbal
        · cases h
  | main =>
    simp only [stepMain, Mapper.Map] at h
    split at h
    · split at h
      · simp only [Option.some.injEq] at h
        subst h
        simp only [Balanced] at hbal ⊢
        simpa [pendingOutput_append, Worker.pending] using hbal
      · simp only [Option.some.injEq] at h
        subst h
        exact hbal
    · split at h
      · rename_i out rest hout
        simp only [Option.some.injEq] at h
        subst h
        simp only [Balanced] at hbal ⊢
        rw [hout] at hbal
        simpa using hbal
      · split at h
        · simp only [Option.some.injEq] at h
          subst h
          exact hbal
        · cases h
    · cases h
  | closer =>
    simp only [stepCloser] at h
    split at h
    · split at h
      · split at h <;>
        · simp only [Option.some.injEq] at h
          subst h
          exact hbal
      · cases h
    · cases h
  | worker i =>
    simp only [Mapper.executeTask] at h
    split at h
    · cases h
    · cases h
    · rename_i hw
      split at h
      · rename_i line rest hin
        split at h
        · simp only [Option.some.injEq] at h
          subst h
          exact hbal
        · rename_i process hgen
          split at h
          · simp only [Option.some.injEq] at h
            subst h
            simp only [Balanced] at hbal ⊢
            rw [hin, List.cons_append, expectedOutput_cons m exec line _ process hgen] at hbal
            rw [List.perm_iff_count] at hbal ⊢
            intro b
            have h1 := hbal b
            have h2 := List.perm_iff_count.1 (pendingOutput_set m
              (Worker.running line (exec process).lines (exec process).exitOk) _ i _ hw) b
            simp only [List.count_append, Worker.pending, List.count_nil] at h1 h2 ⊢
            omega
          · simp only [Option.some.injEq] at h
            subst h
            exact hbal
      · split at h
        · split at h
          · simp only [Option.some.injEq] at h
            subst h
            exact hbal
          · simp only [Option.some.injEq] at h
            subst h
            simp only [Balanced] at hbal ⊢
            rw [List.perm_iff_count] at hbal ⊢
            intro b
            have h1 := hbal b
            have h2 := List.perm_iff_count.1 (pendingOutput_set m Worker.done _ i _ hw) b
            simp only [List.count_append, Worker.pending, List.count_nil] at h1 h2 ⊢
            omega
        · cases h
    · rename_i line out rest exitOk hw
      split at h
      · simp only [Option.some.injEq] at h
        subst h
        exact hbal
      · split at h
        · simp only [Option.some.injEq] at h
          subst h
          simp only [Balanced] at hbal ⊢
          rw [List.perm_iff_count] at hbal ⊢
          intro b
          have h1 := hbal b
          have h2 := List.perm_iff_count.1
            (pendingOutput_set m (Worker.running line rest exitOk) _ i _ hw) b
          simp only [Worker.pending, List.map_cons, List.count_cons, List.count_append,
            List.count_nil] at h1 h2 ⊢
          omega
        · cases h
    · rename_i line exitOk hw
      split at h
      · simp only [Option.some.injEq] at h
        subst h
        simp only [Balanced] at hbal ⊢
        rw [List.perm_iff_count] at hbal ⊢
        intro b
        have h1 := hbal b
        have h2 := List.perm_iff_count.1 (pendingOutput_set m Worker.idle _ i _ hw) b
        simp only [List.count_append, Worker.pending, List.map_nil, List.count_nil] at h1 h2 ⊢
        omega
      · simp only [Option.some.injEq] at h
        subst h
        exact hbal

theorem runSchedule_balanced (m : Mapper) (exec : Cmd → Child) (expected : List Bytes) :
    ∀ (schedule : List Action) (s s1 : State), Balanced m exec expected s →
      runSchedule m exec schedule s = some s1 → Balanced m exec expected s1 := by
  intro schedule
  induction schedule with
  | nil =>
    intro s s1 hbal h
    simp only [runSchedule, Option.some.injEq] at h
    subst h
    exact hbal
  | cons a rest ih =>
    intro s s1 hbal h
    simp only [runSchedule] at h
    split at h
    · cases h
    · rename_i s2 hstep
      exact ih s2 s1 (step_balanced m exec expected a s s2 hbal hstep) h

theorem pendingOutput_done (m : Mapper) :
    ∀ ws : List Worker, (∀ w ∈ ws, w = Worker.done) → pendingOutput m ws = [] := by
  intro ws
  induction ws with
  | nil => intro _; rfl
  | cons x xs ih =>
    intro hall
    have hx := hall x (List.mem_cons_self _ _)
    subst hx
    simp [pendingOutput, Worker.pending, ih (fun w hw => hall w (List.mem_cons_of_mem _ hw))]

theorem expectedOutput_length (m : Mapper) (exec : Cmd → Child) :
    ∀ records : List Bytes,
      (∀ r ∈ records, ∃ p, m.generateCmd r = some p ∧ (exec p).lines.length = 1) →
      (expectedOutput m exec records).length = records.length := by
  intro records
  induction records with
  | nil => intro _; rfl
  | cons r rest ih =>
    intro h
    obtain ⟨p, hp, hout⟩ := h r (List.mem_cons_self _ _)
    simp only [expectedOutput, hp, List.length_append, List.length_map, hout, List.length_cons]
    rw [ih (fun r1 hr1 => h r1 (List.mem_cons_of_mem _ hr1))]
    omega

/-- Completion accounting: with one worker or more, when `Run` returns the lines
printed are, up to order, exactly the lines the scanners deliver from the children of
all records (each as the worker sends it); so when the scanner delivers one line from
every child, as many lines are printed as there are records, whatever the number of
workers and the interleaving. -/
theorem completion_accounting (m : Mapper) (exec : Cmd → Child) (items : List ReaderItem)
    (s : State) (hw : 1 ≤ m.workers) (h : Reachable m exec (State.init items) s)
    (hret : s.main = Phase.returned) :
    s.sink.Perm (expectedOutput m exec (linesOf items)) ∧
      ((∀ r ∈ linesOf items, ∃ p, m.generateCmd r = some p ∧ (exec p).lines.length = 1) →
        s.sink.length = (linesOf items).length) := by
  have hinv := reachable_inv m exec _ s h
  obtain ⟨schedule, hs⟩ := h
  have hbal : Balanced m exec (expectedOutput m exec (linesOf items)) s := by
    apply runSchedule_balanced m exec _ schedule _ s _ hs
    simp [Balanced, State.init, pendingOutput]
  obtain ⟨hcl, hout⟩ := hinv.returned hret
  have hwg := hinv.quiet (hinv.closer.1 hcl)
  rw [hinv.wg] at hwg
  have hdone := activeCount_zero _ hwg
  have hmapped := hinv.mapped (by intro w hw1; rw [hret] at hw1; cases hw1)
  have hne : s.workers ≠ [] := by
    intro hnil
    have := hmapped.2
    rw [hnil] at this
    simp at this
    omega
  obtain ⟨w, hwmem⟩ := List.exists_mem_of_ne_nil _ hne
  have hw0 := hdone w hwmem
  subst hw0
  obtain ⟨hic, hin⟩ := hinv.drained hwmem
  have hitems := hinv.items hic
  have hperm : s.sink.Perm (expectedOutput m exec (linesOf items)) := by
    simp only [Balanced] at hbal
    simpa [hout, pendingOutput_done m _ hdone, hin, hitems, linesOf, expectedOutput] using hbal
  refine ⟨hperm, ?_⟩
  intro hone
  rw [hperm.length_eq, expectedOutput_length m exec _ hone]

/-- Two workers, two records: both lines are printed, the second record first. -/
theorem completion_accounting_witness :
    ∃ s, runSchedule (echoMapper 2) echoFirst scheduleTwo
        (State.init [ReaderItem.line (ascii "a"), ReaderItem.line (ascii "b")]) = some s ∧
      s.sink = [ascii "b", ascii "a"] ∧ s.sink.Perm [ascii "a", ascii "b"] :=
  ⟨_, rfl, rfl,
    (completion_accounting (echoMapper 2) echoFirst
      [ReaderItem.line (ascii "a"), ReaderItem.line (ascii "b")] _ (by decide)
      ⟨scheduleTwo, rfl⟩ rfl).1⟩

theorem step_capacity (m : Mapper) (exec : Cmd → Child) (a : Action) (s s1 : State)
    (hcap : s.inChan.length ≤ chanCap ∧ s.outChan.length ≤ chanCap)
    (h : step m exec a s = some s1) :
    s1.inChan.length ≤ chanCap ∧ s1.outChan.length ≤ chanCap := by
  simp only [step] at h
  split at h
  · cases h
  cases a with
  | reader =>
    simp only [stepReader] at h
    split at h
    · cases h
    split at h
    · split at h <;>
      · simp only [Option.some.injEq] at h
        subst h
        exact hcap
    · simp only [Option.some.injEq] at h
      subst h
      exact hcap
    · split at h
      · simp only [Option.some.injEq] at h
        subst h
        exact hcap
      · split at h
        · rename_i hroom
          simp only [Option.some.injEq] at h
          subst h
          refine ⟨?_, hcap.2⟩
          simp only [List.length_append, List.length_singleton]
          omega
        · cases h
  | main =>
    simp only [stepMain, Mapper.Map] at h
    split at h
    · split at h <;>
      · simp only [Option.some.injEq] at h
        subst h
        exact hcap
    · split at h
      · rename_i out rest hout
        simp only [Option.some.injEq] at h
        subst h
        refine ⟨hcap.1, ?_⟩
        have := hcap.2
        rw [hout] at this
        simp only [List.length_cons] at this
        simp only
        omega
      · split at h
        · simp only [Option.some.injEq] at h
          subst h
          exact hcap
        · cases h
    · cases h
  | closer =>
    simp only [stepCloser] at h
    split at h
    · split at h
      · split at h <;>
        · simp only [Option.some.injEq] at h
          subst h
          exact hcap
      · cases h
    · cases h
  | worker i =>
    simp only [Mapper.executeTask] at h
    split at h
    · cases h
    · cases h
    · split at h
      · rename_i line rest hin
        split at h
        · simp only [Option.some.injEq] at h
          subst h
          exact hcap
        · split at h
          · simp only [Option.some.injEq] at h
            subst h
            refine ⟨?_, hcap.2⟩
            have := hcap.1
            rw [hin] at this
            simp only [List.length_cons] at this
            simp only
            omega
          · simp only [Option.some.injEq] at h
            subst h
            exact hcap
      · split at h
        · split at h <;>
          · simp only [Option.some.injEq] at h
            subst h
            exact hcap
        · cases h
    · split at h
      · simp only [Option.some.injEq] at h
        subst h
        exact hcap
      · split at h
        · rename_i hroom
          simp only [Option.some.injEq] at h
          subst h
          refine ⟨hcap.1, ?_⟩
          simp only [List.length_append, List.length_singleton]
          omega
        · cases h
    · split at h <;>
      · simp only [Option.some.injEq] at h
        subst h
        exact hcap

/-- Bounded queues: in every state of every run neither channel holds more than 16
strings; a sender whose channel is full does not move until a receiver has taken a
string. -/
theorem channels_bounded (m : Mapper) (exec : Cmd → Child) (items : List ReaderItem)
    (s : State) (h : Reachable m exec (State.init items) s) :
    s.inChan.length ≤ 16 ∧ s.outChan.length ≤ 16 ∧
      (s.inChan.length = 16 → step m exec Action.reader s = none ∨
        ∃ s1, step m exec Action.reader s = some s1 ∧ s1.inChan = s.inChan) ∧
      (s.outChan.length = 16 → ∀ i, step m exec (Action.worker i) s = none ∨
        ∃ s1, step m exec (Action.worker i) s = some s1 ∧ s1.outChan = s.outChan) := by
  obtain ⟨schedule, hs⟩ := h
  have hcap : ∀ (schedule : List Action) (s0 s1 : State),
      (s0.inChan.length ≤ chanCap ∧ s0.outChan.length ≤ chanCap) →
      runSchedule m exec schedule s0 = some s1 →
      s1.inChan.length ≤ chanCap ∧ s1.outChan.length ≤ chanCap := by
    intro schedule
    induction schedule with
    | nil =>
      intro s0 s1 h0 h
      simp only [runSchedule, Option.some.injEq] at h
      subst h
      exact h0
    | cons a rest ih =>
      intro s0 s1 h0 h
      simp only [runSchedule] at h
      split at h
      · cases h
      · rename_i s2 hstep
        exact ih s2 s1 (step_capacity m exec a s0 s2 h0 hstep) h
  have := hcap schedule _ s (by simp [State.init, chanCap]) hs
  have hc : chanCap = 16 := rfl
  rw [hc] at this
  refine ⟨this.1, this.2, ?_, ?_⟩
  · intro hfull
    cases hstep : step m exec Action.reader s with
    | none => exact Or.inl rfl
    | some s1 =>
      right
      refine ⟨s1, rfl, ?_⟩
      simp only [step] at hstep
      split at hstep
      · cases hstep
      simp only [stepReader] at hstep
      split at hstep
      · cases hstep
      split at hstep
      · split at hstep <;>
        · simp only [Option.some.injEq] at hstep
          subst hstep
          rfl
      · simp only [Option.some.injEq] at hstep
        subst hstep
        rfl
      · split at hstep
        · simp only [Option.some.injEq] at hstep
          subst hstep
          rfl
        · split at hstep
          · rename_i hroom
            rw [hc] at hroom
            omega
          · cases hstep
  · intro hfull i
    cases hstep : step m exec (Action.worker i) s with
    | none => exact Or.inl rfl
    | some s1 =>
      right
      refine ⟨s1, rfl, ?_⟩
      simp only [step] at hstep
      split at hstep
      · cases hstep
      simp only [Mapper.executeTask] at hstep
      split at hstep
      · cases hstep
      · cases hstep
      · split at hstep
        · split at hstep
          · simp only [Option.some.injEq] at hstep
            subst hstep
            rfl
          · split at hstep <;>
            · simp only [Option.some.injEq] at hstep
              subst hstep
              rfl
        · split at hstep
          · split at hstep <;>
            · simp only [Option.some.injEq] at hstep
              subst hstep
              rfl
          · cases hstep
      · split at hstep
        · simp only [Option.some.injEq] at hstep
          subst hstep
          rfl
        · split at hstep
          · rename_i hroom
            rw [hc] at hroom
            omega
          · cases hstep
      · split at hstep <;>
        · simp only [Option.some.injEq] at hstep
          subst hstep
          rfl

/-- Two records sent before any worker takes one. -/
theorem channels_bounded_witness :
    ∃ s, runSchedule (echoMapper 2) echoFirst
        [Action.main, Action.reader, Action.reader]
        (State.init [ReaderItem.line (ascii "a"), ReaderItem.line (ascii "b")]) = some s ∧
      s.inChan.length ≤ 16 ∧ s.inChan = [ascii "a", ascii "b"] :=
  ⟨_, rfl,
    (channels_bounded (echoMapper 2) echoFirst
      [ReaderItem.line (ascii "a"), ReaderItem.line (ascii "b")] _
      ⟨[Action.main, Action.reader, Action.reader], rfl⟩).1, by decide⟩

theorem step_alive (m : Mapper) (exec : Cmd → Child) (a : Action) (s s1 : State)
    (h : step m exec a s = some s1) :
    s.status = Status.running ∧ (s1.main = Phase.returned → s1.status = Status.running) := by
  simp only [step] at h
  split at h
  · cases h
  rename_i hguard
  have hrun : s.status = Status.running := by
    by_contra hc
    exact hguard (Or.inl hc)
  have hmain : s.main ≠ Phase.returned := fun hc => hguard (Or.inr hc)
  refine ⟨hrun, ?_⟩
  cases a with
  | reader =>
    simp only [stepReader] at h
    split at h
    · cases h
    split at h
    · split at h <;>
      · simp only [Option.some.injEq] at h
        subst h
        exact fun hc => absurd hc hmain
    · simp only [Option.some.injEq] at h
      subst h
      exact fun hc => absurd hc hmain
    · split at h
      · simp only [Option.some.injEq] at h
        subst h
        exact fun hc => absurd hc hmain
      · split at h
        · simp only [Option.some.injEq] at h
          subst h
          exact fun hc => absurd hc hmain
        · cases h
  | main =>
    simp only [stepMain, Mapper.Map] at h
    split at h
    · split at h <;>
      · simp only [Option.some.injEq] at h
        subst h
        intro hc
        cases hc
    · split at h
      · simp only [Option.some.injEq] at h
        subst h
        exact fun hc => absurd hc hmain
      · split at h
        · simp only [Option.some.injEq] at h
          subst h
          exact fun _ => hrun
        · cases h
    · cases h
  | closer =>
    simp only [stepCloser] at h
    split at h
    · split at h
      · split at h <;>
        · simp only [Option.some.injEq] at h
          subst h
          exact fun hc => absurd hc hmain
      · cases h
    · cases h
  | worker i =>
    simp only [Mapper.executeTask] at h
    split at h
    · cases h
    · cases h
    · split at h
      · split at h
        · simp only [Option.some.injEq] at h
          subst h
          exact fun hc => absurd hc hmain
        · split at h <;>
          · simp only [Option.some.injEq] at h
            subst h
            exact fun hc => absurd hc hmain
      · split at h
        · split at h <;>
          · simp only [Option.some.injEq] at h
            subst h
            exact fun hc => absurd hc hmain
        · cases h
    · split at h
      · simp only [Option.some.injEq] at h
        subst h
        exact fun hc => absurd hc hmain
      · split at h
        · simp only [Option.some.injEq] at h
          subst h
          exact fun hc => absurd hc hmain
        · cases h
    · split at h <;>
      · simp only [Option.some.injEq] at h
        subst h
        exact fun hc => absurd hc hmain

theorem runSchedule_alive (m : Mapper) (exec : Cmd → Child) :
    ∀ (schedule : List Action) (s s1 : State),
      (s.main = Phase.returned → s.status = Status.running) →
      runSchedule m exec schedule s = some s1 →
      (s1.main = Phase.returned → s1.status = Status.running) := by
  intro schedule
  induction schedule with
  | nil =>
    intro s s1 h0 h
    simp only [runSchedule, Option.some.injEq] at h
    subst h
    exact h0
  | cons a rest ih =>
    intro s s1 _ h
    simp only [runSchedule] at h
    split at h
    · cases h
    · rename_i s2 hstep
      exact ih s2 s1 (step_alive m exec a s s2 hstep).2 h

/-- Fail-fast: a worker whose child has exited with a failure ends the process at
its next step (`log.Fatal`), whatever the other workers are doing; and in every state in
which the process has ended that way no goroutine takes another step and `Run` has not
returned. -/
theorem fail_fast (m : Mapper) (exec : Cmd → Child) (items : List ReaderItem) (s : State)
    (h : Reachable m exec (State.init items) s) :
    (∀ i line, s.status = Status.running → s.main ≠ Phase.returned →
        s.workers[i]? = some (Worker.running line [] false) →
        step m exec (Action.worker i) s = some { s with status := Status.fatal }) ∧
      (s.status = Status.fatal →
        s.main ≠ Phase.returned ∧ ∀ a, step m exec a s = none) := by
  constructor
  · intro i line hrun hmain hw
    simp [step, hrun, hmain, Mapper.executeTask, hw]
  · intro hfatal
    obtain ⟨schedule, hs⟩ := h
    have := runSchedule_alive m exec schedule _ s (by simp [State.init]) hs
    constructor
    · intro hret
      rw [this hret] at hfatal
      cases hfatal
    · intro a
      simp [step, hfatal]

/-- A child that exits with a failure ends the run before the second record is taken. -/
theorem fail_fast_witness :
    ∃ s, runSchedule (echoMapper 1) (fun _ => { startOk := true, stdout := { content := [], reads := [] }, exitOk := false })
        [Action.main, Action.reader, Action.worker 0, Action.worker 0]
        (State.init [ReaderItem.line (ascii "a"), ReaderItem.line (ascii "b")]) = some s ∧
      s.status = Status.fatal ∧ s.sink = [] ∧ step (echoMapper 1)
        (fun _ => { startOk := true, stdout := { content := [], reads := [] }, exitOk := false }) Action.reader s = none :=
  ⟨_, rfl, rfl, rfl,
    ((fail_fast (echoMapper 1) (fun _ => { startOk := true, stdout := { content := [], reads := [] }, exitOk := false })
      [ReaderItem.line (ascii "a"), ReaderItem.line (ascii "b")] _
      ⟨[Action.main, Action.reader, Action.worker 0, Action.worker 0], rfl⟩).2 rfl).2
      Action.reader⟩

theorem allMatchesFrom_fuel (re : Regexp) (hre : re.WellFormed) (s : Bytes) :
    ∀ (fuel1 fuel2 pos : Nat) (prev : Int), s.length + 1 - pos ≤ fuel1 →
      s.length + 1 - pos ≤ fuel2 →
      allMatchesFrom re s fuel1 pos prev = allMatchesFrom re s fuel2 pos prev := by
  intro fuel1
  induction fuel1 with
  | zero =>
    intro fuel2 pos prev h1 _
    have hp : ¬ pos ≤ s.length := by omega
    cases fuel2 with
    | zero => rfl
    | succ f2 => simp [allMatchesFrom, hp]
  | succ f1 ih =>
    intro fuel2 pos prev h1 h2
    cases fuel2 with
    | zero =>
      have hp : ¬ pos ≤ s.length := by omega
      simp [allMatchesFrom, hp]
    | succ f2 =>
      simp only [allMatchesFrom]
      by_cases hp : pos ≤ s.length
      swap
      · simp [hp]
      simp only [hp, if_true]
      cases hf : re.find s pos with
      | none => rfl
      | some m =>
        obtain ⟨a, b⟩ := m
        obtain ⟨ha, hab, hb⟩ := hre s pos a b hf
        simp only
        have hpos : pos < (if b = pos then
            (if (decodeRune (s.drop pos)).2 > 0 then pos + (decodeRune (s.drop pos)).2
              else s.length + 1) else b) := by
          split
          · split <;> omega
          · omega
        rw [ih f2 _ (b : Int) (by omega) (by omega)]

/-- The loop bound of `FindAllStringIndex` is never what ends the loop: every bound above
the length of the string gives the same matches. -/
theorem FindAllStringIndex_fuel (re : Regexp) (hre : re.WellFormed) (s : Bytes) (n : Int)
    (fuel : Nat) (h : s.length + 1 ≤ fuel) :
    allMatchesAux re s (if n < 0 then s.length + 1 else n.toNat) fuel 0 0 (-1) =
      re.FindAllStringIndex s n := by
  simp only [Regexp.FindAllStringIndex]
  rw [allMatchesAux_eq_take, allMatchesAux_eq_take,
    allMatchesFrom_fuel re hre s fuel (s.length + 2) 0 (-1) (by omega) (by omega)]

/-- A line at the scanner's token limit stops the streaming: when the first 64 KiB of the
output of a child hold no newline, the scanner of the worker delivers no line at all,
however the output arrives in reads (the scanner ends with `ErrTooLong`, which
`executeTask` does not look at), so the lines after the long one are lost too. -/
theorem long_line_stops_streaming (c : Child)
    (hlong : ∀ x ∈ c.stdout.content.take maxScanTokenSize, x ≠ 0x0A)
    (hlen : maxScanTokenSize ≤ c.stdout.content.length) :
    c.lines = [] := by
  simp only [Child.lines, ScanLines_eq]
  apply readLoop_tooLong (fun b => decide (b = 0x0A)) _ (IndexByte_eq_firstIdx 0x0A)
  · intro x hx
    simpa using hlong x (by simpa using hx)
  · simpa using hlen
  · simp

/-- A child that prints a line of 65536 bytes and then the line `b` has no line
delivered. -/
theorem long_line_stops_streaming_witness :
    Child.lines { startOk := true,
                  stdout := { content := List.replicate 65536 0x61 ++ ascii "\nb\n",
                              reads := [] },
                  exitOk := true } = [] :=
  long_line_stops_streaming _
    (by
      intro x hx
      have hmax : maxScanTokenSize = 65536 := by decide
      simp only [hmax] at hx
      rw [List.take_append_eq_append_take] at hx
      simp only [List.length_replicate, Nat.sub_self, List.take_zero, List.append_nil] at hx
      have := List.mem_of_mem_take hx
      rw [List.mem_replicate] at this
      omega)
    (by
      have hmax : maxScanTokenSize = 65536 := by decide
      simp only [hmax, List.length_append, List.length_replicate]
      omega)

end GoMap
